import Mathlib

/-!
# Query lowering in package `pir`: a shallow embedding of `plan/pir/build.go`

The functions of `plan/pir/build.go` and `plan/pir/optimize.go` are written
here as pure functions; Go code that updates a value in place returns the
updated value, and a receiver with mutable fields (`tableReplacer`,
`hoistwalk`) becomes a state value that is passed in and handed back.

Package `expr` (the AST, bindings, the tree walker, `Equivalent`, `TypeOf`,
the printer) and the files of package `pir` that declare `Trace`, the steps,
`Class`, `decorrelate` and the optimizer passes are not among the sources.
The data types are modelled from the specification and from the way
`build.go` uses them; functions whose bodies are missing are fields of
`Pkg`, so every theorem holds for all of their possible behaviours.
-/

namespace Sneller

/-! ## Package `expr`: the AST -/

/-- Modelled from the spec: the accessors that follow the first identifier of
a path (type `expr.Path`, field `Rest`); `build.go` uses `*expr.Dot` with its
`Field`, any other accessor is an index. -/
inductive PathComponent where
  | Dot (Field : String)
  | Index (Offset : Int)

/-- Modelled from the spec: the operator of `expr.Builtin`; the seven operators
that `build.go` names, and `Other` for every further built-in function. -/
inductive BuiltinOp where
  | InSubquery
  | HashReplacement
  | ScalarReplacement
  | ListReplacement
  | StructReplacement
  | InReplacement
  | MakeStruct
  | Other (name : String)
deriving DecidableEq

/-- Modelled from the spec: the keyword of an `expr.IsKey` node (IS NULL,
IS MISSING, IS TRUE, ...). -/
inductive Keyword where
  | IsNull
  | IsNotNull
  | IsMissing
  | IsNotMissing
  | IsTrue
  | IsNotTrue
  | IsFalse
  | IsNotFalse
deriving DecidableEq

/-- Modelled from the spec: the operator of `expr.Comparison`. -/
inductive CmpOp where
  | Equals
  | NotEquals
  | Less
  | LessEquals
  | Greater
  | GreaterEquals
  | Other (name : String)
deriving DecidableEq

/-- Modelled from the spec: the operator of `expr.Arithmetic`. -/
inductive ArithOp where
  | AddOp
  | SubOp
  | MulOp
  | DivOp
  | ModOp
  | Other (name : String)
deriving DecidableEq

/-- Modelled from the spec: the operator of `expr.Logical`. -/
inductive LogicalOp where
  | OpAnd
  | OpOr
  | Other (name : String)
deriving DecidableEq

/-- Modelled from the spec: the operator of `expr.Aggregate`; `OpCount` and
`OpCountDistinct` are named in `build.go`. -/
inductive AggregateOp where
  | OpCount
  | OpCountDistinct
  | Other (name : String)
deriving DecidableEq

/-- Modelled from the spec: the kind of an `expr.Join`; only `CrossJoin` is
named in `build.go`. -/
inductive JoinKind where
  | CrossJoin
  | Other (name : String)
deriving DecidableEq

/-- Modelled from the spec: type `expr.Binding`, an expression with a result
name.  The Go fields behind the name are private; `as` holds the name given
with AS or assigned with `As`.  `build.go` makes a binding without a name as
`expr.Binding{Expr: e}` and as `expr.Bind(e, "")`, so the empty string stands
for no assigned name, and the binding is explicitly named when `as` holds a
name. -/
structure BindingOf (N : Type) where
  Expr : N
  as : String

/-- Modelled from the spec: type `expr.Order`, one ORDER BY term. -/
structure OrderOf (N : Type) where
  Column : N
  Desc : Bool
  NullsLast : Bool

/-- Modelled from the spec: type `expr.Window`, the OVER clause of an
aggregate. -/
structure WindowOf (N : Type) where
  PartitionBy : List N
  OrderBy : List (OrderOf N)

/-- Modelled from the spec: type `expr.Select` with the fields that
`build.go` reads and writes.  A nil pointer or nil clause is `none`, and a
slice is the list of its elements.  `build.go` tests the slices
`DistinctExpr`, `GroupBy` and `OrderBy` against nil, and a slice without
elements is nil or not: the fields `DistinctExprMade`, `GroupByMade` and
`OrderByMade` are true for a slice that was made without elements (it is not
nil), and false for the nil slice.  A slice with elements is never nil,
whatever the field says. -/
structure SelectOf (N : Type) where
  Distinct : Bool
  DistinctExpr : List N
  Columns : List (BindingOf N)
  From : Option N
  Where : Option N
  GroupBy : List (BindingOf N)
  Having : Option N
  OrderBy : List (OrderOf N)
  Limit : Option Int
  Offset : Option Int
  DistinctExprMade : Bool := false
  GroupByMade : Bool := false
  OrderByMade : Bool := false

/-- Modelled from the spec: interface `expr.Node`, one constructor for each
Go node type that `build.go` inspects or creates.  `Nil` is the nil interface
value, which `rewriteScalarArg` can leave in an operand slot. -/
inductive Node where
  | Nil
  | Path (First : String) (Rest : List PathComponent)
  | Missing
  | Null
  | Bool (b : Bool)
  | Integer (i : Int)
  | String (s : String)
  | Star
  | Builtin (Func : BuiltinOp) (Args : List Node)
  | IsKey (Key : Keyword) (Expr : Node)
  | Not (Expr : Node)
  | Comparison (Op : CmpOp) (Left Right : Node)
  | Arithmetic (Op : ArithOp) (Left Right : Node)
  | Logical (Op : LogicalOp) (Left Right : Node)
  | Aggregate (Op : AggregateOp) (Inner : Node) (Over : Option (WindowOf Node))
  | Select (s : SelectOf Node)
  | Table (b : BindingOf Node)
  | Join (Kind : JoinKind) (Left : Node) (Right : BindingOf Node)
  | Unpivot (TupleRef : Node) (As At : Option String)
  | Appended (Values : List Node)

abbrev Binding := BindingOf Node

abbrev Order := OrderOf Node

abbrev Window := WindowOf Node

abbrev Select := SelectOf Node

/-- The test `s.DistinctExpr != nil`. -/
def SelectOf.DistinctExprNotNil (s : Select) : Bool :=
  !s.DistinctExpr.isEmpty || s.DistinctExprMade

/-- The test `s.GroupBy != nil`. -/
def SelectOf.GroupByNotNil (s : Select) : Bool :=
  !s.GroupBy.isEmpty || s.GroupByMade

/-- The test `s.OrderBy != nil`. -/
def SelectOf.OrderByNotNil (s : Select) : Bool :=
  !s.OrderBy.isEmpty || s.OrderByMade

/-- Type `expr.CTE`: one binding of a WITH list, `Table AS (As)`. -/
structure CTE where
  Table : String
  As : Select

/-- Type `expr.Query`: a WITH list, a body and an optional INTO target. -/
structure Query where
  With : List CTE
  Body : Node
  Into : Option Node

/-! ## Errors -/

/-- Type CompileError of build.go: an error attached to an expression. -/
structure CompileError where
  In : Option Node
  Err : String

/-- A Go `error` value: a `*CompileError`, or an error of another type (made
by `fmt.Errorf`, or handed back by the codec). -/
inductive GoError where
  | compile (c : CompileError)
  | other (msg : String)

/-- Function errorf of build.go; the caller passes the formatted message. -/
def errorf (e : Node) (msg : String) : GoError :=
  .compile { In := some e, Err := msg }

/-! ## Package `pir`: traces -/

/-- Modelled from the spec: the cardinality classes that `Trace.Class`
returns.  `build.go` names the first four; the last stands for every larger
class (the `default` branch of its switches). -/
inductive SizeClass where
  | SizeZero
  | SizeOne
  | SizeExactSmall
  | SizeColumnCardinality
  | SizeUnbounded
deriving DecidableEq

/-- Modelled from the spec: the step variants of a trace, with the
expressions each one holds.  `Bind` (field `bind`), `Unpivot` (field `Ast`),
`DummyOutput` and `pseudoTable` are named in the sources. -/
inductive Step where
  | Scan (Table : Binding)
  | Iterate (Value : Binding)
  | Filter (Where : Node)
  | Bind (bind : List Binding)
  | BindStar
  | Aggregate (Agg : List Binding) (GroupBy : List Binding) (Having : Option Node)
  | Distinct (Columns : List Node)
  | Order (Columns : List Order)
  | LimitOffset (Limit Offset : Int)
  | Unpivot (Ast : Node)
  | Output (Into : Node) (Target : String)
  | DummyOutput
  | pseudoTable

/-- Modelled from the spec: type `Trace`.  The chain of steps is a list whose
head is the terminal step `top` and whose tail follows the parent links;
`Parent` is the enclosing trace as it stood when this trace was created;
`final` is the list that `FinalBindings` returns. -/
inductive Trace where
  | mk (top : List Step) (Parent : Option Trace) (Replacements : List Trace)
      (final : List Binding)

namespace Trace

def top : Trace → List Step
  | .mk t _ _ _ => t

def Parent : Trace → Option Trace
  | .mk _ p _ _ => p

def Replacements : Trace → List Trace
  | .mk _ _ r _ => r

def final : Trace → List Binding
  | .mk _ _ _ f => f

def setTop (b : Trace) (t : List Step) : Trace :=
  .mk t b.Parent b.Replacements b.final

def setReplacements (b : Trace) (r : List Trace) : Trace :=
  .mk b.top b.Parent r b.final

def setFinal (b : Trace) (f : List Binding) : Trace :=
  .mk b.top b.Parent b.Replacements f

/-- Modelled from the spec: method `FinalBindings`, the frozen list of final
output bindings of the trace. -/
def FinalBindings (b : Trace) : List Binding :=
  b.final

end Trace

/-- The functions of packages `expr`, `ion` and `pir` that `build.go` calls
and whose bodies are not among the sources.  Every definition below takes
them as given. -/
structure Pkg where
  /-- the result name that `Binding.Result` gives a binding without a name -/
  DefaultBinding : Node → String
  /-- function `expr.Equivalent` -/
  Equivalent : Node → Node → Bool
  /-- function `expr.ToString` -/
  ToString : Node → String
  /-- the text that the `%q` verb of `fmt` prints for a string -/
  Quote : String → String
  /-- the text that the `%s` verb of `fmt` prints for a node -/
  Sprint : Node → String
  /-- the text that the `%q` verb of `fmt` prints for a node -/
  SprintQ : Node → String
  /-- the text that the `%T` verb of `fmt` prints for a node -/
  TypeName : Node → String
  /-- function `expr.Decode` applied to the buffer and symbol table that the
  method `Encode` of the node has filled -/
  Decode : Node → Except GoError Node
  /-- what the call `build(parent, s, env)` made for a sub-query returns -/
  build : Trace → Select → Except GoError Trace
  /-- method `Trace.Class` -/
  Class : Trace → SizeClass
  /-- method `Trace.decorrelate`: the trace as the call leaves it, the label,
  and the correlated variable (`Node.Nil` when the trace is not correlated) -/
  decorrelate : Trace → Except GoError (Trace × Node × Node)
  /-- function `expr.TypeOf` under the hint `stepHint` of a step chain -/
  TypeOf : Node → List Step → Nat
  /-- constant `expr.MissingType` -/
  MissingType : Nat
  /-- function `expr.Simplify` under `expr.NoHint`, on a SELECT -/
  Simplify : Select → Select
  /-- function `expr.Check` (`none` for a nil error) -/
  Check : Select → Option GoError
  /-- the rewrite `expr.Rewrite(expr.Simplifier(hint), e)`, the hint being the
  `stepHint` of a step chain -/
  Simplifier : List Step → Node → Node
  /-- the rewrite `expr.Rewrite(expr.LogicSimplifier(hint), e)` -/
  LogicSimplifier : List Step → Node → Node
  /-- the optimizer passes that `optimize` calls and `optimize.go` does not
  define; each gives the trace as the pass leaves it -/
  aggelim : Trace → Trace
  aggfilter : Trace → Trace
  orderelim : Trace → Trace
  projectpushdown : Trace → Trace
  liftprojectagg : Trace → Trace
  distinctelim : Trace → Trace
  countdistinct2count : Trace → Trace
  strengthReduce : Trace → Trace
  filterelim : Trace → Trace
  filterpushdown : Trace → Trace
  limitpushdown : Trace → Trace
  /-- pass joinelim: the trace as it leaves it and its error (`none` for nil) -/
  joinelim : Trace → Trace × Option GoError
  projectelim : Trace → Trace
  /-- function postcheck: the trace as it leaves it and its error -/
  postcheck : Trace → Trace × Option GoError
  partition : Trace → Trace
  mergereplacements : Trace → Trace
  /-- method `Equals` of an aggregate: structural equality of two nodes -/
  Equals : Node → Node → Bool
  /-- function `expr.Copy` -/
  Copy : Node → Node
  /-- function gensym of package `pir` -/
  gensym : Nat → Nat → String
  /-- the text that the `%q` verb of `fmt` prints for the kind of a join -/
  KindQ : JoinKind → String
  /-- method `Trace.Begin`: the trace as the call leaves it and its error -/
  Begin : Trace → Binding → Trace × Option GoError
  /-- method `Trace.Iterate`: the trace as the call leaves it and its error -/
  Iterate : Trace → Binding → Trace × Option GoError
  /-- method `get` of a step, called on the top of a chain for its effect:
  the chain as the call leaves it -/
  get : List Step → String → List Step
  /-- whether the type of the node implements the interface `expr.Constant` -/
  Constant : Node → Bool
  /-- function flattenBind of package `pir` -/
  flattenBind : List Binding → List Binding
  /-- function flattenIntoFunc of package `pir`, called with a list of
  bindings and the accessor of a list of nodes: the nodes as the call leaves
  them -/
  flattenIntoFunc : List Binding → List Node → List Node
  /-- function aggdistinctpromote of package `pir`: the SELECT as the call
  leaves it and its error -/
  aggdistinctpromote : Select → Select × Option GoError
  /-- function identityBindings of package `pir` -/
  identityBindings : List Binding → List Binding
  /-- the methods of Trace that add steps; each gives the trace as the call
  leaves it and its error (`none` for nil) -/
  Where : Trace → Node → Trace × Option GoError
  splitAggregate : Trace → List Sneller.Order → List Binding → List Binding → Option Node →
    Trace × Option GoError
  /-- method splitAggregateWithAuxiliary, which also returns the final
  columns -/
  splitAggregateWithAuxiliary : Trace → List Sneller.Order → List Binding → List Binding →
    List Binding → Option Node → Trace × List Binding × Option GoError
  Distinct : Trace → List Node → Trace × Option GoError
  DistinctFromBindings : Trace → List Binding → Trace × Option GoError
  Bind : Trace → List Binding → Trace × Option GoError
  BindStar : Trace → Trace × Option GoError
  LimitOffset : Trace → Int → Int → Trace × Option GoError
  Order : Trace → List Sneller.Order → Trace × Option GoError

/-! ## Bindings -/

namespace BindingOf

/-- Modelled from the spec: method `Explicit`, whether the binding carries a
name of its own (written with AS, or assigned with `As`). -/
def Explicit (b : Binding) : Bool :=
  b.as != ""

/-- Modelled from the spec: method `Result`, the assigned name, or the
default name of the expression when none was assigned. -/
def Result (d : Pkg) (b : Binding) : String :=
  if b.as != "" then b.as else d.DefaultBinding b.Expr

/-- Modelled from the spec: method `As`, which assigns the result name.  The
sources hand it the name found by pickOutputs (never empty), a generated
name, or the result name of the binding itself. -/
def As (b : Binding) (x : String) : Binding :=
  { b with as := x }

end BindingOf

/-- Modelled from the spec: function `expr.Bind`. -/
def Bind (e : Node) (as : String) : Binding :=
  { Expr := e, as := as }

/-! ## `pickOutputs` and `normalizeOrderBy` -/

/-- The length of the longest name in the list. -/
def maxLen : List String → Nat
  | [] => 0
  | s :: rest => max s.length (maxLen rest)

/-- The inner loop of pickOutputs for the column at zero-based position `i`:
`for res == "" || used(res) { res += fmt.Sprintf("_%d", i+1) }`, where
`auto` holds the names in use. -/
def pickOutputs.unique (auto : List String) (i : Nat) (res : String) : String :=
  if res = "" ∨ res ∈ auto then
    pickOutputs.unique auto i (res ++ ("_" ++ toString (i + 1)))
  else res
termination_by (maxLen auto + 1) - res.length
decreasing_by
  rename_i h
  have hle : res.length ≤ maxLen auto := by
    rcases h with h | h
    · subst h
      exact Nat.zero_le _
    · clear * - h
      induction auto with
      | nil => cases h
      | cons a rest ih =>
        rcases List.mem_cons.mp h with h1 | h1
        · subst h1
          exact Nat.le_max_left _ _
        · exact Nat.le_trans (ih h1) (Nat.le_max_right _ _)
  have hlen : (res ++ ("_" ++ toString (i + 1))).length
      = res.length + (1 + (toString (i + 1)).length) := by
    rw [String.length_append, String.length_append]
    rfl
  omega

/-- The outer loop of pickOutputs from position `i` on, `auto` being the set
of names in use so far. -/
def pickOutputs.columns (d : Pkg) : Nat → List String → List Binding → List Binding
  | _, _, [] => []
  | i, auto, c :: cs =>
    if c.Explicit then
      c :: pickOutputs.columns d (i + 1) (c.Result d :: auto) cs
    else
      let res := pickOutputs.unique auto i (c.Result d)
      c.As res :: pickOutputs.columns d (i + 1) (res :: auto) cs

/-- Function pickOutputs of build.go. -/
def pickOutputs (d : Pkg) (s : Select) : Select :=
  { s with Columns := pickOutputs.columns d 0 [] s.Columns }

/-- The inner loop of normalizeOrderBy for one ORDER BY term: the first
column whose expression is equivalent to the term gives the term its result
name as a path, and the loop stops there. -/
def normalizeOrderBy.term (d : Pkg) (o : Order) : List Binding → Order
  | [] => o
  | c :: cs =>
    if d.Equivalent o.Column c.Expr then
      { o with Column := .Path (c.Result d) [] }
    else normalizeOrderBy.term d o cs

/-- Function normalizeOrderBy of build.go. -/
def normalizeOrderBy (d : Pkg) (s : Select) : Select :=
  { s with OrderBy := s.OrderBy.map fun o => normalizeOrderBy.term d o s.Columns }

/-- The text of `k` copies of the suffix that pickOutputs appends to the
name of the column at zero-based position `i`. -/
def repeatSuffix (i : Nat) : Nat → String
  | 0 => ""
  | k + 1 => ("_" ++ toString (i + 1)) ++ repeatSuffix i k

/-- The name `x` is non-empty, is not in the set `auto` and is not the result
name of a binding in `pre`. -/
def Unused (d : Pkg) (auto : List String) (pre : List Binding) (x : String) : Prop :=
  x ≠ "" ∧ x ∉ auto ∧ ∀ b ∈ pre, b.Result d ≠ x

/-! ## The tree walker of package `expr` -/

/-- Modelled from the spec: interface `expr.Rewriter` over a state `σ` that
stands for the mutable fields of the receiver.  `Walk` tells whether the
walker descends into the children of the node (Go: a non-nil result);
`Rewrite` gives the node that replaces the visited one, or `none` when the
Go code panics. -/
structure Rewriter (σ : Type) where
  Walk : σ → Node → Bool
  Rewrite : σ → Node → Option (Node × σ)

mutual
/-- Modelled from the spec: function `expr.Rewrite`, the depth-first walk.
The children of a node are rewritten first, when `Walk` allows it, from left
to right and threading the state; then the node itself is handed to
`Rewrite`.  A SELECT is walked in binding order. -/
def Rewrite {σ : Type} (r : Rewriter σ) (st : σ) : Node → Option (Node × σ)
  | .Builtin f args =>
    if r.Walk st (.Builtin f args) then
      (Rewrite.nodes r st args).bind fun p => r.Rewrite p.2 (.Builtin f p.1)
    else r.Rewrite st (.Builtin f args)
  | .IsKey k x =>
    if r.Walk st (.IsKey k x) then
      (Rewrite r st x).bind fun p => r.Rewrite p.2 (.IsKey k p.1)
    else r.Rewrite st (.IsKey k x)
  | .Not x =>
    if r.Walk st (.Not x) then
      (Rewrite r st x).bind fun p => r.Rewrite p.2 (.Not p.1)
    else r.Rewrite st (.Not x)
  | .Comparison op l rt =>
    if r.Walk st (.Comparison op l rt) then
      (Rewrite r st l).bind fun p =>
      (Rewrite r p.2 rt).bind fun q => r.Rewrite q.2 (.Comparison op p.1 q.1)
    else r.Rewrite st (.Comparison op l rt)
  | .Arithmetic op l rt =>
    if r.Walk st (.Arithmetic op l rt) then
      (Rewrite r st l).bind fun p =>
      (Rewrite r p.2 rt).bind fun q => r.Rewrite q.2 (.Arithmetic op p.1 q.1)
    else r.Rewrite st (.Arithmetic op l rt)
  | .Logical op l rt =>
    if r.Walk st (.Logical op l rt) then
      (Rewrite r st l).bind fun p =>
      (Rewrite r p.2 rt).bind fun q => r.Rewrite q.2 (.Logical op p.1 q.1)
    else r.Rewrite st (.Logical op l rt)
  | .Aggregate op x over =>
    if r.Walk st (.Aggregate op x over) then
      (Rewrite r st x).bind fun p =>
      (Rewrite.window r p.2 over).bind fun q => r.Rewrite q.2 (.Aggregate op p.1 q.1)
    else r.Rewrite st (.Aggregate op x over)
  | .Select s =>
    if r.Walk st (.Select s) then
      (Rewrite.option r st s.From).bind fun f =>
      (Rewrite.option r f.2 s.Where).bind fun w =>
      (Rewrite.bindings r w.2 s.GroupBy).bind fun g =>
      (Rewrite.nodes r g.2 s.DistinctExpr).bind fun dx =>
      (Rewrite.bindings r dx.2 s.Columns).bind fun c =>
      (Rewrite.option r c.2 s.Having).bind fun hv =>
      (Rewrite.orders r hv.2 s.OrderBy).bind fun o =>
        r.Rewrite o.2 (.Select { s with
          From := f.1, Where := w.1, GroupBy := g.1, DistinctExpr := dx.1,
          Columns := c.1, Having := hv.1, OrderBy := o.1 })
    else r.Rewrite st (.Select s)
  | .Table b =>
    if r.Walk st (.Table b) then
      (Rewrite r st b.Expr).bind fun p => r.Rewrite p.2 (.Table { b with Expr := p.1 })
    else r.Rewrite st (.Table b)
  | .Join k l rt =>
    if r.Walk st (.Join k l rt) then
      (Rewrite r st l).bind fun p =>
      (Rewrite r p.2 rt.Expr).bind fun q =>
        r.Rewrite q.2 (.Join k p.1 { rt with Expr := q.1 })
    else r.Rewrite st (.Join k l rt)
  | .Unpivot x a t =>
    if r.Walk st (.Unpivot x a t) then
      (Rewrite r st x).bind fun p => r.Rewrite p.2 (.Unpivot p.1 a t)
    else r.Rewrite st (.Unpivot x a t)
  | .Appended vs =>
    if r.Walk st (.Appended vs) then
      (Rewrite.nodes r st vs).bind fun p => r.Rewrite p.2 (.Appended p.1)
    else r.Rewrite st (.Appended vs)
  | n => r.Rewrite st n
/-- The walk over a list of nodes. -/
def Rewrite.nodes {σ : Type} (r : Rewriter σ) (st : σ) : List Node → Option (List Node × σ)
  | [] => some ([], st)
  | a :: rest =>
    (Rewrite r st a).bind fun p =>
    (Rewrite.nodes r p.2 rest).bind fun q => some (p.1 :: q.1, q.2)
/-- The walk over the expressions of a list of bindings. -/
def Rewrite.bindings {σ : Type} (r : Rewriter σ) (st : σ) :
    List Binding → Option (List Binding × σ)
  | [] => some ([], st)
  | b :: rest =>
    (Rewrite r st b.Expr).bind fun p =>
    (Rewrite.bindings r p.2 rest).bind fun q => some ({ b with Expr := p.1 } :: q.1, q.2)
/-- The walk over the columns of a list of ORDER BY terms. -/
def Rewrite.orders {σ : Type} (r : Rewriter σ) (st : σ) :
    List Order → Option (List Order × σ)
  | [] => some ([], st)
  | o :: rest =>
    (Rewrite r st o.Column).bind fun p =>
    (Rewrite.orders r p.2 rest).bind fun q => some ({ o with Column := p.1 } :: q.1, q.2)
/-- The walk over an optional clause. -/
def Rewrite.option {σ : Type} (r : Rewriter σ) (st : σ) :
    Option Node → Option (Option Node × σ)
  | none => some (none, st)
  | some a => (Rewrite r st a).bind fun p => some (some p.1, p.2)
/-- The walk over an OVER clause. -/
def Rewrite.window {σ : Type} (r : Rewriter σ) (st : σ) :
    Option Window → Option (Option Window × σ)
  | none => some (none, st)
  | some w =>
    (Rewrite.nodes r st w.PartitionBy).bind fun p =>
    (Rewrite.orders r p.2 w.OrderBy).bind fun q =>
      some (some { PartitionBy := p.1, OrderBy := q.1 }, q.2)
end

/-! ## CTE substitution -/

/-- Function exprcopy of build.go: a copy made by encoding the node and
decoding the bytes again. -/
def exprcopy (d : Pkg) (e : Node) : Except GoError Node :=
  d.Decode e

/-- Type tableReplacer of build.go; the field `with` is written `with_`. -/
structure tableReplacer where
  with_ : List CTE
  err : Option GoError

namespace tableReplacer

/-- The loop of cloneCTE, `for i := len(with) - 1; i >= 0; i--`, over the
bindings still to be looked at, the last-declared one first.  The result is
the node returned (`Node.Nil` for nil) and the new value of `t.err`. -/
def cloneCTE.scan (d : Pkg) (name : String) (table : Binding) (err : Option GoError) :
    List CTE → Node × Option GoError
  | [] => (.Nil, err)
  | c :: rest =>
    if name = c.Table then
      match exprcopy d (.Select c.As) with
      | .error e => (.Nil, if err.isNone then some e else err)
      | .ok cop => (cop, err)
    else if table.Result d = c.Table then
      (.Nil, some (errorf table.Expr
        ("table binding " ++ d.Quote (table.Result d)
          ++ " shadows CTE binding " ++ d.Quote c.Table)))
    else cloneCTE.scan d name table err rest

/-- Method cloneCTE of build.go.  Every caller in build.go passes a node, so
the `string` case of its type switch is never taken; a path with further
components and every other node give nil at once. -/
def cloneCTE (d : Pkg) (t : tableReplacer) (arg : Node) (table : Binding) :
    Node × tableReplacer :=
  match arg with
  | .Path name [] =>
    let r := cloneCTE.scan d name table t.err t.with_.reverse
    (r.1, { t with err := r.2 })
  | _ => (.Nil, t)

mutual
/-- Method Rewrite of tableReplacer.  The node attached to a shadow error is
the expression of the table as it stands when the error is made. -/
def Rewrite (d : Pkg) (t : tableReplacer) : Node → Node × tableReplacer
  | .Table ⟨.Path name rest, asname⟩ =>
    match cloneCTE d t (.Path name rest) ⟨.Path name rest, asname⟩ with
    | (.Nil, t1) => (.Table ⟨.Path name rest, asname⟩, t1)
    | (cte, t1) => (.Table ⟨cte, asname⟩, t1)
  | .Table ⟨.Unpivot ref a at_, asname⟩ =>
    match cloneCTE d t ref ⟨.Unpivot ref a at_, asname⟩ with
    | (.Nil, t1) =>
      let r := Rewrite d t1 ref
      (.Table ⟨.Unpivot r.1 a at_, asname⟩, r.2)
    | (cte, t1) => (.Table ⟨.Unpivot cte a at_, asname⟩, t1)
  | .Table ⟨.Appended vs, asname⟩ =>
    let r := Rewrite.values d asname [] t vs
    (.Table ⟨.Appended r.1, asname⟩, r.2)
  | e => (e, t)
/-- The loop of Rewrite over the values of an appended list: `done` holds the
values already dealt with, in order. -/
def Rewrite.values (d : Pkg) (asname : String) (done : List Node) (t : tableReplacer) :
    List Node → List Node × tableReplacer
  | [] => (done, t)
  | v :: rest =>
    match cloneCTE d t v ⟨.Appended (done ++ v :: rest), asname⟩ with
    | (.Nil, t1) =>
      let r := Rewrite d t1 v
      Rewrite.values d asname (done ++ [r.1]) r.2 rest
    | (cte, t1) => Rewrite.values d asname (done ++ [cte]) t1 rest
end

/-- Method Walk of tableReplacer: the walk stops descending once an error is
recorded. -/
def Walk (t : tableReplacer) (_e : Node) : Bool :=
  t.err.isNone

/-- The tableReplacer as an `expr.Rewriter`. -/
def rewriter (d : Pkg) : Rewriter tableReplacer where
  Walk := Walk
  Rewrite := fun t e => some (Rewrite d t e)

end tableReplacer

/-- The first loop of replaceTables: binding `i` is rewritten under the
bindings before it (`with[:i]`, whose bodies are already rewritten).  The
result is the rewritten list and the error of the replacer; `none` stands for
the panic of the type assertion `.(*expr.Select)`. -/
def replaceTables.bindings (d : Pkg) (done : List CTE) :
    List CTE → Option (List CTE × Option GoError)
  | [] => some (done, none)
  | c :: rest =>
    match Sneller.Rewrite (tableReplacer.rewriter d) { with_ := done, err := none }
        (.Select c.As) with
    | some (.Select s1, rp) =>
      match rp.err with
      | some e => some (done ++ { c with As := s1 } :: rest, some e)
      | none => replaceTables.bindings d (done ++ [{ c with As := s1 }]) rest
    | _ => none

/-- Function replaceTables of build.go: the node and the error returned, or
`none` for a panic. -/
def replaceTables (d : Pkg) (body : Node) (with_ : List CTE) : Option (Node × Option GoError) :=
  match with_ with
  | [] =>
    (Sneller.Rewrite (tableReplacer.rewriter d) { with_ := [], err := none } body).bind
      fun r => some (r.1, r.2.err)
  | c :: rest =>
    match replaceTables.bindings d [c] rest with
    | none => none
    | some (_, some e) => some (.Nil, some e)
    | some (with1, none) =>
      (Sneller.Rewrite (tableReplacer.rewriter d) { with_ := with1, err := none } body).bind
        fun r => some (r.1, r.2.err)

/-- The error value is a shadow error of cloneCTE: a CompileError whose
message reads `table binding ... shadows CTE binding ...`. -/
def IsShadowError (d : Pkg) (err : Option GoError) : Prop :=
  ∃ (e : Node) (x y : String),
    err = some (errorf e ("table binding " ++ d.Quote x ++ " shadows CTE binding " ++ d.Quote y))

/-! ## Hoisting of sub-queries -/

/-- Modelled from the spec: function `expr.Call`, a built-in call with the
given arguments. -/
def Call (op : BuiltinOp) (args : List Node) : Node :=
  .Builtin op args

/-- Modelled from the spec: function `expr.Compare`. -/
def Compare (op : CmpOp) (left right : Node) : Node :=
  .Comparison op left right

def scalarkind : Node := .String "scalar"

def structkind : Node := .String "struct"

def listkind : Node := .String "list"

/-- Type hoistwalk of build.go; the field `in` is written `in_`, and the
field `env` is part of `Pkg.build`. -/
structure hoistwalk where
  parent : Trace
  in_ : List Trace
  err : Option GoError

/-- Function replacementNeverMissing of build.go; `none` stands for a panic
(an index out of range, or a trace without steps). -/
def replacementNeverMissing (d : Pkg) (t : Trace) (lst : List Binding) (except : String) :
    Option Bool :=
  if lst.length > 2 then some true
  else
    match lst with
    | [] => none
    | b0 :: rest =>
      let b : Option Binding := if b0.Result d = except then rest.head? else some b0
      match b, t.top with
      | some b, _ :: parent => some (Nat.land (d.TypeOf b.Expr parent) d.MissingType == 0)
      | _, _ => none

/-- Function stripFinal of build.go: the result and the trace as the call
leaves it. -/
def stripFinal (d : Pkg) (t : Trace) (except : String) : Bool × Trace :=
  match t.top with
  | .Bind old :: rest =>
    match old.find? fun b => b.Result d == except with
    | some keep => (true, t.setTop (.Bind [keep] :: rest))
    | none => (false, t)
  | _ => (false, t)

namespace hoistwalk

/-- Method Walk of hoistwalk: whether the walker descends below `e`. -/
def Walk (h : hoistwalk) (e : Node) : Bool :=
  if h.err.isSome then false
  else
    match e with
    | .Table _ => false
    | .Builtin .InSubquery _ => false
    | .Select _ => false
    | _ => true

/-- Method rewriteScalarArg of hoistwalk. -/
def rewriteScalarArg (d : Pkg) (h : hoistwalk) (e : Node) : Node × hoistwalk :=
  match e with
  | .Select s =>
    let index := h.in_.length
    match d.build h.parent s with
    | .error err => (.Nil, { h with err := some err })
    | .ok t =>
      let cols := t.FinalBindings.length
      if cols ≠ 1 then
        (.Nil, { h with err := some (errorf (.Select s)
          ("cannot coerce sub-query with " ++ toString cols ++ " columns into a scalar")) })
      else
        match d.Class t with
        | .SizeZero => (.Null, h)
        | .SizeOne =>
          (Call .ScalarReplacement [.Integer index], { h with in_ := h.in_ ++ [t] })
        | _ =>
          (e, { h with err := some (errorf e
            ("scalar sub-query " ++ d.Quote (d.ToString (.Select s))
              ++ " has unbounded results; use LIMIT 1")) })
  | _ => (e, h)

/-- The loop `for i := range b.Args` of Rewrite, which hands every argument
of a built-in call to rewriteScalarArg. -/
def rewriteScalarArgs (d : Pkg) (h : hoistwalk) : List Node → List Node × hoistwalk
  | [] => ([], h)
  | a :: rest =>
    let p := rewriteScalarArg d h a
    let q := rewriteScalarArgs d p.2 rest
    (p.1 :: q.1, q.2)

/-- Method rewriteInSubquery of hoistwalk, on the built-in call with the
given arguments; `none` stands for a panic (`b.Args[1]` is absent or is not
a SELECT). -/
def rewriteInSubquery (d : Pkg) (h : hoistwalk) (Args : List Node) :
    Option (Node × hoistwalk) :=
  match Args with
  | a0 :: .Select s :: _ =>
    let b := Node.Builtin .InSubquery Args
    match d.build h.parent s with
    | .error err => some (b, { h with err := some err })
    | .ok t =>
      let cols := t.FinalBindings.length
      if cols ≠ 1 then
        some (b, { h with err := some (errorf (.Select s)
          ("IN sub-query should have 1 column; have " ++ toString cols)) })
      else
        let index := h.in_.length
        match d.Class t with
        | .SizeZero => some (.Bool false, h)
        | .SizeOne =>
          let repl := Call .ScalarReplacement [.Integer index]
          some (Compare .Equals a0 repl, { h with in_ := h.in_ ++ [t] })
        | .SizeExactSmall | .SizeColumnCardinality =>
          some (Call .InReplacement [a0, .Integer index], { h with in_ := h.in_ ++ [t] })
        | _ =>
          some (b, { h with err := some (errorf (.Select s)
            ("sub-query cardinality too large: " ++ d.Sprint (.Select s))) })
  | _ => none

/-- Method Rewrite of hoistwalk; `none` stands for a panic. -/
def Rewrite (d : Pkg) (h : hoistwalk) (e : Node) : Option (Node × hoistwalk) :=
  match e with
  | .IsKey Key x =>
    if Key = .IsMissing ∨ Key = .IsNotMissing then
      match x with
      | .Builtin .HashReplacement Args =>
        match Args with
        | .Integer i :: _ :: .String label :: corrv :: _ =>
          if i < 0 then none
          else
            match h.in_[i.toNat]? with
            | none => none
            | some rep =>
              match replacementNeverMissing d rep rep.FinalBindings label with
              | none => none
              | some false => some (e, h)
              | some true =>
                let r := stripFinal d rep label
                if r.1 then
                  let ret := Node.Builtin .InReplacement [corrv, .Integer i]
                  some (if Key = .IsMissing then .Not ret else ret,
                    { h with in_ := h.in_.set i.toNat r.2 })
                else some (e, h)
        | _ => none
      | _ => some (e, h)
    else
      let p := rewriteScalarArg d h x
      some (.IsKey Key p.1, p.2)
  | .Builtin Func Args =>
    match Func with
    | .InSubquery => rewriteInSubquery d h Args
    | .ScalarReplacement => some (e, h)
    | .ListReplacement => some (e, h)
    | .StructReplacement => some (e, h)
    | _ =>
      let p := rewriteScalarArgs d h Args
      some (.Builtin Func p.1, p.2)
  | .Comparison Op l r =>
    let p := rewriteScalarArg d h l
    let q := rewriteScalarArg d p.2 r
    some (.Comparison Op p.1 q.1, q.2)
  | .Arithmetic Op l r =>
    let p := rewriteScalarArg d h l
    let q := rewriteScalarArg d p.2 r
    some (.Arithmetic Op p.1 q.1, q.2)
  | .Select s =>
    match d.build h.parent s with
    | .error err => some (e, { h with err := some err })
    | .ok t =>
      let scalar := t.FinalBindings.length == 1
      let cls := d.Class t
      if cls = .SizeZero then some (.Missing, h)
      else
        let index := Node.Integer h.in_.length
        match d.decorrelate t with
        | .error err => some (e, { h with err := some err })
        | .ok (t1, label, corrv) =>
          match cls with
          | .SizeOne =>
            let h1 := { h with in_ := h.in_ ++ [t1] }
            match corrv with
            | .Nil =>
              if scalar then some (Call .ScalarReplacement [index], h1)
              else some (Call .StructReplacement [index], h1)
            | _ =>
              let kind := if scalar then scalarkind else structkind
              some (Call .HashReplacement [index, kind, label, corrv], h1)
          | .SizeExactSmall | .SizeColumnCardinality =>
            let h1 := { h with in_ := h.in_ ++ [t1] }
            match corrv with
            | .Nil => some (Call .ListReplacement [index], h1)
            | _ => some (Call .HashReplacement [index, listkind, label, corrv], h1)
          | _ =>
            some (.Select s, { h with err := some (errorf (.Select s)
              "cardinality of sub-query is too large; use LIMIT") })
  | _ => some (e, h)

/-- The hoistwalk as an `expr.Rewriter`. -/
def rewriter (d : Pkg) : Rewriter hoistwalk where
  Walk := Walk
  Rewrite := Rewrite d

end hoistwalk

/-- Modelled from the spec: method `rewrite` of a step, which hands every
expression the step holds to `f` (with the flag that marks a logical
context) and stores what `f` returns.  A scan hands over its table node and
expects a table back; `none` stands for a panic. -/
def Step.rewrite {σ : Type} (f : σ → Node → Bool → Option (Node × σ)) (st : σ) :
    Step → Option (Step × σ)
  | .Scan tbl =>
    match f st (.Table tbl) false with
    | some (.Table tbl1, st1) => some (.Scan tbl1, st1)
    | _ => none
  | .Iterate v =>
    (f st v.Expr false).bind fun p => some (.Iterate { v with Expr := p.1 }, p.2)
  | .Filter w => (f st w true).bind fun p => some (.Filter p.1, p.2)
  | .Bind bind =>
    (bindings st bind).bind fun p => some (.Bind p.1, p.2)
  | .Aggregate agg group having =>
    (bindings st agg).bind fun p =>
    (bindings p.2 group).bind fun q =>
      match having with
      | none => some (.Aggregate p.1 q.1 none, q.2)
      | some hv => (f q.2 hv true).bind fun r => some (.Aggregate p.1 q.1 (some r.1), r.2)
  | .Distinct cols => (nodes st cols).bind fun p => some (.Distinct p.1, p.2)
  | .Order cols => (orders st cols).bind fun p => some (.Order p.1, p.2)
  | s => some (s, st)
where
  bindings (st : σ) : List Binding → Option (List Binding × σ)
    | [] => some ([], st)
    | b :: rest =>
      (f st b.Expr false).bind fun p =>
      (bindings p.2 rest).bind fun q => some ({ b with Expr := p.1 } :: q.1, q.2)
  nodes (st : σ) : List Node → Option (List Node × σ)
    | [] => some ([], st)
    | e :: rest =>
      (f st e false).bind fun p =>
      (nodes p.2 rest).bind fun q => some (p.1 :: q.1, q.2)
  orders (st : σ) : List Sneller.Order → Option (List Sneller.Order × σ)
    | [] => some ([], st)
    | o :: rest =>
      (f st o.Column false).bind fun p =>
      (orders p.2 rest).bind fun q => some ({ o with Column := p.1 } :: q.1, q.2)

/-- The function that hoist hands to `rewrite`: nothing is done once an error
is recorded, otherwise the expression is walked with the hoistwalk. -/
def hoist.fn (d : Pkg) (hw : hoistwalk) (e : Node) (_logic : Bool) :
    Option (Node × hoistwalk) :=
  if hw.err.isSome then some (e, hw)
  else Sneller.Rewrite (hoistwalk.rewriter d) hw e

/-- The loop of hoist over the steps, `for s := b.top; s != nil; s =
s.parent()`; it stops after the first step that leaves an error. -/
def hoist.steps (d : Pkg) (hw : hoistwalk) : List Step → Option (List Step × hoistwalk)
  | [] => some ([], hw)
  | s :: rest =>
    (Step.rewrite (hoist.fn d) hw s).bind fun p =>
      if p.2.err.isSome then some (p.1 :: rest, p.2)
      else (hoist.steps d p.2 rest).bind fun q => some (p.1 :: q.1, q.2)

/-- Method hoist of Trace: the trace as the call leaves it and the error
returned (`none` for nil); the outer `none` stands for a panic. -/
def Trace.hoist (d : Pkg) (b : Trace) : Option (Trace × Option GoError) :=
  (hoist.steps d { parent := b, in_ := [], err := none } b.top).bind fun p =>
    match p.2.err with
    | some err => some (b.setTop p.1, some err)
    | none => some ((b.setTop p.1).setReplacements (b.Replacements ++ p.2.in_), none)

/-! ## The optimizer pipeline -/

/-- Function freezefinal of optimize.go. -/
def freezefinal (d : Pkg) (b : Trace) : Trace :=
  b.setFinal (b.final.map fun c => c.As (c.Result d))

/-- The function `fn` of simplify, under the hint of the chain `parent`. -/
def simplify.fn (d : Pkg) (parent : List Step) (_st : Unit) (e : Node) (logic : Bool) :
    Option (Node × Unit) :=
  let e1 := d.Simplifier parent e
  if logic then some (d.LogicSimplifier parent e1, ()) else some (e1, ())

/-- The loop of simplify over the steps; the hint of a step is built from its
parent chain. -/
def simplify.steps (d : Pkg) : List Step → Option (List Step)
  | [] => some []
  | s :: rest =>
    (Step.rewrite (simplify.fn d rest) () s).bind fun p =>
    (simplify.steps d rest).bind fun q => some (p.1 :: q)

/-- Function simplify of optimize.go; `none` stands for a panic. -/
def simplify (d : Pkg) (b : Trace) : Option Trace :=
  (simplify.steps d b.top).bind fun t => some (b.setTop t)

/-- The loop of subflatten: a pseudo-table is unlinked from the chain. -/
def subflatten.steps : List Step → List Step
  | [] => []
  | .pseudoTable :: rest => subflatten.steps rest
  | s :: rest => s :: subflatten.steps rest

/-- Function subflatten of optimize.go. -/
def subflatten (b : Trace) : Trace :=
  b.setTop (subflatten.steps b.top)

/-- Method optimize of Trace: the trace as the call leaves it and the error
returned; the outer `none` stands for a panic. -/
def Trace.optimize (d : Pkg) (b : Trace) : Option (Trace × Option GoError) :=
  let b := freezefinal d b
  let b := subflatten b
  (simplify d b).bind fun b =>
    let b := d.aggelim b
    let b := d.aggfilter b
    let b := d.orderelim b
    let b := d.projectpushdown b
    let b := d.liftprojectagg b
    let b := d.distinctelim b
    let b := d.countdistinct2count b
    let b := d.strengthReduce b
    let b := d.filterelim b
    let b := d.filterpushdown b
    let b := d.limitpushdown b
    let j := d.joinelim b
    match j.2 with
    | some err => some (j.1, some err)
    | none =>
      let b := d.projectelim j.1
      let b := d.projectpushdown b
      (simplify d b).bind fun b =>
        let c := d.postcheck b
        match c.2 with
        | some err => some (c.1, some err)
        | none =>
          let b := d.partition c.1
          let b := d.mergereplacements b
          some (b, none)

/-! ## `build` -/

/-- Function build of build.go.  The method walkSelect, which re-enters
build through hoist, is passed in as `walkSelect`: it gives the trace as the
walk leaves it and the error returned, or `none` for a panic.  The result is
the pair that build returns, a trace or an error. -/
def build (d : Pkg) (walkSelect : Trace → Select → Option (Trace × Option GoError))
    (parent : Option Trace) (s : Select) : Option (Except GoError Trace) :=
  let b : Trace := .mk [] parent [] []
  let s := d.Simplify s
  match d.Check s with
  | some err => some (.error err)
  | none =>
    match walkSelect b s with
    | none => none
    | some (_, some err) => some (.error err)
    | some (b, none) =>
      match Trace.optimize d b with
      | none => none
      | some (b, _) => some (.ok b)

/-! ## Messages -/

/-- The text `sub` occurs in the text `s`. -/
def Contains (s sub : String) : Prop :=
  sub.data <:+: s.data

instance Contains.decidable (s sub : String) : Decidable (Contains s sub) :=
  inferInstanceAs (Decidable (sub.data <:+: s.data))

/-! ## Window aggregates -/

/-- Modelled from the spec: function `expr.Identifier`, the path of one
component. -/
def Identifier (x : String) : Node :=
  .Path x []

/-- Modelled from the spec: function `expr.BindingValues`, the expressions of
a list of bindings. -/
def BindingValues (lst : List Binding) : List Node :=
  lst.map fun b => b.Expr

mutual
/-- Modelled from the spec: the aggregates that the visitor of
hasOnlyOneAggregate meets when `expr.Walk` walks a node, in the order of the
walk.  The visitor stops at an aggregate and at a nested SELECT. -/
def hasOnlyOneAggregate.found : Node → List Node
  | .Aggregate op x over => [.Aggregate op x over]
  | .Select _ => []
  | .Builtin _ args => hasOnlyOneAggregate.foundNodes args
  | .IsKey _ x => hasOnlyOneAggregate.found x
  | .Not x => hasOnlyOneAggregate.found x
  | .Comparison _ l r => hasOnlyOneAggregate.found l ++ hasOnlyOneAggregate.found r
  | .Arithmetic _ l r => hasOnlyOneAggregate.found l ++ hasOnlyOneAggregate.found r
  | .Logical _ l r => hasOnlyOneAggregate.found l ++ hasOnlyOneAggregate.found r
  | .Table b => hasOnlyOneAggregate.found b.Expr
  | .Join _ l r => hasOnlyOneAggregate.found l ++ hasOnlyOneAggregate.found r.Expr
  | .Unpivot x _ _ => hasOnlyOneAggregate.found x
  | .Appended vs => hasOnlyOneAggregate.foundNodes vs
  | _ => []
/-- The aggregates met in a list of nodes. -/
def hasOnlyOneAggregate.foundNodes : List Node → List Node
  | [] => []
  | a :: rest => hasOnlyOneAggregate.found a ++ hasOnlyOneAggregate.foundNodes rest
end

/-- The aggregates met in the outer SELECT itself, whose clauses are walked
in binding order. -/
def hasOnlyOneAggregate.foundOuter (outer : Select) : List Node :=
  (match outer.From with
    | some f => hasOnlyOneAggregate.found f
    | none => [])
  ++ (match outer.Where with
    | some x => hasOnlyOneAggregate.found x
    | none => [])
  ++ hasOnlyOneAggregate.foundNodes (BindingValues outer.GroupBy)
  ++ hasOnlyOneAggregate.foundNodes outer.DistinctExpr
  ++ hasOnlyOneAggregate.foundNodes (BindingValues outer.Columns)
  ++ (match outer.Having with
    | some x => hasOnlyOneAggregate.found x
    | none => [])
  ++ hasOnlyOneAggregate.foundNodes (outer.OrderBy.map fun o => o.Column)

/-- The list `uniq` of hasOnlyOneAggregate after the visitor has met the
given aggregates: an aggregate is added unless one already in the list
`Equals` it. -/
def hasOnlyOneAggregate.uniq (d : Pkg) : List Node → List Node → List Node
  | uniq, [] => uniq
  | uniq, agg :: rest =>
    if uniq.any (fun u => d.Equals u agg) then hasOnlyOneAggregate.uniq d uniq rest
    else hasOnlyOneAggregate.uniq d (uniq ++ [agg]) rest

/-- Function hasOnlyOneAggregate of build.go. -/
def hasOnlyOneAggregate (d : Pkg) (outer : Select) : Bool :=
  (hasOnlyOneAggregate.uniq d [] (hasOnlyOneAggregate.foundOuter outer)).length == 1

/-- Function copyForWindow of build.go; `none` stands for the panic of the
type assertion `.(*expr.Select)`. -/
def copyForWindow (d : Pkg) (s : Select) : Option Select :=
  match d.Copy (.Select {
      Distinct := false, DistinctExpr := [], Columns := [], From := s.From,
      Where := s.Where, GroupBy := s.GroupBy, Having := s.Having, OrderBy := [],
      Limit := none, Offset := none, GroupByMade := s.GroupByMade }) with
  | .Select alt => some alt
  | _ => none

/-- Type windowHoist of build.go; the field `env` is part of `Pkg.build`. -/
structure windowHoist where
  outer : Select
  trace : Trace
  err : Option GoError

namespace windowHoist

/-- Method Walk of windowHoist: whether the walker descends below `e`. -/
def Walk (w : windowHoist) (e : Node) : Bool :=
  if w.err.isSome then false
  else
    match e with
    | .Aggregate _ _ _ => false
    | .Select _ => false
    | _ => true

/-- The OVER clause of the aggregate after the first step of Rewrite: a
COUNT(DISTINCT) in an outer SELECT with exactly one GROUP BY binding and not
exactly one aggregate gets the GROUP BY expressions as its PARTITION BY. -/
def Rewrite.over (d : Pkg) (w : windowHoist) (Op : AggregateOp) (Over : Option Window) :
    Option Window :=
  if Op = .OpCountDistinct ∧ w.outer.GroupBy.length = 1 ∧ hasOnlyOneAggregate d w.outer = false
  then some { PartitionBy := BindingValues w.outer.GroupBy, OrderBy := [] }
  else Over

/-- The loop `for i := range group` of Rewrite from position `i` on: a
binding equivalent to the partition expression gets a generated name if it
has none, and the partition expression becomes the identifier of its name.
The result is the list of bindings and the partition expression. -/
def Rewrite.group (d : Pkg) : Nat → Node → List Binding → List Binding × Node
  | _, partition, [] => ([], partition)
  | i, partition, g :: rest =>
    if d.Equivalent g.Expr partition then
      let g1 := if g.Explicit then g else g.As (d.gensym 3 i)
      let r := Rewrite.group d (i + 1) (Identifier (g1.Result d)) rest
      (g1 :: r.1, r.2)
    else
      let r := Rewrite.group d (i + 1) partition rest
      (g :: r.1, r.2)

/-- The operator of the aggregate once Rewrite is done with it. -/
def Rewrite.op (Op : AggregateOp) : AggregateOp :=
  if Op = .OpCountDistinct then .OpCount else Op

/-- The argument of the aggregate once Rewrite is done with it. -/
def Rewrite.inner (Op : AggregateOp) (Inner : Node) : Node :=
  if Op = .OpCountDistinct then .Star else Inner

/-- The auxiliary SELECT that Rewrite hands to build, for the aggregate
`Op(Inner)` partitioned by `partition`; `self` is the copy of the outer
SELECT made by copyForWindow. -/
def Rewrite.auxiliary (d : Pkg) (Op : AggregateOp) (Inner partition : Node) (self : Select) :
    Select :=
  let self : Select :=
    if Op = .OpCountDistinct then { self with GroupBy := self.GroupBy ++ [Bind Inner "$__distinct"] }
    else self
  let agg : Node := .Aggregate (Rewrite.op Op) (Rewrite.inner Op Inner) none
  if self.GroupBy.length > 0 then
    let r := Rewrite.group d 0 partition self.GroupBy
    { Distinct := false, DistinctExpr := [],
      Columns := [Bind agg "$__val", Bind (Identifier "$__key") "$__key"],
      From := some (.Table (Bind (.Select { self with
        GroupBy := [], GroupByMade := false, Columns := r.1, Distinct := true }) "")),
      Where := none, GroupBy := [Bind r.2 "$__key"], Having := none, OrderBy := [],
      Limit := none, Offset := none }
  else
    { self with
      GroupBy := [Bind partition "$__key"],
      Columns := [Bind agg "$__val", Bind (Identifier "$__key") "$__key"] }

/-- Method Rewrite of windowHoist; `none` stands for a panic.  The aggregate
is updated in place in Go, so the node handed back on a failure is the
aggregate as the call leaves it. -/
def Rewrite (d : Pkg) (w : windowHoist) (e : Node) : Option (Node × windowHoist) :=
  match e with
  | .Aggregate Op Inner Over =>
    match Rewrite.over d w Op Over with
    | none => some (.Aggregate Op Inner none, w)
    | some over =>
      match over.PartitionBy with
      | [partition] =>
        match copyForWindow d w.outer with
        | none => none
        | some self =>
          let key := d.Copy partition
          let aux := Rewrite.auxiliary d Op Inner partition self
          let dflt : Node := if Rewrite.op Op = .OpCount then .Integer 0 else .Null
          let ret := Call .HashReplacement
            [.Integer w.trace.Replacements.length, scalarkind, .String "$__key", key, dflt]
          match d.build w.trace aux with
          | .error err =>
            some (.Aggregate (Rewrite.op Op) (Rewrite.inner Op Inner) none,
              { w with err := some err })
          | .ok t =>
            some (ret, { w with trace := w.trace.setReplacements (w.trace.Replacements ++ [t]) })
      | _ =>
        some (.Aggregate Op Inner (some over),
          { w with err := some (errorf (.Aggregate Op Inner (some over))
            "only 1 PARTITION BY column supported (for now)") })
  | _ => some (e, w)

/-- The windowHoist as an `expr.Rewriter`. -/
def rewriter (d : Pkg) : Rewriter windowHoist where
  Walk := Walk
  Rewrite := Rewrite d

end windowHoist

/-- The loop of hoistWindows over the columns: `done` holds the columns
already rewritten; the outer SELECT of the walker is the SELECT itself, so it
shows every column assigned so far. -/
def hoistWindows.columns (d : Pkg) (w : windowHoist) (done : List Binding) :
    List Binding → Option (windowHoist × Option GoError)
  | [] => some (w, none)
  | c :: rest =>
    match Sneller.Rewrite (windowHoist.rewriter d) w c.Expr with
    | none => none
    | some (e1, w1) =>
      let w2 := { w1 with outer := { w1.outer with
        Columns := done ++ { c with Expr := e1 } :: rest } }
      match w2.err with
      | some err => some (w2, some err)
      | none => hoistWindows.columns d w2 (done ++ [{ c with Expr := e1 }]) rest

/-- Method hoistWindows of Trace: the trace and the SELECT as the call leaves
them and the error returned; `none` stands for a panic. -/
def Trace.hoistWindows (d : Pkg) (b : Trace) (s : Select) :
    Option (Trace × Select × Option GoError) :=
  (hoistWindows.columns d { outer := s, trace := b, err := none } [] s.Columns).map
    fun r => (r.1.trace, r.1.outer, r.2)

/-- The optimizer passes of `d` leave the field `Parent` of every trace as it
is. -/
def Pkg.KeepsParent (d : Pkg) : Prop :=
  ∀ b : Trace,
    (d.aggelim b).Parent = b.Parent ∧ (d.aggfilter b).Parent = b.Parent
    ∧ (d.orderelim b).Parent = b.Parent ∧ (d.projectpushdown b).Parent = b.Parent
    ∧ (d.liftprojectagg b).Parent = b.Parent ∧ (d.distinctelim b).Parent = b.Parent
    ∧ (d.countdistinct2count b).Parent = b.Parent ∧ (d.strengthReduce b).Parent = b.Parent
    ∧ (d.filterelim b).Parent = b.Parent ∧ (d.filterpushdown b).Parent = b.Parent
    ∧ (d.limitpushdown b).Parent = b.Parent ∧ (d.joinelim b).1.Parent = b.Parent
    ∧ (d.projectelim b).Parent = b.Parent ∧ (d.postcheck b).1.Parent = b.Parent
    ∧ (d.partition b).Parent = b.Parent ∧ (d.mergereplacements b).Parent = b.Parent

/-! ## The FROM clause -/

/-- The methods walkFrom, walkFromJoin, walkFromTable and buildUnpivot of
Trace, which call one another; they are written as one function on the FROM
expression so that every call goes to a part of it.  `Node.Nil` is a nil
FROM clause.  The method walkSelect is passed in as `walkSelect`.  The
result is the trace as the call leaves it and the error returned; `none`
stands for a panic. -/
def Trace.walkFrom (d : Pkg) (walkSelect : Trace → Select → Option (Trace × Option GoError))
    (b : Trace) : Node → Option (Trace × Option GoError)
  | .Nil => some (b.setTop [.DummyOutput], none)
  -- walkFromJoin
  | .Join Kind Left Right =>
    if Kind ≠ .CrossJoin then
      some (b, some (errorf (.Join Kind Left Right)
        ("join " ++ d.KindQ Kind ++ " not yet supported")))
    else
      match Trace.walkFrom d walkSelect b Left with
      | none => none
      | some (b1, some err) => some (b1, some err)
      | some (b1, none) => some (d.Iterate b1 Right)
  -- walkFromTable on a SELECT
  | .Table ⟨.Select s, _⟩ => walkSelect b s
  -- walkFromTable on an UNPIVOT: buildUnpivot
  | .Table ⟨.Unpivot ref As At, _⟩ =>
    if As.isSome ∧ At.isSome ∧ As = At then
      some (b, some (.other
        ("the AS and AT UNPIVOT labels must not be the same '" ++ As.getD "" ++ "'")))
    else if As = none ∧ At = none then
      some (b, some (.other "the AS and AT UNPIVOT labels must not be empty simultaneously"))
    else
      match ref with
      | .Table _ =>
        match Trace.walkFrom d walkSelect b ref with
        | none => none
        | some (b1, some err) => some (b1, some err)
        | some (b1, none) =>
          match b1.top with
          | [] => none
          | top :: parent =>
            let b2 := b1.setTop (d.get (top :: parent) "*")
            some (b2.setTop (.Unpivot (.Unpivot ref As At) :: b2.top), none)
      | .Builtin Func _ =>
        if Func ≠ .MakeStruct then
          some (b, some (.other
            ("UNPIVOT expects a path or an explicit structure, but '" ++ d.Sprint ref
              ++ "' is provided")))
        else
          some (b, some (.other
            "buildUnpivot *expr.Builtin.MakeStruct has not been implemented yet"))
      | _ =>
        some (b, some (.other
          ("UNPIVOT expects a path or an explicit structure, but '" ++ d.Sprint ref
            ++ "' is provided")))
  -- walkFromTable on every other table
  | .Table tbl => some (d.Begin b tbl)
  | f => some (b, some (errorf f ("unexpected expression " ++ d.SprintQ f)))

/-- Method walkFromTable of Trace. -/
def Trace.walkFromTable (d : Pkg)
    (walkSelect : Trace → Select → Option (Trace × Option GoError)) (b : Trace) (f : Binding) :
    Option (Trace × Option GoError) :=
  Trace.walkFrom d walkSelect b (.Table f)

/-- Method walkFromJoin of Trace, on the join with the given fields. -/
def Trace.walkFromJoin (d : Pkg)
    (walkSelect : Trace → Select → Option (Trace × Option GoError)) (b : Trace)
    (Kind : JoinKind) (Left : Node) (Right : Binding) : Option (Trace × Option GoError) :=
  Trace.walkFrom d walkSelect b (.Join Kind Left Right)

/-- Method buildUnpivot of Trace, on the UNPIVOT with the given fields. -/
def Trace.buildUnpivot (d : Pkg)
    (walkSelect : Trace → Select → Option (Trace × Option GoError)) (b : Trace)
    (TupleRef : Node) (As At : Option String) : Option (Trace × Option GoError) :=
  Trace.walkFrom d walkSelect b (.Table ⟨.Unpivot TupleRef As At, ""⟩)

/-! ## `Build` -/

/-- The path elements between the slashes of a path. -/
def pathClean.split : List Char → List (List Char)
  | [] => [[]]
  | c :: rest =>
    if c = '/' then [] :: pathClean.split rest
    else
      match pathClean.split rest with
      | [] => [[c]]
      | x :: xs => (c :: x) :: xs

/-- One element met by `path.Clean`; `out` holds the elements kept so far, the
last one first.  An empty element and `.` are dropped; `..` removes the
element before it, and is kept when there is none to remove and the path is
not rooted. -/
def pathClean.step (rooted : Bool) (out : List (List Char)) (c : List Char) :
    List (List Char) :=
  if c = [] ∨ c = ['.'] then out
  else if c = ['.', '.'] then
    match out with
    | [] => if rooted then [] else [c]
    | top :: rest => if top = ['.', '.'] then (if rooted then out else c :: out) else rest
  else c :: out

/-- The elements joined by slashes. -/
def pathClean.join : List (List Char) → List Char
  | [] => []
  | [a] => a
  | a :: rest => a ++ '/' :: pathClean.join rest

/-- Function `path.Clean` of the Go standard library, by the rules of its
documentation: multiple slashes become one, `.` elements are dropped, an
inner `..` is dropped with the element before it, `..` at the start of a
rooted path is dropped, and the empty result is `.`. -/
def pathClean (p : String) : String :=
  if p = "" then "."
  else
    let rooted := p.data.head? = some '/'
    let out := (pathClean.split p.data).foldl (pathClean.step rooted) []
    if rooted then String.mk ('/' :: pathClean.join out.reverse)
    else if out = [] then "."
    else String.mk (pathClean.join out.reverse)

/-- The buffer that `path.Join` fills: an element is added, after a slash
when the buffer is not empty, unless the buffer and the element are both
empty. -/
def pathJoin.buf : List Char → List String → List Char
  | buf, [] => buf
  | buf, e :: rest =>
    if buf.length > 0 ∨ e ≠ "" then
      pathJoin.buf ((if buf.length > 0 then buf ++ ['/'] else buf) ++ e.data) rest
    else pathJoin.buf buf rest

/-- Function `path.Join` of the Go standard library. -/
def pathJoin (elem : List String) : String :=
  if (elem.map String.length).sum = 0 then ""
  else pathClean (String.mk (pathJoin.buf [] elem))

/-- Modelled from the spec: method `Trace.Into`, which appends an Output step
with the target table and the path. -/
def Trace.Into (b : Trace) (table : Node) (basepath : String) : Trace :=
  b.setTop (.Output table basepath :: b.top)

/-- The INTO part of Build: the trace with its Output step, or the error. -/
def Build.into (d : Pkg) (t : Trace) : Option Node → Except GoError Trace
  | none => .ok t
  | some (.Path First Rest) =>
    match Rest with
    | .Dot Field :: rest =>
      match rest with
      | _ :: _ =>
        .error (.other ("unsupported INTO: " ++ d.Quote (d.ToString (.Path First Rest))))
      | [] => .ok (t.Into (.Path First Rest) (pathJoin ["db", First, Field]))
    | _ =>
      .error (.other ("INTO missing database: " ++ d.Quote (d.ToString (.Path First Rest))))
  | some into => .error (.other ("unsupported INTO: " ++ d.Quote (d.ToString into)))

/-- Function Build of build.go; the method walkSelect is passed in.  The
result is the pair that Build returns, a trace or an error; `none` stands
for a panic. -/
def Build (d : Pkg) (walkSelect : Trace → Select → Option (Trace × Option GoError))
    (q : Query) : Option (Except GoError Trace) :=
  let replaced : Option (Node × Option GoError) :=
    if q.With.length > 0 then replaceTables d q.Body q.With else some (q.Body, none)
  match replaced with
  | none => none
  | some (_, some err) => some (.error err)
  | some (body, none) =>
    match body with
    | .Select sel =>
      match build d walkSelect none sel with
      | none => none
      | some (.error err) => some (.error err)
      | some (.ok t) =>
        match Build.into d t q.Into with
        | .error err => some (.error err)
        | .ok t1 =>
          match d.postcheck t1 with
          | (_, some err) => some (.error err)
          | (t2, none) => some (.ok t2)
    | _ => some (.error (errorf body ("cannot pir.Build " ++ d.TypeName body)))

/-- An element that `path.Clean` keeps as it is: it is not empty, not `.` and
not `..`, and holds no slash. -/
def pathClean.plain (x : String) : Prop :=
  x ≠ "" ∧ x ≠ "." ∧ x ≠ ".." ∧ '/' ∉ x.data

instance pathClean.plain.decidable (x : String) : Decidable (pathClean.plain x) :=
  inferInstanceAs (Decidable (x ≠ "" ∧ x ≠ "." ∧ x ≠ ".." ∧ '/' ∉ x.data))

/-! ## DISTINCT and GROUP BY -/

/-- Modelled from the spec: method `HasDistinct` of `expr.Select`, whether the
SELECT carries DISTINCT or DISTINCT ON. -/
def SelectOf.HasDistinct (s : Select) : Bool :=
  s.Distinct || !s.DistinctExpr.isEmpty

/-- Function hasAggregate of build.go: the visitor stops at a nested SELECT
and at the first aggregate it meets. -/
def hasAggregate (e : Node) : Bool :=
  !(hasOnlyOneAggregate.found e).isEmpty

/-- Function anyHasAggregate of build.go. -/
def anyHasAggregate (lst : List Binding) : Bool :=
  lst.any fun b => hasAggregate b.Expr

/-- Function anyOrderHasAggregate of build.go. -/
def anyOrderHasAggregate (lst : List Order) : Bool :=
  lst.any fun o => hasAggregate o.Column

/-- Function isselectall of build.go. -/
def isselectall (s : Select) : Bool :=
  match s.Columns with
  | [⟨.Star, _⟩] => true
  | _ => false

/-- The closure `exists` of distinctEqualsGroupBy, over the GROUP BY list. -/
def distinctEqualsGroupBy.exists_ (d : Pkg) (e : Node) : List Binding → Bool
  | [] => false
  | g :: rest => if d.Equivalent e g.Expr then true else distinctEqualsGroupBy.exists_ d e rest

/-- The loop of distinctEqualsGroupBy over the columns, `n` being the counter:
`none` when the loop returns false, otherwise the counter after the loop. -/
def distinctEqualsGroupBy.loop (d : Pkg) (group : List Binding) : Nat → List Binding → Option Nat
  | n, [] => some n
  | n, c :: rest =>
    if !distinctEqualsGroupBy.exists_ d c.Expr group then none
    else distinctEqualsGroupBy.loop d group (n + 1) rest

/-- Function distinctEqualsGroupBy of build.go. -/
def distinctEqualsGroupBy (d : Pkg) (s : Select) : Bool :=
  match distinctEqualsGroupBy.loop d s.GroupBy 0 s.Columns with
  | none => false
  | some n => n == s.GroupBy.length

/-- The first loop of dropConstantsFromDistinctOn: the list `nonconst`. -/
def dropConstantsFromDistinctOn.nonconst (d : Pkg) : List Node → List Node → List Node
  | nonconst, [] => nonconst
  | nonconst, e :: rest =>
    if !d.Constant e then dropConstantsFromDistinctOn.nonconst d (nonconst ++ [e]) rest
    else dropConstantsFromDistinctOn.nonconst d nonconst rest

/-- Function dropConstantsFromDistinctOn of build.go: the SELECT as the call
leaves it. -/
def dropConstantsFromDistinctOn (d : Pkg) (s : Select) : Select :=
  let nonconst := dropConstantsFromDistinctOn.nonconst d [] s.DistinctExpr
  if nonconst.length = s.DistinctExpr.length then s
  else if nonconst.length > 0 then { s with DistinctExpr := nonconst }
  else { s with DistinctExpr := [], DistinctExprMade := false, Limit := some 1 }

/-- The loop of distinctOnEqualsGroupBy over the DISTINCT ON expressions. -/
def distinctOnEqualsGroupBy.loop (d : Pkg) (group : List Binding) : Nat → List Node → Option Nat
  | n, [] => some n
  | n, e :: rest =>
    if !distinctEqualsGroupBy.exists_ d e group then none
    else distinctOnEqualsGroupBy.loop d group (n + 1) rest

/-- Function distinctOnEqualsGroupBy of build.go; its closure `exists` is
the one of distinctEqualsGroupBy. -/
def distinctOnEqualsGroupBy (d : Pkg) (s : Select) : Bool :=
  match distinctOnEqualsGroupBy.loop d s.GroupBy 0 s.DistinctExpr with
  | none => false
  | some n => n == s.GroupBy.length

/-- Function distinctOnPullGroupByBindings of build.go: the SELECT as the call
leaves it. -/
def distinctOnPullGroupByBindings (d : Pkg) (s : Select) : Select :=
  { s with DistinctExpr := d.flattenIntoFunc s.GroupBy s.DistinctExpr }

/-! ## `walkSelect` -/

/-- The closure `exists` of walkSelect, over the columns of the SELECT. -/
def walkSelect.exists_ (d : Pkg) (e : Node) : List Binding → Bool
  | [] => false
  | c :: rest => if d.Equivalent e c.Expr then true else walkSelect.exists_ d e rest

/-- The list `missingBindings` of walkSelect: a binding without a name for
every DISTINCT ON expression that no column is equivalent to. -/
def walkSelect.missingBindings (d : Pkg) (columns : List Binding) : List Node → List Binding
  | [] => []
  | e :: rest =>
    if !walkSelect.exists_ d e columns then
      ⟨e, ""⟩ :: walkSelect.missingBindings d columns rest
    else walkSelect.missingBindings d columns rest

/-- The part of walkSelect that walks SELECT, GROUP BY, HAVING and ORDER BY
(from the comment `walk SELECT + GROUP BY + HAVING` to the test of `err`
after it): the trace and the SELECT as that part leaves them, and the error
with which walkSelect returns there (`none` when it goes on to LIMIT).  The
outer `none` stands for a panic. -/
def walkSelect.columns (d : Pkg) (b : Trace) (s : Select) :
    Option (Trace × Select × Option GoError) :=
  if s.HasDistinct && s.GroupByNotNil && s.Having.isNone then
    if s.Distinct then
      if !distinctEqualsGroupBy d s then
        some (b, s, some (errorf (.Select s)
          "set of DISTINCT expressions has to be equal to GROUP BY expressions"))
      else
        let s := { s with Distinct := false }
        let r := d.splitAggregate b s.OrderBy s.Columns s.GroupBy s.Having
        some (r.1, s, r.2)
    else
      let s := distinctOnPullGroupByBindings d s
      if distinctOnEqualsGroupBy d s then
        let s := { s with DistinctExpr := [], DistinctExprMade := false }
        let r := d.splitAggregate b s.OrderBy s.Columns s.GroupBy s.Having
        some (r.1, s, r.2)
      else
        let missingBindings := walkSelect.missingBindings d s.Columns s.DistinctExpr
        if missingBindings.length > 0 then
          let r := d.splitAggregateWithAuxiliary b s.OrderBy missingBindings s.Columns
            s.GroupBy s.Having
          match r.2.2 with
          | some err => some (r.1, s, some err)
          | none =>
            let r1 := d.Distinct r.1 s.DistinctExpr
            match r1.2 with
            | some err => some (r1.1, s, some err)
            | none =>
              let r2 := d.Bind r1.1 (d.identityBindings r.2.1)
              some (r2.1, s, r2.2)
        else
          let r := d.splitAggregate b s.OrderBy s.Columns s.GroupBy s.Having
          match r.2 with
          | some err => some (r.1, s, some err)
          | none =>
            let r1 := d.Distinct r.1 s.DistinctExpr
            some (r1.1, s, r1.2)
  else if s.Having.isSome || s.GroupByNotNil || anyHasAggregate s.Columns
      || anyOrderHasAggregate s.OrderBy then
    if s.Distinct && s.GroupByNotNil then
      some (b, s, some (errorf (.Select s) "mixed hash aggregate and DISTINCT not supported"))
    else
      let r := d.splitAggregate b s.OrderBy s.Columns s.GroupBy s.Having
      some (r.1, s, r.2)
  else
    let selectall := isselectall s
    -- the trace and the value of `err` in front of `if s.OrderBy != nil`, or
    -- the error returned before it
    let projected : Option (Except (Trace × GoError) (Trace × Option GoError)) :=
      if selectall && !s.HasDistinct then
        let r := d.BindStar b
        some (.ok (r.1, r.2))
      else
        let distinct : Option (Except (Trace × GoError) (Trace × Bool)) :=
          if s.Distinct then
            let r := d.DistinctFromBindings b s.Columns
            match r.2 with
            | some err => some (.error (r.1, err))
            | none => some (.ok (r.1, true))
          else if s.DistinctExprNotNil then
            let r := d.Distinct b s.DistinctExpr
            match r.2 with
            | some err => some (.error (r.1, err))
            | none =>
              if selectall then
                match r.1.top with
                | [] => none
                | top :: parent => some (.ok (r.1.setTop (d.get (top :: parent) "*"), false))
              else some (.ok (r.1, true))
          else some (.ok (b, true))
        match distinct with
        | none => none
        | some (.error e) => some (.error e)
        | some (.ok (b1, bindcolumns)) =>
          if bindcolumns then
            let r := d.Bind b1 s.Columns
            match r.2 with
            | some err => some (.error (r.1, err))
            | none => some (.ok (r.1, none))
          else some (.ok (b1, none))
    match projected with
    | none => none
    | some (.error e) => some (e.1, s, some e.2)
    | some (.ok (b1, err)) =>
      if s.OrderByNotNil then
        let r := d.Order b1 s.OrderBy
        some (r.1, s, r.2)
      else some (b1, s, err)

/-- The part of walkSelect in front of `walk SELECT + GROUP BY + HAVING`: the
trace and the SELECT as that part leaves them, and the error with which
walkSelect returns there. -/
def walkSelect.prepare (d : Pkg)
    (walkSelect : Trace → Select → Option (Trace × Option GoError)) (b : Trace) (s : Select) :
    Option (Trace × Select × Option GoError) :=
  let s := pickOutputs d s
  let s := normalizeOrderBy d s
  let s := { s with Columns := d.flattenBind s.Columns }
  match Trace.hoistWindows d b s with
  | none => none
  | some (b, s, some err) => some (b, s, some err)
  | some (b, s, none) =>
    match Trace.walkFrom d walkSelect b (s.From.getD .Nil) with
    | none => none
    | some (b, some err) => some (b, s, some err)
    | some (b, none) =>
      let w : Trace × Option GoError :=
        match s.Where with
        | some w => d.Where b w
        | none => (b, none)
      match w.2 with
      | some err => some (w.1, s, some err)
      | none =>
        let s := if s.DistinctExprNotNil then dropConstantsFromDistinctOn d s else s
        let p := d.aggdistinctpromote s
        some (w.1, p.1, p.2)

/-- The part of walkSelect from `finally, LIMIT` on. -/
def walkSelect.limit (d : Pkg) (b : Trace) (s : Select) : Option (Trace × Select × Option GoError) :=
  let l : Trace × Option GoError :=
    match s.Limit with
    | some limit => d.LimitOffset b limit (s.Offset.getD 0)
    | none => (b, none)
  match l.2 with
  | some err => some (l.1, s, some err)
  | none => (Trace.hoist d l.1).map fun r => (r.1, s, r.2)

/-- Method walkSelect of Trace, with the SELECT as the call leaves it.  The
call of walkSelect on a SELECT in the FROM clause goes to `walkSelect`. -/
def Trace.walkSelect.run (d : Pkg)
    (walkSelect : Trace → Select → Option (Trace × Option GoError)) (b : Trace) (s : Select) :
    Option (Trace × Select × Option GoError) :=
  match Sneller.walkSelect.prepare d walkSelect b s with
  | none => none
  | some (b, s, some err) => some (b, s, some err)
  | some (b, s, none) =>
    match Sneller.walkSelect.columns d b s with
    | none => none
    | some (b, s, some err) => some (b, s, some err)
    | some (b, s, none) => Sneller.walkSelect.limit d b s

/-- Method walkSelect of Trace: the trace as the call leaves it and the error
returned (`none` for nil); the outer `none` stands for a panic. -/
def Trace.walkSelect (d : Pkg)
    (walkSelect : Trace → Select → Option (Trace × Option GoError)) (b : Trace) (s : Select) :
    Option (Trace × Option GoError) :=
  (Trace.walkSelect.run d walkSelect b s).map fun r => (r.1, r.2.2)

/-! ## The pipeline of the optimizer as a list of passes -/

/-- The passes of the optimizer, by name. -/
inductive Pass where
  | freezefinal
  | subflatten
  | simplify
  | aggelim
  | aggfilter
  | orderelim
  | projectpushdown
  | liftprojectagg
  | distinctelim
  | countdistinct2count
  | strengthReduce
  | filterelim
  | filterpushdown
  | limitpushdown
  | joinelim
  | projectelim
  | postcheck
  | partition
  | mergereplacements
deriving DecidableEq

/-- One pass run on a trace: the trace as the pass leaves it and the error it
returns (only joinelim and postcheck return one); `none` stands for a
panic. -/
def Pass.run (d : Pkg) : Pass → Trace → Option (Trace × Option GoError)
  | .freezefinal, b => some (Sneller.freezefinal d b, none)
  | .subflatten, b => some (Sneller.subflatten b, none)
  | .simplify, b => (Sneller.simplify d b).map fun b1 => (b1, none)
  | .aggelim, b => some (d.aggelim b, none)
  | .aggfilter, b => some (d.aggfilter b, none)
  | .orderelim, b => some (d.orderelim b, none)
  | .projectpushdown, b => some (d.projectpushdown b, none)
  | .liftprojectagg, b => some (d.liftprojectagg b, none)
  | .distinctelim, b => some (d.distinctelim b, none)
  | .countdistinct2count, b => some (d.countdistinct2count b, none)
  | .strengthReduce, b => some (d.strengthReduce b, none)
  | .filterelim, b => some (d.filterelim b, none)
  | .filterpushdown, b => some (d.filterpushdown b, none)
  | .limitpushdown, b => some (d.limitpushdown b, none)
  | .joinelim, b => some (d.joinelim b)
  | .projectelim, b => some (d.projectelim b, none)
  | .postcheck, b => some (d.postcheck b)
  | .partition, b => some (d.partition b, none)
  | .mergereplacements, b => some (d.mergereplacements b, none)

/-- A list of passes run one after the other on a trace; the run stops at the
first pass that returns an error, and gives that error. -/
def Pass.runAll (d : Pkg) : List Pass → Trace → Option (Trace × Option GoError)
  | [], b => some (b, none)
  | p :: rest, b =>
    match Pass.run d p b with
    | none => none
    | some (b1, some err) => some (b1, some err)
    | some (b1, none) => Pass.runAll d rest b1

/-- The sequence of passes as the specification of the optimizer lists it. -/
def optimize.passes : List Pass :=
  [.freezefinal, .subflatten, .simplify, .aggelim, .aggfilter, .orderelim, .projectpushdown,
    .liftprojectagg, .distinctelim, .countdistinct2count, .strengthReduce, .filterelim,
    .filterpushdown, .limitpushdown, .joinelim, .projectelim, .projectpushdown, .simplify,
    .postcheck, .partition, .mergereplacements]

/-! ## The chain of steps as linked objects -/

/-- Whether the step is a pseudo-table. -/
def Step.isPseudoTable : Step → Bool
  | .pseudoTable => true
  | _ => false

/-- The step objects reached from `top` by following the parent links are
those of `l`, in this order, and the last one has no parent.  A step object
is known by its address, `parent` gives the parent link of the object at an
address, and `none` is nil. -/
def Linked (parent : Nat → Option Nat) : Option Nat → List Nat → Prop
  | top, [] => top = none
  | top, x :: rest => top = some x ∧ Linked parent (parent x) rest

/-- The loop of subflatten on linked step objects, `pseudo` telling which
objects are pseudo-tables.  The state is `b.top`, the parent links, `prev` and
`s`; the result is `b.top` and the parent links after the loop.  `fuel` bounds
the number of iterations, and `none` says that it was used up. -/
def subflatten.loop (pseudo : Nat → Bool) :
    Nat → Option Nat → (Nat → Option Nat) → Option Nat → Option Nat →
      Option (Option Nat × (Nat → Option Nat))
  | _, top, parent, _, none => some (top, parent)
  | 0, _, _, _, some _ => none
  | fuel + 1, top, parent, prev, some s =>
    if pseudo s then
      match prev with
      | none => subflatten.loop pseudo fuel (parent s) parent prev (parent s)
      | some p =>
        let parent1 := Function.update parent p (parent s)
        subflatten.loop pseudo fuel top parent1 prev (parent1 s)
    else subflatten.loop pseudo fuel top parent (some s) (parent s)

/-! ## The first loop of `replaceTables` on the slice -/

/-- The first loop of replaceTables as it runs on the slice `with`, `i` being
its index: binding `i` is rewritten by a replacer whose list is `with[:i]`,
and stored back at index `i`.  The first argument bounds the number of rounds
left.  The result is the slice after the loop and the error of the
replacer; `none` stands for the panic of the type assertion. -/
def replaceTables.loop (d : Pkg) : Nat → Nat → List CTE → Option (List CTE × Option GoError)
  | 0, _, w => some (w, none)
  | n + 1, i, w =>
    match w[i]? with
    | none => some (w, none)
    | some c =>
      match Sneller.Rewrite (tableReplacer.rewriter d) { with_ := w.take i, err := none }
          (.Select c.As) with
      | some (.Select s1, rp) =>
        match rp.err with
        | some e => some (w.set i { c with As := s1 }, some e)
        | none => replaceTables.loop d n (i + 1) (w.set i { c with As := s1 })
      | _ => none

/-! ## `CompileError.WriteTo` -/

/-- Modelled from the spec: an `io.Writer`: its state, and its method Write,
which gives the state after the call, the count and the error. -/
structure Writer (σ : Type) where
  Write : σ → String → σ × Nat × Option GoError

/-- Function `fmt.Fprintf` of the Go standard library, the caller passing the
formatted text: the text is handed to the writer in one call of Write, whose
count and error are returned. -/
def Fprintf {σ : Type} (w : Writer σ) (dst : σ) (text : String) : σ × Nat × Option GoError :=
  w.Write dst text

/-- Method WriteTo of CompileError: the writer after the call, the count and
the error returned. -/
def CompileError.WriteTo {σ : Type} (d : Pkg) (c : CompileError) (w : Writer σ) (dst : σ) :
    σ × Int × Option GoError :=
  match c.In with
  | none =>
    let r := Fprintf w dst (c.Err ++ "\n")
    (r.1, (r.2.1 : Int), r.2.2)
  | some .Nil =>
    let r := Fprintf w dst (c.Err ++ "\n")
    (r.1, (r.2.1 : Int), r.2.2)
  | some e =>
    let r := Fprintf w dst ("in expression:\n\t" ++ d.ToString e ++ "\n" ++ c.Err ++ "\n")
    (r.1, (r.2.1 : Int), r.2.2)

/-- A writer that appends to a buffer, as `bytes.Buffer` does: it takes the
whole text and returns its length in bytes and no error. -/
def Writer.buffer : Writer String where
  Write := fun buf p => (buf ++ p, p.utf8ByteSize, none)

/-! ## Package `blockfmt`: the converter -/

/-- Type Converter of convert.go, with the fields that MultiStream and Run
read: the inputs (by name), the field names of the constants, whether the
reader `Prepend.R` is set, and `Parallel`. -/
structure Converter where
  Inputs : List String
  Constants : List String
  PrependR : Bool
  Parallel : Int

/-- Method MultiStream of Converter. -/
def Converter.MultiStream (c : Converter) : Bool :=
  decide (c.Inputs.length > 1) && (decide (c.Parallel ≤ 0) || decide (c.Parallel > 1))

/-- Method Run of Converter.  The function `slices.SortFunc` under the order
of the field names and the methods runMulti and runSingle are passed in; a
method gives the error it returns (`none` for nil). -/
def Converter.Run (sortFunc : List String → List String)
    (runMulti runSingle : Converter → Option GoError) (c : Converter) : Option GoError :=
  let c := { c with Constants := sortFunc c.Constants }
  if c.Inputs.length = 0 ∧ c.PrependR = false then
    some (.other "no inputs or merge sources")
  else if c.MultiStream then runMulti c
  else runSingle c

/-! ## Program `genconst`: the constant pool -/

/-- Type constpool of genconst.go, with the fields that printu64 reads.  A
map is the list of its keys with their values, a key standing once; a
constant of `w` bits is a natural number below `2 ^ w`. -/
structure constpool where
  qword : List (Nat × List String)
  dword : List (Nat × List String)
  bytes : List (Nat × List String)
  f64 : List (Nat × List String)
  f32 : List (Nat × List String)
  u64keys : List Nat

/-- Function `maps.Keys`; the order of the keys is not used. -/
def constpool.keys (m : List (Nat × List String)) : List Nat :=
  m.map fun p => p.1

/-- The value of a map at a key, nil when the key is absent. -/
def constpool.at (m : List (Nat × List String)) (k : Nat) : List String :=
  match m.find? fun p => p.1 == k with
  | some p => p.2
  | none => []

/-- The builtin `delete` on a map. -/
def constpool.delete (m : List (Nat × List String)) (k : Nat) : List (Nat × List String) :=
  m.filter fun p => p.1 != k

/-- A line that genconst writes: a `#define` of a name at an offset of the
pool, the data line of a 64-bit constant at an offset, or another text. -/
inductive Line where
  | define (name : String) (offset : Int)
  | dataU64 (offset : Int) (value : Nat)
  | text (s : String)
deriving DecidableEq

/-- Function define of genconst.go; the function uniq is passed in. -/
def define (uniq : List String → List String) (names : List String) (offset : Int) :
    List Line :=
  (uniq names).map fun name => .define name offset

/-- The closure f64alias of printu64, on the keys of `c.f64`. -/
def printu64.f64alias (keys : List Nat) (u64 : Nat) : Nat × Int :=
  if u64 ∈ keys then (u64, 0) else (0, -1)

/-- The closure f32alias of printu64, on the keys of `c.f32`. -/
def printu64.f32alias (keys : List Nat) (u64 : Nat) : Nat × Int :=
  let key := u64 % 2 ^ 32
  if key ∈ keys then (key, 0)
  else
    let key := (u64 / 2 ^ 32) % 2 ^ 32
    if key ∈ keys then (key, 4) else (0, -1)

/-- The closure u32alias of printu64, on the keys of `c.dword`. -/
def printu64.u32alias (keys : List Nat) (u64 : Nat) : Nat × Int :=
  let key := u64 % 2 ^ 32
  if key ∈ keys then (key, 0)
  else
    let key := (u64 / 2 ^ 32) % 2 ^ 32
    if key ∈ keys then (key, 4) else (0, -1)

/-- The loop of the closure u8alias, `for i := 0; i < 8; i++`, with the
number of rounds left. -/
def printu64.u8alias.loop (keys : List Nat) : Nat → Nat → Nat → Nat × Int
  | 0, _, _ => (0, -1)
  | left + 1, i, u64 =>
    let key := u64 % 2 ^ 8
    let u64 := u64 / 2 ^ 8
    if key ∈ keys then (key, (i : Int)) else printu64.u8alias.loop keys left (i + 1) u64

/-- The closure u8alias of printu64, on the keys of `c.bytes`. -/
def printu64.u8alias (keys : List Nat) (u64 : Nat) : Nat × Int :=
  printu64.u8alias.loop keys 8 0 u64

/-- One round of the loop of printu64, for the key `u64` at the index `i`:
the pool after the round and the lines written. -/
def printu64.round (uniq : List String → List String) (c : constpool) (i : Nat)
    (offset : Int) (u64 : Nat) : constpool × List Line :=
  let l0 : List Line := if i > 0 then [.text ""] else []
  let a8 := printu64.u8alias (constpool.keys c.bytes) u64
  let l1 := if a8.2 ≠ -1 then define uniq (constpool.at c.bytes a8.1) (offset + a8.2) else []
  let c := if a8.2 ≠ -1 then { c with bytes := constpool.delete c.bytes a8.1 } else c
  let a32 := printu64.u32alias (constpool.keys c.dword) u64
  let l2 := if a32.2 ≠ -1 then define uniq (constpool.at c.dword a32.1) (offset + a32.2) else []
  let c := if a32.2 ≠ -1 then { c with dword := constpool.delete c.dword a32.1 } else c
  let f32 := printu64.f32alias (constpool.keys c.f32) u64
  let l3 := if f32.2 ≠ -1 then define uniq (constpool.at c.f32 f32.1) (offset + f32.2) else []
  let c := if f32.2 ≠ -1 then { c with f32 := constpool.delete c.f32 f32.1 } else c
  let f64 := printu64.f64alias (constpool.keys c.f64) u64
  let l4 := if f64.2 ≠ -1 then define uniq (constpool.at c.f64 f64.1) (offset + f64.2) else []
  let c := if f64.2 ≠ -1 then { c with f64 := constpool.delete c.f64 f64.1 } else c
  (c, l0 ++ l1 ++ l2 ++ l3 ++ l4 ++ define uniq (constpool.at c.qword u64) offset
    ++ [.dataU64 offset u64])

/-- The loop of printu64 over `c.u64keys`. -/
def printu64.rounds (uniq : List String → List String) :
    constpool → Nat → Int → List Nat → constpool × List Line × Int
  | c, _, offset, [] => (c, [], offset)
  | c, i, offset, u64 :: rest =>
    let r := printu64.round uniq c i offset u64
    let q := printu64.rounds uniq r.1 (i + 1) (offset + 8) rest
    (q.1, r.2 ++ q.2.1, q.2.2)

/-- Method printu64 of constpool: the pool after the call, the lines written
and the offset returned. -/
def constpool.printu64 (uniq : List String → List String) (c : constpool) (offset : Int) :
    constpool × List Line × Int :=
  let r := printu64.rounds uniq c 0 offset c.u64keys
  (r.1, [.text "", .text "// uint64 constants"] ++ r.2.1, r.2.2)

/-- The byte at the address `a` of a pool that holds the 64-bit value `v` at
the offset `o` in little-endian order (0 outside the eight bytes). -/
def poolByte (o : Int) (v : Nat) (a : Int) : Nat :=
  if o ≤ a ∧ a < o + 8 then (v / 2 ^ (8 * (a - o).toNat)) % 2 ^ 8 else 0

/-- The little-endian value of the `n` bytes from the address `a` on. -/
def poolValue (mem : Int → Nat) (a : Int) : Nat → Nat
  | 0 => 0
  | n + 1 => mem a + 2 ^ 8 * poolValue mem (a + 1) n

/-- The pool in front of the round with the index `j` of the loop of
printu64: the pool as the rounds for the first `j` keys leave it. -/
def printu64.poolAt (uniq : List String → List String) (c : constpool) (j : Nat) : constpool :=
  (printu64.rounds uniq c 0 0 (c.u64keys.take j)).1

/-- The byte at the address `a` of the pool that the lines of a listing lay
out: the byte, in little-endian order, of the first line `CONST_DATA_U64` whose
eight bytes hold the address, and 0 when no line holds it. -/
def poolImage : List Line → Int → Nat
  | [], _ => 0
  | .dataU64 o v :: rest, a =>
    if o ≤ a ∧ a < o + 8 then poolByte o v a else poolImage rest a
  | .define _ _ :: rest, a => poolImage rest a
  | .text _ :: rest, a => poolImage rest a

/-! ## Program `genbytecode`: packing strings -/

/-- A Go string, as the list of its bytes. -/
abbrev Bytes := List Nat

/-- Function `strings.Contains` of the Go standard library: `substr` is within
`s`. -/
def stringsContains (s substr : Bytes) : Bool :=
  decide (substr <:+: s)

/-- Function prune of packstr.go. -/
def prune (compacted : Bytes) (set : List Bytes) : List Bytes :=
  set.foldl (fun tmp s => if !stringsContains compacted s then tmp ++ [s] else tmp) []

/-- Function costfunc of packstr.go. -/
def costfunc (compacted : Bytes) (set : List Bytes) : Nat :=
  set.foldl (fun n s => if stringsContains compacted s then n + 1 else n) 0

/-- Function allsubstrings of packstr.go: the slices `s[i:j+1]` for `i` from 0
and `j` from `i`, both below the length. -/
def allsubstrings (s : Bytes) : List Bytes :=
  (List.range s.length).flatMap fun i =>
    ((List.range s.length).drop i).map fun j => (s.take (j + 1)).drop i

/-- One candidate `tmp` in the search of packstringsaux: it becomes the best
string when its cost is above the best cost so far. -/
def packstringsaux.candidate (uniq : List Bytes) (best : Bytes × Nat) (tmp : Bytes) :
    Bytes × Nat :=
  let cost := costfunc tmp uniq
  if cost > best.2 then (tmp, cost) else best

/-- The search of one round of packstringsaux, over the words and their
substrings: `bestStr` and `bestCost` after it. -/
def packstringsaux.search (compacted : Bytes) (uniq : List Bytes) : Bytes × Nat :=
  uniq.foldl
    (fun best word =>
      (allsubstrings word).foldl
        (fun best s =>
          packstringsaux.candidate uniq
            (packstringsaux.candidate uniq best (compacted ++ s)) (s ++ compacted))
        best)
    ([], 0)

/-- The loop of packstringsaux, `for len(uniq) > 0`; `fuel` bounds the number
of rounds, and `none` says that it was used up. -/
def packstringsaux.loop : Nat → Bytes → List Bytes → Option Bytes
  | _, compacted, [] => some compacted
  | 0, _, _ :: _ => none
  | fuel + 1, compacted, w :: rest =>
    let best := packstringsaux.search compacted (w :: rest)
    if best.2 = 0 then some compacted
    else packstringsaux.loop fuel best.1 (prune best.1 (w :: rest))

/-- Function packstringsaux of packstr.go, with as many rounds as there are
strings. -/
def packstringsaux (uniq : List Bytes) : Option Bytes :=
  packstringsaux.loop uniq.length [] uniq

/-- The loop of packstrings over the tries, `left` being the number of tries
left: the string `compacted` after it.  The function shuffle is passed in,
with the state of the random source. -/
def packstrings.loop {σ : Type} (shuffle : List Bytes → σ → List Bytes × σ) :
    Nat → List Bytes → σ → Nat → Bytes → Option Bytes
  | 0, _, _, _, compacted => some compacted
  | left + 1, uniq, r, n, compacted =>
    match packstringsaux uniq with
    | none => none
    | some tmp =>
      let compacted1 := if tmp.length < n then tmp else compacted
      let n1 := if tmp.length < n then tmp.length else n
      let u := shuffle uniq r
      packstrings.loop shuffle left u.1 u.2 n1 compacted1

/-- Function packstrings of packstr.go, on the members of the set in the order
in which the map hands them out.  The function `sort.Strings`, the source of
random numbers for a seed and the function shuffle are passed in. -/
def packstrings {σ : Type} (sortStrings : List Bytes → List Bytes) (newSource : Int → σ)
    (shuffle : List Bytes → σ → List Bytes × σ) (set : List Bytes) : Option Bytes :=
  let n : Nat := (set.map fun s => s.length).sum
  let uniq := sortStrings set
  packstrings.loop shuffle 35 uniq (newSource (n : Int)) n []

/-- What holds of `bestStr` and `bestCost` during the search of
packstringsaux: the cost is 0, or it is the cost of the string, which holds
`compacted`. -/
def packstringsaux.Found (compacted : Bytes) (uniq : List Bytes) (best : Bytes × Nat) : Prop :=
  best.2 = 0 ∨ (best.2 = costfunc best.1 uniq ∧ compacted <:+: best.1)

/-- The order of Go strings: byte by byte, a prefix first. -/
def Bytes.le : Bytes → Bytes → Bool
  | [], _ => true
  | _ :: _, [] => false
  | a :: x, b :: y => decide (a < b) || (a == b && Bytes.le x y)

/-- A string put at its place in a sorted list. -/
def sortStrings.insert (s : Bytes) : List Bytes → List Bytes
  | [] => [s]
  | t :: rest => if Bytes.le s t then s :: t :: rest else t :: sortStrings.insert s rest

/-- Function `sort.Strings` of the Go standard library: the strings in
increasing order. -/
def sortStrings : List Bytes → List Bytes
  | [] => []
  | s :: rest => sortStrings.insert s (sortStrings rest)

/-! ## Concrete instances -/

/-- The zero value of `expr.Select`, as `&expr.Select{}` gives it. -/
def SelectOf.zero : Select where
  Distinct := false
  DistinctExpr := []
  Columns := []
  From := none
  Where := none
  GroupBy := []
  Having := none
  OrderBy := []
  Limit := none
  Offset := none

/-- One instance of the missing functions, on which the definitions can be
evaluated: a path of one component is named after that component and every
other expression has the empty default name, two one-component paths are
equivalent when they are equal, the codec copies every node, a sub-query
builds to a trace of one Bind step over its columns, every trace has class
One and is uncorrelated, the optimizer passes change nothing, and each method
that adds a step puts that step on top of the chain. -/
def Pkg.plain : Pkg where
  DefaultBinding := fun e =>
    match e with
    | .Path First [] => First
    | _ => ""
  Equivalent := fun a b =>
    match a, b with
    | .Path x [], .Path y [] => x == y
    | _, _ => false
  ToString := fun _ => "(...)"
  Quote := fun x => "\"" ++ x ++ "\""
  Sprint := fun _ => "(...)"
  SprintQ := fun _ => "\"(...)\""
  TypeName := fun _ => "expr.Node"
  Decode := fun e => .ok e
  build := fun parent sel => .ok (.mk [.Bind sel.Columns] (some parent) [] sel.Columns)
  Class := fun _ => .SizeOne
  decorrelate := fun t => .ok (t, .Nil, .Nil)
  TypeOf := fun _ _ => 0
  MissingType := 1
  Simplify := fun sel => sel
  Check := fun _ => none
  Simplifier := fun _ e => e
  LogicSimplifier := fun _ e => e
  aggelim := fun b => b
  aggfilter := fun b => b
  orderelim := fun b => b
  projectpushdown := fun b => b
  liftprojectagg := fun b => b
  distinctelim := fun b => b
  countdistinct2count := fun b => b
  strengthReduce := fun b => b
  filterelim := fun b => b
  filterpushdown := fun b => b
  limitpushdown := fun b => b
  joinelim := fun b => (b, none)
  projectelim := fun b => b
  postcheck := fun b => (b, none)
  partition := fun b => b
  mergereplacements := fun b => b
  Equals := fun a b =>
    match a, b with
    | .Aggregate o1 (.Path x []) _, .Aggregate o2 (.Path y []) _ => decide (o1 = o2) && x == y
    | _, _ => false
  Copy := fun e => e
  gensym := fun a b => "$_" ++ toString a ++ "_" ++ toString b
  KindQ := fun _ => "\"JOIN\""
  Begin := fun b tbl => (b.setTop (.Scan tbl :: b.top), none)
  Iterate := fun b v => (b.setTop (.Iterate v :: b.top), none)
  get := fun chain _ => chain
  Constant := fun e =>
    match e with
    | .Null => true
    | .Bool _ => true
    | .Integer _ => true
    | .String _ => true
    | _ => false
  flattenBind := fun cols => cols
  flattenIntoFunc := fun _ nodes => nodes
  aggdistinctpromote := fun s => (s, none)
  identityBindings := fun cols => cols
  Where := fun b w => (b.setTop (.Filter w :: b.top), none)
  splitAggregate := fun b _ cols group having =>
    (b.setTop (.Aggregate cols group having :: b.top), none)
  splitAggregateWithAuxiliary := fun b _ aux cols group having =>
    (b.setTop (.Aggregate (cols ++ aux) group having :: b.top), cols, none)
  Distinct := fun b cols => (b.setTop (.Distinct cols :: b.top), none)
  DistinctFromBindings := fun b cols =>
    (b.setTop (.Distinct (cols.map fun c => c.Expr) :: b.top), none)
  Bind := fun b cols => (b.setTop (.Bind cols :: b.top), none)
  BindStar := fun b => (b.setTop (.BindStar :: b.top), none)
  LimitOffset := fun b limit offset => (b.setTop (.LimitOffset limit offset :: b.top), none)
  Order := fun b cols => (b.setTop (.Order cols :: b.top), none)

/-- The trace of `SELECT (SELECT x) AS m FROM t` as walkSelect hands it to
hoist, with one replacement already in place, as hoistWindows leaves it for a
windowed aggregate (here a trace of the single step DummyOutput). -/
def hoistInput : Trace :=
  .mk [.Bind [⟨.Select { SelectOf.zero with Columns := [⟨.Path "x" [], ""⟩] }, "m"⟩],
      .Scan ⟨.Path "t" [], ""⟩]
    none [.mk [.DummyOutput] none [] []]
    [⟨.Select { SelectOf.zero with Columns := [⟨.Path "x" [], ""⟩] }, "m"⟩]

/-- The instance `Pkg.plain` with a postcheck that rejects every trace. -/
def Pkg.failing : Pkg :=
  { Pkg.plain with postcheck := fun b => (b, some (.other "postcheck failed")) }

/-- A walk of a SELECT that lowers `SELECT columns FROM t` to a scan followed
by a projection and returns no error. -/
def walkPlain (b : Trace) (s : Select) : Option (Trace × Option GoError) :=
  some (b.setTop [.Bind s.Columns, .Scan ⟨.Path "t" [], ""⟩], none)

/-- The SELECT `SELECT COUNT(DISTINCT x), SUM(y) FROM t GROUP BY g`, the
first column being left out here: the aggregate handed to windowHoist.Rewrite
in the examples carries its own OVER clause. -/
def outerCountDistinct (over : Option Window) : Select :=
  { SelectOf.zero with
    Columns := [⟨.Aggregate .OpCountDistinct (.Path "x" []) over, ""⟩,
      ⟨.Aggregate (.Other "SUM") (.Path "y" []) none, ""⟩],
    From := some (.Table ⟨.Path "t" [], ""⟩),
    GroupBy := [⟨.Path "g" [], ""⟩] }

/-- A pool with one 64-bit constant, `0x0000000100007f00`, the 32-bit constant
1 and the byte constant `0x7f`. -/
def constpool.sample : constpool :=
  { qword := [(4294999808, ["CONSTQ_x"])], dword := [(1, ["CONSTD_1"])],
    bytes := [(127, ["CONSTB_127"])], f64 := [], f32 := [], u64keys := [4294999808] }

end Sneller

/-! # Theorems -/

namespace Sneller

/-! ## Bindings -/

theorem Result_of_Explicit (d : Pkg) (c : Binding) (h : c.Explicit = true) :
    c.Result d = c.as ∧ c.as ≠ "" := by
  have h1 : c.as ≠ "" := by simpa [BindingOf.Explicit] using h
  exact ⟨by simp [BindingOf.Result, h1], h1⟩

theorem Result_of_not_Explicit (d : Pkg) (c : Binding) (h : c.Explicit = false) :
    c.Result d = d.DefaultBinding c.Expr := by
  have h1 : c.as = "" := by simpa [BindingOf.Explicit] using h
  simp [BindingOf.Result, h1]

theorem Result_As (d : Pkg) (c : Binding) (x : String) (h : x ≠ "") :
    (c.As x).Result d = x := by
  simp [BindingOf.Result, BindingOf.As, h]

/-! ## `pickOutputs` -/

/-- The inner loop of pickOutputs stops at the first name of the sequence
`res`, `res_<i+1>`, `res_<i+1>_<i+1>`, ... that is non-empty and not in use. -/
theorem pickOutputs.unique_spec (auto : List String) (i : Nat) (res : String) :
    ∃ k, pickOutputs.unique auto i res = res ++ repeatSuffix i k
      ∧ ¬ (res ++ repeatSuffix i k = "" ∨ res ++ repeatSuffix i k ∈ auto)
      ∧ ∀ j, j < k → (res ++ repeatSuffix i j = "" ∨ res ++ repeatSuffix i j ∈ auto) := by
  induction res using pickOutputs.unique.induct auto i with
  | case1 res h ih =>
    obtain ⟨k, hk, hfresh, hmin⟩ := ih
    refine ⟨k + 1, ?_, ?_, ?_⟩
    · rw [pickOutputs.unique, if_pos h, hk]
      simp [repeatSuffix, String.append_assoc]
    · simpa [repeatSuffix, String.append_assoc] using hfresh
    · intro j hj
      cases j with
      | zero => simpa [repeatSuffix] using h
      | succ j =>
        have := hmin j (by omega)
        simpa [repeatSuffix, String.append_assoc] using this
  | case2 res h =>
    refine ⟨0, ?_, ?_, ?_⟩
    · rw [pickOutputs.unique, if_neg h]
      simp [repeatSuffix]
    · simpa [repeatSuffix] using h
    · intro j hj
      omega

theorem pickOutputs.unique_ne_empty (auto : List String) (i : Nat) (res : String) :
    pickOutputs.unique auto i res ≠ "" := by
  obtain ⟨k, hk, hfresh, _⟩ := pickOutputs.unique_spec auto i res
  rw [hk]
  exact fun h => hfresh (Or.inl h)

theorem pickOutputs.columns_cons_name (d : Pkg) (i0 : Nat) (auto : List String)
    (c : Binding) (cs : List Binding) :
    ∃ o name, pickOutputs.columns d i0 auto (c :: cs)
        = o :: pickOutputs.columns d (i0 + 1) (name :: auto) cs
      ∧ o.Result d = name ∧ o.Expr = c.Expr
      ∧ (c.Explicit = true → o = c)
      ∧ (c.Explicit = false → name = pickOutputs.unique auto i0 (c.Result d)
          ∧ o = c.As name) := by
  by_cases h : c.Explicit = true
  · exact ⟨c, c.Result d, by simp [pickOutputs.columns, h], rfl, rfl, fun _ => rfl,
      fun h2 => by simp [h] at h2⟩
  · have h2 : c.Explicit = false := by simpa using h
    refine ⟨c.As (pickOutputs.unique auto i0 (c.Result d)),
      pickOutputs.unique auto i0 (c.Result d), by simp [pickOutputs.columns, h2], ?_, rfl,
      fun h3 => absurd h3 h, fun _ => ⟨rfl, rfl⟩⟩
    exact Result_As d c _ (pickOutputs.unique_ne_empty _ _ _)

theorem pickOutputs.columns_length (d : Pkg) :
    ∀ (cols : List Binding) (i0 : Nat) (auto : List String),
      (pickOutputs.columns d i0 auto cols).length = cols.length := by
  intro cols
  induction cols with
  | nil => intro i0 auto; simp [pickOutputs.columns]
  | cons c cs ih =>
    intro i0 auto
    obtain ⟨o, name, heq, -⟩ := pickOutputs.columns_cons_name d i0 auto c cs
    rw [heq, List.length_cons, ih, List.length_cons]

theorem pickOutputs.columns_spec (d : Pkg) :
    ∀ (cols : List Binding) (i0 : Nat) (auto : List String) (n : Nat) (c : Binding),
      cols[n]? = some c →
      (c.Explicit = true → (pickOutputs.columns d i0 auto cols)[n]? = some c) ∧
      (c.Explicit = false → ∃ k,
        (pickOutputs.columns d i0 auto cols)[n]?
            = some (c.As (c.Result d ++ repeatSuffix (i0 + n) k))
        ∧ Unused d auto ((pickOutputs.columns d i0 auto cols).take n)
            (c.Result d ++ repeatSuffix (i0 + n) k)
        ∧ ∀ j, j < k → ¬ Unused d auto ((pickOutputs.columns d i0 auto cols).take n)
            (c.Result d ++ repeatSuffix (i0 + n) j)) := by
  intro cols
  induction cols with
  | nil => intro i0 auto n c h; simp at h
  | cons c0 cs ih =>
    intro i0 auto n c h
    obtain ⟨o, name, heq, hname, -, hexp, himp⟩ := pickOutputs.columns_cons_name d i0 auto c0 cs
    rw [heq]
    cases n with
    | zero =>
      have hc : c0 = c := by simpa using h
      subst hc
      refine ⟨fun he => by simp [hexp he], fun he => ?_⟩
      obtain ⟨hn, ho⟩ := himp he
      obtain ⟨k, hk, hfresh, hmin⟩ := pickOutputs.unique_spec auto i0 (c0.Result d)
      refine ⟨k, ?_, ?_, ?_⟩
      · simp [ho, hn, hk]
      · simp only [not_or] at hfresh
        simpa [Unused] using hfresh
      · intro j hj hU
        have := hmin j hj
        simp only [Unused, Nat.add_zero, List.take_zero, List.not_mem_nil, false_implies,
          implies_true, and_true] at hU
        rcases this with h1 | h1
        · exact hU.1 h1
        · exact hU.2 h1
    | succ n =>
      have hc : cs[n]? = some c := by simpa using h
      obtain ⟨h1, h2⟩ := ih (i0 + 1) (name :: auto) n c hc
      have hidx : i0 + 1 + n = i0 + (n + 1) := by omega
      have hU : ∀ x, Unused d (name :: auto)
            ((pickOutputs.columns d (i0 + 1) (name :: auto) cs).take n) x
          ↔ Unused d auto
            ((o :: pickOutputs.columns d (i0 + 1) (name :: auto) cs).take (n + 1)) x := by
        intro x
        simp only [Unused, List.mem_cons, not_or, List.take_succ_cons, forall_eq_or_imp, hname]
        constructor
        · rintro ⟨a, ⟨b, c1⟩, e⟩
          exact ⟨a, c1, fun hh => b hh.symm, e⟩
        · rintro ⟨a, c1, b, e⟩
          exact ⟨a, ⟨fun hh => b hh.symm, c1⟩, e⟩
      refine ⟨fun he => by simpa using h1 he, fun he => ?_⟩
      obtain ⟨k, hk, hfresh, hmin⟩ := h2 he
      rw [hidx] at hk hfresh hmin
      refine ⟨k, by simpa using hk, (hU _).mp hfresh, fun j hj hh => hmin j hj ((hU _).mpr hh)⟩

theorem pickOutputs.columns_Expr (d : Pkg) :
    ∀ (cols : List Binding) (i0 : Nat) (auto : List String),
      (pickOutputs.columns d i0 auto cols).map (fun c => c.Expr) = cols.map (fun c => c.Expr) := by
  intro cols
  induction cols with
  | nil => intro i0 auto; simp [pickOutputs.columns]
  | cons c cs ih =>
    intro i0 auto
    obtain ⟨o, name, heq, -, hE, -⟩ := pickOutputs.columns_cons_name d i0 auto c cs
    rw [heq, List.map_cons, ih, List.map_cons, hE]

theorem pickOutputs.columns_nonempty (d : Pkg) :
    ∀ (cols : List Binding) (i0 : Nat) (auto : List String),
      ∀ c ∈ pickOutputs.columns d i0 auto cols, c.Result d ≠ "" := by
  intro cols
  induction cols with
  | nil => intro i0 auto c hc; simp [pickOutputs.columns] at hc
  | cons c0 cs ih =>
    intro i0 auto c hc
    obtain ⟨o, name, heq, hname, -, hexp, himp⟩ := pickOutputs.columns_cons_name d i0 auto c0 cs
    rw [heq] at hc
    rcases List.mem_cons.mp hc with h | h
    · subst h
      by_cases he : c0.Explicit = true
      · rw [hexp he]
        obtain ⟨h1, h2⟩ := Result_of_Explicit d c0 he
        rw [h1]
        exact h2
      · have he2 : c0.Explicit = false := by simpa using he
        rw [hname, (himp he2).1]
        exact pickOutputs.unique_ne_empty _ _ _
    · exact ih _ _ c h

end Sneller

namespace Sneller

/-- C6: for every SELECT `s`, after `pickOutputs(s)` every column of `s` has a
non-empty result name. -/
theorem pickOutputs_result_nonempty (d : Pkg) (s : Select) :
    ∀ c ∈ (pickOutputs d s).Columns, c.Result d ≠ "" :=
  pickOutputs.columns_nonempty d s.Columns 0 []

/-- C6, on `SELECT a, a, 1`: the third column, whose default name is empty,
ends up with the name `_3`. -/
theorem pickOutputs_result_nonempty_witness :
    (⟨.Integer 1, "_3"⟩ : Binding)
        ∈ (pickOutputs Pkg.plain { SelectOf.zero with
            Columns := [⟨.Path "a" [], ""⟩, ⟨.Path "a" [], ""⟩, ⟨.Integer 1, ""⟩] }).Columns
      ∧ (⟨.Integer 1, "_3"⟩ : Binding).Result Pkg.plain ≠ "" :=
  have hm : (⟨.Integer 1, "_3"⟩ : Binding)
      ∈ (pickOutputs Pkg.plain { SelectOf.zero with
          Columns := [⟨.Path "a" [], ""⟩, ⟨.Path "a" [], ""⟩, ⟨.Integer 1, ""⟩] }).Columns := by
    simp +decide [pickOutputs, pickOutputs.columns, pickOutputs.unique, BindingOf.Explicit,
      BindingOf.Result, BindingOf.As, Pkg.plain, SelectOf.zero]
  ⟨hm, pickOutputs_result_nonempty Pkg.plain _ _ hm⟩

end Sneller

namespace Sneller

/-- The columns before position `j` of the output all carry names that differ
from the name chosen for an implicitly named column at position `j`. -/
theorem pickOutputs.earlier_ne (d : Pkg) (cols : List Binding) (i j : Nat) (a b c : Binding)
    (hij : i < j) (hc : cols[j]? = some c) (he : c.Explicit = false)
    (ha : (pickOutputs.columns d 0 [] cols)[i]? = some a)
    (hb : (pickOutputs.columns d 0 [] cols)[j]? = some b) :
    a.Result d ≠ b.Result d := by
  obtain ⟨k, hk, hU, -⟩ := (pickOutputs.columns_spec d cols 0 [] j c hc).2 he
  rw [hk] at hb
  have hb2 : b = c.As (c.Result d ++ repeatSuffix (0 + j) k) := (Option.some.inj hb).symm
  have hmem : a ∈ (pickOutputs.columns d 0 [] cols).take j := by
    apply List.getElem?_mem (n := i)
    rw [List.getElem?_take_of_lt hij]
    exact ha
  rw [hb2, Result_As d c _ hU.1]
  exact hU.2.2 a hmem

/-- C5 (amended): after `pickOutputs(s)` the result name of every column that
is not explicitly named differs from the result names of all columns before
it; the result names of all columns are pairwise distinct whenever, in
addition, no explicitly named column carries the result name of a column
before it. -/
theorem pickOutputs_implicit_names_distinct (d : Pkg) (s : Select) :
    (∀ (i j : Nat) (a b c : Binding), i < j → s.Columns[j]? = some c → c.Explicit = false →
        (pickOutputs d s).Columns[i]? = some a → (pickOutputs d s).Columns[j]? = some b →
        a.Result d ≠ b.Result d)
    ∧ ((∀ (i j : Nat) (a b c : Binding), i < j → s.Columns[j]? = some c → c.Explicit = true →
          (pickOutputs d s).Columns[i]? = some a → (pickOutputs d s).Columns[j]? = some b →
          a.Result d ≠ b.Result d) →
        ((pickOutputs d s).Columns.map fun c => c.Result d).Nodup) := by
  have h1 : ∀ (i j : Nat) (a b c : Binding), i < j → s.Columns[j]? = some c →
      c.Explicit = false →
      (pickOutputs d s).Columns[i]? = some a → (pickOutputs d s).Columns[j]? = some b →
      a.Result d ≠ b.Result d :=
    fun i j a b c hij hc he ha hb => pickOutputs.earlier_ne d s.Columns i j a b c hij hc he ha hb
  refine ⟨h1, fun h2 => ?_⟩
  rw [List.nodup_iff_getElem?_ne_getElem?]
  intro i j hij hj
  have hlen : (pickOutputs d s).Columns.length = s.Columns.length :=
    pickOutputs.columns_length d s.Columns 0 []
  rw [List.length_map] at hj
  have hj2 : j < s.Columns.length := hlen ▸ hj
  have hi : i < (pickOutputs d s).Columns.length := Nat.lt_trans hij hj
  rw [List.getElem?_map, List.getElem?_map, List.getElem?_eq_getElem hi,
    List.getElem?_eq_getElem hj]
  simp only [Option.map_some', ne_eq, Option.some.injEq]
  by_cases he : (s.Columns[j]).Explicit = true
  · exact h2 i j _ _ _ hij (List.getElem?_eq_getElem hj2) he (List.getElem?_eq_getElem hi)
      (List.getElem?_eq_getElem hj)
  · exact h1 i j _ _ _ hij (List.getElem?_eq_getElem hj2) (by simpa using he)
      (List.getElem?_eq_getElem hi) (List.getElem?_eq_getElem hj)

/-- C5, the claim as stated fails on `SELECT a AS x, b AS x`: both columns are
explicitly named, pickOutputs leaves them alone, and the two result names are
equal. -/
theorem pickOutputs_names_not_distinct :
    ¬ ((pickOutputs Pkg.plain { SelectOf.zero with
          Columns := [⟨.Path "a" [], "x"⟩, ⟨.Path "b" [], "x"⟩] }).Columns.map
        fun c => c.Result Pkg.plain).Nodup := by
  simp +decide [pickOutputs, pickOutputs.columns, BindingOf.Explicit, BindingOf.Result,
    SelectOf.zero]

/-- C5 (amended), on `SELECT a, a`: the second column is renamed to `a_2`,
which differs from the name `a` of the first. -/
theorem pickOutputs_implicit_names_distinct_witness :
    (0 < 1 ∧ (⟨.Path "a" [], ""⟩ : Binding).Explicit = false)
      ∧ (⟨.Path "a" [], "a"⟩ : Binding).Result Pkg.plain
          ≠ (⟨.Path "a" [], "a_2"⟩ : Binding).Result Pkg.plain :=
  ⟨⟨by decide, by decide⟩,
    (pickOutputs_implicit_names_distinct Pkg.plain { SelectOf.zero with
        Columns := [⟨.Path "a" [], ""⟩, ⟨.Path "a" [], ""⟩] }).1 0 1
      ⟨.Path "a" [], "a"⟩ ⟨.Path "a" [], "a_2"⟩ ⟨.Path "a" [], ""⟩ (by decide)
      (by simp [SelectOf.zero]) (by decide)
      (by simp +decide [pickOutputs, pickOutputs.columns, pickOutputs.unique,
        BindingOf.Explicit, BindingOf.Result, BindingOf.As, Pkg.plain, SelectOf.zero])
      (by simp +decide [pickOutputs, pickOutputs.columns, pickOutputs.unique,
        BindingOf.Explicit, BindingOf.Result, BindingOf.As, Pkg.plain, SelectOf.zero])⟩

/-- C7: the naming rule of pickOutputs.  The expressions of the columns, and
so their number and order, are unchanged; an explicitly named column is left
as it is; an implicitly named column at zero-based position `i` receives its
default name followed by `k` copies of `_<i+1>`, where `k` is the smallest
number for which that name is non-empty and differs from the result names of
all columns before it, so that `k = 0` exactly when the default name itself
is non-empty and unused.  The inner loop is a total function, so it
terminates on every input. -/
theorem pickOutputs_naming_rule (d : Pkg) (s : Select) :
    ((pickOutputs d s).Columns.map fun c => c.Expr) = s.Columns.map (fun c => c.Expr)
    ∧ ∀ (i : Nat) (c : Binding), s.Columns[i]? = some c →
      (c.Explicit = true → (pickOutputs d s).Columns[i]? = some c)
      ∧ (c.Explicit = false → ∃ k,
          (pickOutputs d s).Columns[i]?
              = some (c.As (d.DefaultBinding c.Expr ++ repeatSuffix i k))
          ∧ (c.As (d.DefaultBinding c.Expr ++ repeatSuffix i k)).Result d
              = d.DefaultBinding c.Expr ++ repeatSuffix i k
          ∧ Unused d [] ((pickOutputs d s).Columns.take i)
              (d.DefaultBinding c.Expr ++ repeatSuffix i k)
          ∧ (∀ j, j < k → ¬ Unused d [] ((pickOutputs d s).Columns.take i)
              (d.DefaultBinding c.Expr ++ repeatSuffix i j))
          ∧ (k = 0 ↔ Unused d [] ((pickOutputs d s).Columns.take i)
              (d.DefaultBinding c.Expr))) := by
  refine ⟨pickOutputs.columns_Expr d s.Columns 0 [], fun i c hc => ?_⟩
  obtain ⟨h1, h2⟩ := pickOutputs.columns_spec d s.Columns 0 [] i c hc
  refine ⟨h1, fun he => ?_⟩
  obtain ⟨k, hk, hU, hmin⟩ := h2 he
  rw [Result_of_not_Explicit d c he, Nat.zero_add] at hk hU hmin
  refine ⟨k, hk, Result_As d c _ hU.1, hU, hmin, ?_⟩
  constructor
  · intro h0
    subst h0
    simpa [repeatSuffix] using hU
  · intro h0
    cases k with
    | zero => rfl
    | succ k =>
      exact absurd (by simpa [repeatSuffix] using h0) (hmin 0 (Nat.succ_pos k))

/-- C7, on `SELECT a, a_2, a`: the third column is implicitly named, cannot
keep `a`, and gets the suffix `_3`; the output is `a`, `a_2`, `a_3`. -/
theorem pickOutputs_naming_rule_witness :
    ([⟨.Path "a" [], ""⟩, ⟨.Path "a_2" [], ""⟩, ⟨.Path "a" [], ""⟩] : List Binding)[2]?
        = some ⟨.Path "a" [], ""⟩
      ∧ (pickOutputs Pkg.plain { SelectOf.zero with
            Columns := [⟨.Path "a" [], ""⟩, ⟨.Path "a_2" [], ""⟩, ⟨.Path "a" [], ""⟩] }).Columns
          = [⟨.Path "a" [], "a"⟩, ⟨.Path "a_2" [], "a_2"⟩, ⟨.Path "a" [], "a_3"⟩]
      ∧ ∃ k,
          (pickOutputs Pkg.plain { SelectOf.zero with
            Columns := [⟨.Path "a" [], ""⟩, ⟨.Path "a_2" [], ""⟩, ⟨.Path "a" [], ""⟩] }).Columns[2]?
              = some ((⟨.Path "a" [], ""⟩ : Binding).As
                  (Pkg.plain.DefaultBinding (.Path "a" []) ++ repeatSuffix 2 k))
          ∧ ((⟨.Path "a" [], ""⟩ : Binding).As
                (Pkg.plain.DefaultBinding (.Path "a" []) ++ repeatSuffix 2 k)).Result Pkg.plain
              = Pkg.plain.DefaultBinding (.Path "a" []) ++ repeatSuffix 2 k
          ∧ Unused Pkg.plain [] ((pickOutputs Pkg.plain { SelectOf.zero with
              Columns := [⟨.Path "a" [], ""⟩, ⟨.Path "a_2" [], ""⟩, ⟨.Path "a" [], ""⟩]
              }).Columns.take 2)
              (Pkg.plain.DefaultBinding (.Path "a" []) ++ repeatSuffix 2 k)
          ∧ (∀ j, j < k → ¬ Unused Pkg.plain [] ((pickOutputs Pkg.plain { SelectOf.zero with
              Columns := [⟨.Path "a" [], ""⟩, ⟨.Path "a_2" [], ""⟩, ⟨.Path "a" [], ""⟩]
              }).Columns.take 2)
              (Pkg.plain.DefaultBinding (.Path "a" []) ++ repeatSuffix 2 j))
          ∧ (k = 0 ↔ Unused Pkg.plain [] ((pickOutputs Pkg.plain { SelectOf.zero with
              Columns := [⟨.Path "a" [], ""⟩, ⟨.Path "a_2" [], ""⟩, ⟨.Path "a" [], ""⟩]
              }).Columns.take 2)
              (Pkg.plain.DefaultBinding (.Path "a" []))) :=
  ⟨rfl,
    by simp +decide [pickOutputs, pickOutputs.columns, pickOutputs.unique,
      BindingOf.Explicit, BindingOf.Result, BindingOf.As, Pkg.plain, SelectOf.zero],
    ((pickOutputs_naming_rule Pkg.plain { SelectOf.zero with
        Columns := [⟨.Path "a" [], ""⟩, ⟨.Path "a_2" [], ""⟩, ⟨.Path "a" [], ""⟩] }).2 2
      ⟨.Path "a" [], ""⟩ rfl).2 (by decide)⟩

/-! ## `normalizeOrderBy` -/

theorem normalizeOrderBy.term_first (d : Pkg) (o : Order) :
    ∀ (cols : List Binding) (j : Nat) (c : Binding), cols[j]? = some c →
      d.Equivalent o.Column c.Expr = true →
      (∀ (j2 : Nat) (c2 : Binding), j2 < j → cols[j2]? = some c2 →
        d.Equivalent o.Column c2.Expr = false) →
      normalizeOrderBy.term d o cols = { o with Column := .Path (c.Result d) [] } := by
  intro cols
  induction cols with
  | nil => intro j c h; simp at h
  | cons c0 cs ih =>
    intro j c hc he hmin
    cases j with
    | zero =>
      have h0 : c0 = c := by simpa using hc
      subst h0
      simp [normalizeOrderBy.term, he]
    | succ j =>
      have h0 : d.Equivalent o.Column c0.Expr = false := hmin 0 c0 (Nat.succ_pos j) (by simp)
      have hc2 : cs[j]? = some c := by simpa using hc
      simp only [normalizeOrderBy.term, h0, Bool.false_eq_true, if_false]
      exact ih j c hc2 he fun j2 c2 hj2 h2 =>
        hmin (j2 + 1) c2 (Nat.succ_lt_succ hj2) (by simpa using h2)

theorem normalizeOrderBy.term_none (d : Pkg) (o : Order) :
    ∀ (cols : List Binding), (∀ c ∈ cols, d.Equivalent o.Column c.Expr = false) →
      normalizeOrderBy.term d o cols = o := by
  intro cols
  induction cols with
  | nil => intro _; rfl
  | cons c0 cs ih =>
    intro h
    have h0 : d.Equivalent o.Column c0.Expr = false := h c0 (List.mem_cons_self _ _)
    simp only [normalizeOrderBy.term, h0, Bool.false_eq_true, if_false]
    exact ih fun c hc => h c (List.mem_cons_of_mem _ hc)

/-- C8: normalizeOrderBy leaves the columns (and every clause other than
ORDER BY) as they are and keeps the number and order of the ORDER BY terms.
A term whose expression `expr.Equivalent` matches some column expression
gets the one-component path naming the result name of the lowest-indexed
such column, with its sort direction kept; a term that matches no column is
unchanged. -/
theorem normalizeOrderBy_spec (d : Pkg) (s : Select) :
    normalizeOrderBy d s = { s with OrderBy := (normalizeOrderBy d s).OrderBy }
    ∧ (normalizeOrderBy d s).OrderBy.length = s.OrderBy.length
    ∧ ∀ (i : Nat) (o : Order), s.OrderBy[i]? = some o →
      (∀ (j : Nat) (c : Binding), s.Columns[j]? = some c →
          d.Equivalent o.Column c.Expr = true →
          (∀ (j2 : Nat) (c2 : Binding), j2 < j → s.Columns[j2]? = some c2 →
            d.Equivalent o.Column c2.Expr = false) →
          (normalizeOrderBy d s).OrderBy[i]?
            = some { Column := .Path (c.Result d) [], Desc := o.Desc, NullsLast := o.NullsLast })
      ∧ ((∀ c ∈ s.Columns, d.Equivalent o.Column c.Expr = false) →
          (normalizeOrderBy d s).OrderBy[i]? = some o) := by
  refine ⟨rfl, by simp [normalizeOrderBy], fun i o ho => ⟨fun j c hc he hmin => ?_, fun h => ?_⟩⟩
  · simp only [normalizeOrderBy, List.getElem?_map, ho, Option.map_some']
    rw [normalizeOrderBy.term_first d o s.Columns j c hc he hmin]
  · simp only [normalizeOrderBy, List.getElem?_map, ho, Option.map_some']
    rw [normalizeOrderBy.term_none d o s.Columns h]

/-- C8, on `SELECT a AS x, b AS y, b AS z ... ORDER BY b DESC`: the term
becomes the path `y`, the name of the first of the two matching columns, and
stays descending. -/
theorem normalizeOrderBy_spec_witness :
    (([⟨.Path "b" [], true, false⟩] : List Order)[0]? = some ⟨.Path "b" [], true, false⟩
      ∧ ([⟨.Path "a" [], "x"⟩, ⟨.Path "b" [], "y"⟩, ⟨.Path "b" [], "z"⟩] : List Binding)[1]?
          = some ⟨.Path "b" [], "y"⟩
      ∧ Pkg.plain.Equivalent (.Path "b" []) (.Path "b" []) = true)
    ∧ (normalizeOrderBy Pkg.plain { SelectOf.zero with
          Columns := [⟨.Path "a" [], "x"⟩, ⟨.Path "b" [], "y"⟩, ⟨.Path "b" [], "z"⟩],
          OrderBy := [⟨.Path "b" [], true, false⟩] }).OrderBy[0]?
        = some { Column := .Path ((⟨.Path "b" [], "y"⟩ : Binding).Result Pkg.plain) [],
                 Desc := true, NullsLast := false } :=
  ⟨⟨rfl, rfl, rfl⟩,
    ((normalizeOrderBy_spec Pkg.plain { SelectOf.zero with
        Columns := [⟨.Path "a" [], "x"⟩, ⟨.Path "b" [], "y"⟩, ⟨.Path "b" [], "z"⟩],
        OrderBy := [⟨.Path "b" [], true, false⟩] }).2.2 0 ⟨.Path "b" [], true, false⟩ rfl).1 1
      ⟨.Path "b" [], "y"⟩ rfl rfl (by
        intro j2 c2 hj2 h2
        have h0 : j2 = 0 := by omega
        subst h0
        have hc2 : c2 = ⟨.Path "a" [], "x"⟩ := by simpa [SelectOf.zero] using h2.symm
        subst hc2
        rfl)⟩

end Sneller

namespace Sneller

/-! ## CTE substitution -/

/-- The scan of cloneCTE passes over bindings that are named neither like the
path nor like the table. -/
theorem tableReplacer.cloneCTE.scan_skip (d : Pkg) (name : String) (table : Binding)
    (err : Option GoError) :
    ∀ (l rest : List CTE), (∀ x ∈ l, x.Table ≠ name ∧ x.Table ≠ table.Result d) →
      tableReplacer.cloneCTE.scan d name table err (l ++ rest)
        = tableReplacer.cloneCTE.scan d name table err rest := by
  intro l
  induction l with
  | nil => intro rest _; rfl
  | cons x xs ih =>
    intro rest h
    obtain ⟨h1, h2⟩ := h x (List.mem_cons_self _ _)
    have h1b : ¬ name = x.Table := fun e => h1 e.symm
    have h2b : ¬ table.Result d = x.Table := fun e => h2 e.symm
    simp only [List.cons_append, tableReplacer.cloneCTE.scan, h1b, h2b, if_false]
    exact ih rest fun y hy => h y (List.mem_cons_of_mem _ hy)

/-- The scan of cloneCTE, started on a WITH list split at its last binding that
is named like the path or like the table. -/
theorem tableReplacer.cloneCTE.scan_split (d : Pkg) (name : String) (table : Binding)
    (err : Option GoError) (pre post : List CTE) (c : CTE)
    (hpost : ∀ x ∈ post, x.Table ≠ name ∧ x.Table ≠ table.Result d) :
    tableReplacer.cloneCTE.scan d name table err (pre ++ c :: post).reverse
      = tableReplacer.cloneCTE.scan d name table err (c :: pre.reverse) := by
  have hrev : (pre ++ c :: post).reverse = post.reverse ++ c :: pre.reverse := by simp
  rw [hrev]
  exact tableReplacer.cloneCTE.scan_skip d name table err post.reverse (c :: pre.reverse)
    fun x hx => hpost x (List.mem_reverse.mp hx)

/-- C4: when the WITH list holds one or more bindings named `n`, `c` being the
last of them, and no binding declared after `c` is named like the table, then
cloneCTE on the one-component path `n` returns the copy of the body of `c`,
and Rewrite puts that copy in the place of the path of the table reference,
leaving the replacer as it was. -/
theorem cloneCTE_last_binding (d : Pkg) (t : tableReplacer) (a : String)
    (pre post : List CTE) (c : CTE) (cop : Node)
    (hwith : t.with_ = pre ++ c :: post)
    (hpost : ∀ x ∈ post, x.Table ≠ c.Table
      ∧ x.Table ≠ (⟨.Path c.Table [], a⟩ : Binding).Result d)
    (hcopy : exprcopy d (.Select c.As) = .ok cop) (hcop : cop ≠ .Nil) :
    tableReplacer.cloneCTE d t (.Path c.Table []) ⟨.Path c.Table [], a⟩ = (cop, t)
    ∧ tableReplacer.Rewrite d t (.Table ⟨.Path c.Table [], a⟩) = (.Table ⟨cop, a⟩, t) := by
  have h1 : tableReplacer.cloneCTE d t (.Path c.Table []) ⟨.Path c.Table [], a⟩ = (cop, t) := by
    obtain ⟨w, e⟩ := t
    simp only at hwith
    subst hwith
    simp only [tableReplacer.cloneCTE]
    rw [tableReplacer.cloneCTE.scan_split d c.Table _ e pre post c hpost]
    simp [tableReplacer.cloneCTE.scan, hcopy]
  refine ⟨h1, ?_⟩
  rw [tableReplacer.Rewrite, h1]
  cases cop <;> simp at hcop ⊢

/-- C4, on `WITH n AS (SELECT 1), m AS (SELECT 2), n AS (SELECT 3)` and the
table reference `n`: the body of the last binding named `n` is taken. -/
theorem cloneCTE_last_binding_witness :
    ((⟨[⟨"n", { SelectOf.zero with Columns := [⟨.Integer 1, ""⟩] }⟩,
          ⟨"m", { SelectOf.zero with Columns := [⟨.Integer 2, ""⟩] }⟩,
          ⟨"n", { SelectOf.zero with Columns := [⟨.Integer 3, ""⟩] }⟩], none⟩ : tableReplacer).with_
        = [⟨"n", { SelectOf.zero with Columns := [⟨.Integer 1, ""⟩] }⟩,
            ⟨"m", { SelectOf.zero with Columns := [⟨.Integer 2, ""⟩] }⟩]
          ++ ⟨"n", { SelectOf.zero with Columns := [⟨.Integer 3, ""⟩] }⟩ :: []
      ∧ exprcopy Pkg.plain (.Select { SelectOf.zero with Columns := [⟨.Integer 3, ""⟩] })
          = .ok (.Select { SelectOf.zero with Columns := [⟨.Integer 3, ""⟩] }))
    ∧ tableReplacer.Rewrite Pkg.plain
          ⟨[⟨"n", { SelectOf.zero with Columns := [⟨.Integer 1, ""⟩] }⟩,
            ⟨"m", { SelectOf.zero with Columns := [⟨.Integer 2, ""⟩] }⟩,
            ⟨"n", { SelectOf.zero with Columns := [⟨.Integer 3, ""⟩] }⟩], none⟩
          (.Table ⟨.Path "n" [], ""⟩)
        = (.Table ⟨.Select { SelectOf.zero with Columns := [⟨.Integer 3, ""⟩] }, ""⟩,
            ⟨[⟨"n", { SelectOf.zero with Columns := [⟨.Integer 1, ""⟩] }⟩,
              ⟨"m", { SelectOf.zero with Columns := [⟨.Integer 2, ""⟩] }⟩,
              ⟨"n", { SelectOf.zero with Columns := [⟨.Integer 3, ""⟩] }⟩], none⟩) :=
  ⟨⟨rfl, rfl⟩,
    (cloneCTE_last_binding Pkg.plain
      ⟨[⟨"n", { SelectOf.zero with Columns := [⟨.Integer 1, ""⟩] }⟩,
        ⟨"m", { SelectOf.zero with Columns := [⟨.Integer 2, ""⟩] }⟩,
        ⟨"n", { SelectOf.zero with Columns := [⟨.Integer 3, ""⟩] }⟩], none⟩ ""
      [⟨"n", { SelectOf.zero with Columns := [⟨.Integer 1, ""⟩] }⟩,
        ⟨"m", { SelectOf.zero with Columns := [⟨.Integer 2, ""⟩] }⟩] []
      ⟨"n", { SelectOf.zero with Columns := [⟨.Integer 3, ""⟩] }⟩
      (.Select { SelectOf.zero with Columns := [⟨.Integer 3, ""⟩] })
      rfl (fun x hx => absurd hx (List.not_mem_nil x)) rfl (by simp)).2⟩

end Sneller

namespace Sneller

theorem tableReplacer.cloneCTE.scan_shadow (d : Pkg) (name : String) (table : Binding)
    (err : Option GoError) (h : IsShadowError d err) :
    ∀ (l : List CTE), IsShadowError d (tableReplacer.cloneCTE.scan d name table err l).2 := by
  intro l
  induction l with
  | nil => exact h
  | cons c rest ih =>
    obtain ⟨e, x, y, he⟩ := h
    unfold tableReplacer.cloneCTE.scan
    split
    · split
      · simp only [he, Option.isNone_some, Bool.false_eq_true, if_false]
        exact ⟨e, x, y, rfl⟩
      · exact ⟨e, x, y, he⟩
    · split
      · exact ⟨_, _, _, rfl⟩
      · exact ih

theorem tableReplacer.cloneCTE_shadow (d : Pkg) (t : tableReplacer) (arg : Node)
    (table : Binding) (h : IsShadowError d t.err) :
    IsShadowError d (tableReplacer.cloneCTE d t arg table).2.err := by
  unfold tableReplacer.cloneCTE
  split
  · exact tableReplacer.cloneCTE.scan_shadow d _ table t.err h _
  · exact h

theorem tableReplacer.Rewrite_shadow (d : Pkg) (t : tableReplacer) (e : Node) :
    IsShadowError d t.err → IsShadowError d (tableReplacer.Rewrite d t e).2.err := by
  refine tableReplacer.Rewrite.induct d
    (fun t e => IsShadowError d t.err → IsShadowError d (tableReplacer.Rewrite d t e).2.err)
    (fun asname done t vs => IsShadowError d t.err →
      IsShadowError d (tableReplacer.Rewrite.values d asname done t vs).2.err)
    ?_ ?_ ?_ ?_ ?_ ?_ ?_ ?_ ?_ t e
  · intro t name rest asname t1 heq h
    have h1 := tableReplacer.cloneCTE_shadow d t (.Path name rest) ⟨.Path name rest, asname⟩ h
    rw [heq] at h1
    rw [tableReplacer.Rewrite, heq]
    exact h1
  · intro t name rest asname cte t1 hne heq h
    have h1 := tableReplacer.cloneCTE_shadow d t (.Path name rest) ⟨.Path name rest, asname⟩ h
    rw [heq] at h1
    rw [tableReplacer.Rewrite, heq]
    cases cte <;> first | exact absurd rfl hne | exact h1
  · intro t ref a at_ asname t1 heq ih h
    have h1 := tableReplacer.cloneCTE_shadow d t ref ⟨.Unpivot ref a at_, asname⟩ h
    rw [heq] at h1
    rw [tableReplacer.Rewrite, heq]
    exact ih h1
  · intro t ref a at_ asname cte t1 hne heq h
    have h1 := tableReplacer.cloneCTE_shadow d t ref ⟨.Unpivot ref a at_, asname⟩ h
    rw [heq] at h1
    rw [tableReplacer.Rewrite, heq]
    cases cte <;> first | exact absurd rfl hne | exact h1
  · intro t vs asname ih h
    rw [tableReplacer.Rewrite]
    exact ih h
  · intro t e h1 h2 h3 h
    rw [tableReplacer.Rewrite]
    · exact h
    · exact h1
    · exact h2
    · exact h3
  · intro asname done t h
    rw [tableReplacer.Rewrite.values]
    exact h
  · intro asname done t a rest t1 heq r ih1 ih2 h
    have h1 := tableReplacer.cloneCTE_shadow d t a ⟨.Appended (done ++ a :: rest), asname⟩ h
    rw [heq] at h1
    rw [tableReplacer.Rewrite.values, heq]
    exact ih2 (ih1 h1)
  · intro asname done t a rest cte t1 hne heq ih h
    have h1 := tableReplacer.cloneCTE_shadow d t a ⟨.Appended (done ++ a :: rest), asname⟩ h
    rw [heq] at h1
    rw [tableReplacer.Rewrite.values, heq]
    cases cte <;> first | exact absurd rfl hne | exact ih h1

theorem Rewrite_no_walk {σ : Type} (r : Rewriter σ) (st : σ) (e : Node)
    (h : r.Walk st e = false) : Sneller.Rewrite r st e = r.Rewrite st e := by
  have hn : ¬ (r.Walk st e = true) := by rw [h]; decide
  cases e <;> first
    | rfl
    | (show (if _ then _ else _) = _
       rw [if_neg hn])

theorem tableReplacer.walk_node_shadow (d : Pkg) (t : tableReplacer) (e : Node)
    (h : IsShadowError d t.err) :
    ∃ n t1, Sneller.Rewrite (tableReplacer.rewriter d) t e = some (n, t1)
      ∧ IsShadowError d t1.err := by
  have hw : (tableReplacer.rewriter d).Walk t e = false := by
    obtain ⟨x, y, z, hx⟩ := h
    simp [tableReplacer.rewriter, tableReplacer.Walk, hx]
  rw [Rewrite_no_walk _ _ _ hw]
  exact ⟨_, _, rfl, tableReplacer.Rewrite_shadow d t e h⟩

theorem tableReplacer.walk_nodes_shadow (d : Pkg) :
    ∀ (l : List Node) (t : tableReplacer), IsShadowError d t.err →
      ∃ l1 t1, Rewrite.nodes (tableReplacer.rewriter d) t l = some (l1, t1)
        ∧ IsShadowError d t1.err := by
  intro l
  induction l with
  | nil => intro t h; exact ⟨_, _, rfl, h⟩
  | cons a rest ih =>
    intro t h
    obtain ⟨n, t1, h1, hs1⟩ := tableReplacer.walk_node_shadow d t a h
    obtain ⟨l2, t2, h2, hs2⟩ := ih t1 hs1
    exact ⟨n :: l2, t2, by simp [Rewrite.nodes, h1, h2], hs2⟩

theorem tableReplacer.walk_bindings_shadow (d : Pkg) :
    ∀ (l : List Binding) (t : tableReplacer), IsShadowError d t.err →
      ∃ l1 t1, Rewrite.bindings (tableReplacer.rewriter d) t l = some (l1, t1)
        ∧ IsShadowError d t1.err := by
  intro l
  induction l with
  | nil => intro t h; exact ⟨_, _, rfl, h⟩
  | cons a rest ih =>
    intro t h
    obtain ⟨n, t1, h1, hs1⟩ := tableReplacer.walk_node_shadow d t a.Expr h
    obtain ⟨l2, t2, h2, hs2⟩ := ih t1 hs1
    exact ⟨{ a with Expr := n } :: l2, t2, by simp [Rewrite.bindings, h1, h2], hs2⟩

theorem tableReplacer.walk_orders_shadow (d : Pkg) :
    ∀ (l : List Order) (t : tableReplacer), IsShadowError d t.err →
      ∃ l1 t1, Rewrite.orders (tableReplacer.rewriter d) t l = some (l1, t1)
        ∧ IsShadowError d t1.err := by
  intro l
  induction l with
  | nil => intro t h; exact ⟨_, _, rfl, h⟩
  | cons a rest ih =>
    intro t h
    obtain ⟨n, t1, h1, hs1⟩ := tableReplacer.walk_node_shadow d t a.Column h
    obtain ⟨l2, t2, h2, hs2⟩ := ih t1 hs1
    exact ⟨{ a with Column := n } :: l2, t2, by simp [Rewrite.orders, h1, h2], hs2⟩

theorem tableReplacer.walk_option_shadow (d : Pkg) (o : Option Node) (t : tableReplacer)
    (h : IsShadowError d t.err) :
    ∃ o1 t1, Rewrite.option (tableReplacer.rewriter d) t o = some (o1, t1)
      ∧ IsShadowError d t1.err := by
  cases o with
  | none => exact ⟨_, _, rfl, h⟩
  | some a =>
    obtain ⟨n, t1, h1, hs1⟩ := tableReplacer.walk_node_shadow d t a h
    exact ⟨some n, t1, by simp [Rewrite.option, h1], hs1⟩

/-- The walk of a SELECT whose FROM clause is a table reference on which
Rewrite records a shadow error ends with a shadow error recorded. -/
theorem tableReplacer.walk_select_shadow (d : Pkg) (t : tableReplacer) (s : Select)
    (n a : String) (t1 : tableReplacer)
    (hfrom : s.From = some (.Table ⟨.Path n [], a⟩)) (herr : t.err = none)
    (hrw : tableReplacer.Rewrite d t (.Table ⟨.Path n [], a⟩) = (.Table ⟨.Path n [], a⟩, t1))
    (hs : IsShadowError d t1.err) :
    ∃ body t2, Sneller.Rewrite (tableReplacer.rewriter d) t (.Select s) = some (body, t2)
      ∧ IsShadowError d t2.err := by
  have hwalk : ∀ e, (tableReplacer.rewriter d).Walk t e = true := by
    intro e
    simp [tableReplacer.rewriter, tableReplacer.Walk, herr]
  have hpath : Sneller.Rewrite (tableReplacer.rewriter d) t (.Path n [])
      = some (.Path n [], t) := by
    show (tableReplacer.rewriter d).Rewrite t (.Path n []) = _
    simp [tableReplacer.rewriter, tableReplacer.Rewrite]
  have hfromw : Rewrite.option (tableReplacer.rewriter d) t s.From
      = some (some (.Table ⟨.Path n [], a⟩), t1) := by
    rw [hfrom]
    show (Sneller.Rewrite (tableReplacer.rewriter d) t (.Table ⟨.Path n [], a⟩)).bind _ = _
    have htab : Sneller.Rewrite (tableReplacer.rewriter d) t (.Table ⟨.Path n [], a⟩)
        = some (.Table ⟨.Path n [], a⟩, t1) := by
      show (if _ then _ else _) = _
      rw [if_pos (hwalk _), hpath]
      simp [tableReplacer.rewriter, hrw]
    rw [htab]
    rfl
  obtain ⟨w, t2, hw, hs2⟩ := tableReplacer.walk_option_shadow d s.Where t1 hs
  obtain ⟨g, t3, hg, hs3⟩ := tableReplacer.walk_bindings_shadow d s.GroupBy t2 hs2
  obtain ⟨dx, t4, hdx, hs4⟩ := tableReplacer.walk_nodes_shadow d s.DistinctExpr t3 hs3
  obtain ⟨c, t5, hc, hs5⟩ := tableReplacer.walk_bindings_shadow d s.Columns t4 hs4
  obtain ⟨hv, t6, hhv, hs6⟩ := tableReplacer.walk_option_shadow d s.Having t5 hs5
  obtain ⟨o, t7, ho, hs7⟩ := tableReplacer.walk_orders_shadow d s.OrderBy t6 hs6
  refine ⟨.Select { s with
    From := some (.Table ⟨.Path n [], a⟩), Where := w, GroupBy := g, DistinctExpr := dx,
    Columns := c, Having := hv, OrderBy := o }, t7, ?_, hs7⟩
  show (if _ then _ else _) = _
  rw [if_pos (hwalk _), hfromw]
  simp only [Option.some_bind, hw, hg, hdx, hc, hhv, ho]
  rfl

/-- The cases in which cloneCTE reaches its shadow test: let the source of a
table reference be the one-component
path `n` and let its result name be the name of the WITH binding `c`, which is
not named `n`, while no binding declared after `c` is named `n` or like `c`
(so the scan from the last binding to the first meets `c` before any binding
named `n`).  Then Rewrite on that reference leaves the reference as it is and
records the error `table binding ... shadows CTE binding ...` on the path;
and replaceTables on a query whose body is a SELECT with that reference as
its FROM clause returns a shadow error, once the bodies of the WITH list have
been rewritten without an error. -/
theorem shadow_conflict_reported (d : Pkg) (n a : String) (pre post : List CTE) (c : CTE)
    (hc : c.Table = (⟨.Path n [], a⟩ : Binding).Result d) (hn : c.Table ≠ n)
    (hpost : ∀ x ∈ post, x.Table ≠ n ∧ x.Table ≠ c.Table) :
    (∀ t : tableReplacer, t.with_ = pre ++ c :: post →
        tableReplacer.Rewrite d t (.Table ⟨.Path n [], a⟩)
          = (.Table ⟨.Path n [], a⟩, { t with err := some (errorf (.Path n [])
              ("table binding " ++ d.Quote c.Table
                ++ " shadows CTE binding " ++ d.Quote c.Table)) }))
    ∧ (∀ (s : Select) (c0 : CTE) (rest : List CTE),
        s.From = some (.Table ⟨.Path n [], a⟩) →
        replaceTables.bindings d [c0] rest = some (pre ++ c :: post, none) →
        ∃ (body e : Node) (x y : String),
          replaceTables d (.Select s) (c0 :: rest)
            = some (body, some (errorf e
                ("table binding " ++ d.Quote x ++ " shadows CTE binding " ++ d.Quote y)))) := by
  have h1 : ∀ t : tableReplacer, t.with_ = pre ++ c :: post →
      tableReplacer.Rewrite d t (.Table ⟨.Path n [], a⟩)
        = (.Table ⟨.Path n [], a⟩, { t with err := some (errorf (.Path n [])
            ("table binding " ++ d.Quote c.Table
              ++ " shadows CTE binding " ++ d.Quote c.Table)) }) := by
    intro t hwith
    have hpost2 : ∀ x ∈ post, x.Table ≠ n
        ∧ x.Table ≠ (⟨.Path n [], a⟩ : Binding).Result d := by
      intro x hx
      rw [← hc]
      exact hpost x hx
    have hcl : tableReplacer.cloneCTE d t (.Path n []) ⟨.Path n [], a⟩
        = (.Nil, { t with err := some (errorf (.Path n [])
            ("table binding " ++ d.Quote c.Table
              ++ " shadows CTE binding " ++ d.Quote c.Table)) }) := by
      simp only [tableReplacer.cloneCTE, hwith]
      rw [tableReplacer.cloneCTE.scan_split d n _ t.err pre post c hpost2]
      have hn2 : ¬ n = c.Table := fun e => hn e.symm
      simp only [tableReplacer.cloneCTE.scan, hn2, if_false, ← hc, if_true]
    rw [tableReplacer.Rewrite, hcl]
  refine ⟨h1, fun s c0 rest hfrom hb => ?_⟩
  obtain ⟨body, t2, hw, e, x, y, he⟩ :=
    tableReplacer.walk_select_shadow d { with_ := pre ++ c :: post, err := none } s n a _
      hfrom rfl (h1 _ rfl) ⟨_, _, _, rfl⟩
  refine ⟨body, e, x, y, ?_⟩
  simp only [replaceTables, hb, hw, Option.some_bind, he]

/-- C3: replaceTables on `WITH x AS (SELECT 1), foo AS (SELECT 2) SELECT *
FROM foo AS x`.  The result name `x` of the table reference is the name of a
WITH binding and its source `foo` is not a reference to that binding, yet
replaceTables returns the rewritten body and no error: the scan of cloneCTE
meets the binding `foo` first and returns its copy, so the test for the
shadowed binding `x` is never reached. -/
theorem shadow_conflict_not_reported :
    replaceTables Pkg.plain
        (.Select { SelectOf.zero with
          Columns := [⟨.Star, ""⟩], From := some (.Table ⟨.Path "foo" [], "x"⟩) })
        [⟨"x", { SelectOf.zero with Columns := [⟨.Integer 1, ""⟩] }⟩,
          ⟨"foo", { SelectOf.zero with Columns := [⟨.Integer 2, ""⟩] }⟩]
      = some (.Select { SelectOf.zero with
          Columns := [⟨.Star, ""⟩],
          From := some (.Table
            ⟨.Select { SelectOf.zero with Columns := [⟨.Integer 2, ""⟩] }, "x"⟩) }, none) := by
  rfl

/-- The same query with the WITH list in the other order, `WITH foo AS (SELECT
1), x AS (SELECT 2) SELECT * FROM foo AS x`: the binding `x` is declared
after `foo`, and replaceTables returns a shadow error. -/
theorem shadow_conflict_reported_witness :
    ((⟨"x", { SelectOf.zero with Columns := [⟨.Integer 2, ""⟩] }⟩ : CTE).Table
          = (⟨.Path "foo" [], "x"⟩ : Binding).Result Pkg.plain
      ∧ (⟨"x", { SelectOf.zero with Columns := [⟨.Integer 2, ""⟩] }⟩ : CTE).Table ≠ "foo"
      ∧ replaceTables.bindings Pkg.plain
          [⟨"foo", { SelectOf.zero with Columns := [⟨.Integer 1, ""⟩] }⟩]
          [⟨"x", { SelectOf.zero with Columns := [⟨.Integer 2, ""⟩] }⟩]
        = some ([⟨"foo", { SelectOf.zero with Columns := [⟨.Integer 1, ""⟩] }⟩]
            ++ ⟨"x", { SelectOf.zero with Columns := [⟨.Integer 2, ""⟩] }⟩ :: [], none))
    ∧ ∃ (body e : Node) (x y : String),
        replaceTables Pkg.plain
            (.Select { SelectOf.zero with
              Columns := [⟨.Star, ""⟩], From := some (.Table ⟨.Path "foo" [], "x"⟩) })
            [⟨"foo", { SelectOf.zero with Columns := [⟨.Integer 1, ""⟩] }⟩,
              ⟨"x", { SelectOf.zero with Columns := [⟨.Integer 2, ""⟩] }⟩]
          = some (body, some (errorf e
              ("table binding " ++ Pkg.plain.Quote x
                ++ " shadows CTE binding " ++ Pkg.plain.Quote y))) :=
  ⟨⟨rfl, by decide, rfl⟩,
    (shadow_conflict_reported Pkg.plain "foo" "x"
      [⟨"foo", { SelectOf.zero with Columns := [⟨.Integer 1, ""⟩] }⟩] []
      ⟨"x", { SelectOf.zero with Columns := [⟨.Integer 2, ""⟩] }⟩
      rfl (by decide) (fun x hx => absurd hx (List.not_mem_nil x))).2
      { SelectOf.zero with
        Columns := [⟨.Star, ""⟩], From := some (.Table ⟨.Path "foo" [], "x"⟩) }
      ⟨"foo", { SelectOf.zero with Columns := [⟨.Integer 1, ""⟩] }⟩
      [⟨"x", { SelectOf.zero with Columns := [⟨.Integer 2, ""⟩] }⟩] rfl rfl⟩

end Sneller

namespace Sneller

/-! ## Hoisting of sub-queries -/

/-- C9: for a bare sub-query whose built trace `t` has class One, ExactSmall
or ColumnCardinality and decorrelates without an error, Rewrite appends the
trace once to the pending list and returns a call whose first argument is
the number `i` of traces pending before: with class One,
SCALAR_REPLACEMENT(i) when uncorrelated with exactly one final binding,
STRUCT_REPLACEMENT(i) when uncorrelated with another number of final
bindings, and HASH_REPLACEMENT(i, kind, label, var) when correlated, the
kind being "scalar" for exactly one final binding and "struct" otherwise;
with the other two classes, LIST_REPLACEMENT(i) when uncorrelated and
HASH_REPLACEMENT(i, "list", label, var) when correlated.  The final bindings
are counted on the trace as build returns it. -/
theorem Rewrite_select_replacement (d : Pkg) (h : hoistwalk) (s : Select) (t t1 : Trace)
    (label corrv : Node)
    (hb : d.build h.parent s = .ok t)
    (hcls : d.Class t = .SizeOne ∨ d.Class t = .SizeExactSmall
      ∨ d.Class t = .SizeColumnCardinality)
    (hd : d.decorrelate t = .ok (t1, label, corrv)) :
    ∃ node, hoistwalk.Rewrite d h (.Select s) = some (node, { h with in_ := h.in_ ++ [t1] })
      ∧ (d.Class t = .SizeOne → corrv = .Nil → t.FinalBindings.length = 1 →
          node = Call .ScalarReplacement [.Integer h.in_.length])
      ∧ (d.Class t = .SizeOne → corrv = .Nil → t.FinalBindings.length ≠ 1 →
          node = Call .StructReplacement [.Integer h.in_.length])
      ∧ (d.Class t = .SizeOne → corrv ≠ .Nil → t.FinalBindings.length = 1 →
          node = Call .HashReplacement [.Integer h.in_.length, .String "scalar", label, corrv])
      ∧ (d.Class t = .SizeOne → corrv ≠ .Nil → t.FinalBindings.length ≠ 1 →
          node = Call .HashReplacement [.Integer h.in_.length, .String "struct", label, corrv])
      ∧ (d.Class t ≠ .SizeOne → corrv = .Nil →
          node = Call .ListReplacement [.Integer h.in_.length])
      ∧ (d.Class t ≠ .SizeOne → corrv ≠ .Nil →
          node = Call .HashReplacement [.Integer h.in_.length, .String "list", label, corrv]) := by
  by_cases hlen : t.FinalBindings.length = 1
  · rcases hcls with h1 | h1 | h1 <;> cases corrv <;>
      simp [hoistwalk.Rewrite, hb, hd, h1, hlen, scalarkind, structkind, listkind]
  · rcases hcls with h1 | h1 | h1 <;> cases corrv <;>
      simp [hoistwalk.Rewrite, hb, hd, h1, hlen, scalarkind, structkind, listkind]

/-- C9, on the sub-query `SELECT x` met while one trace is pending: the trace
built for it has class One, is uncorrelated and has one final binding, so
the sub-query becomes SCALAR_REPLACEMENT(1) once the hypotheses of the
theorem are checked on it. -/
theorem Rewrite_select_replacement_witness :
    (Pkg.plain.build (.mk [] none [] []) { SelectOf.zero with Columns := [⟨.Path "x" [], ""⟩] }
        = .ok (.mk [.Bind [⟨.Path "x" [], ""⟩]] (some (.mk [] none [] [])) []
            [⟨.Path "x" [], ""⟩])
      ∧ Pkg.plain.Class (.mk [.Bind [⟨.Path "x" [], ""⟩]] (some (.mk [] none [] [])) []
            [⟨.Path "x" [], ""⟩]) = .SizeOne
      ∧ Pkg.plain.decorrelate (.mk [.Bind [⟨.Path "x" [], ""⟩]] (some (.mk [] none [] [])) []
            [⟨.Path "x" [], ""⟩])
          = .ok (.mk [.Bind [⟨.Path "x" [], ""⟩]] (some (.mk [] none [] [])) []
            [⟨.Path "x" [], ""⟩], .Nil, .Nil))
    ∧ ∃ node,
        hoistwalk.Rewrite Pkg.plain ⟨.mk [] none [] [], [.mk [.DummyOutput] none [] []], none⟩
            (.Select { SelectOf.zero with Columns := [⟨.Path "x" [], ""⟩] })
          = some (node, ⟨.mk [] none [] [], [.mk [.DummyOutput] none [] [],
              .mk [.Bind [⟨.Path "x" [], ""⟩]] (some (.mk [] none [] [])) []
                [⟨.Path "x" [], ""⟩]], none⟩)
        ∧ node = Call .ScalarReplacement [.Integer 1] :=
  ⟨⟨rfl, rfl, rfl⟩,
    match Rewrite_select_replacement Pkg.plain
        ⟨.mk [] none [] [], [.mk [.DummyOutput] none [] []], none⟩
        { SelectOf.zero with Columns := [⟨.Path "x" [], ""⟩] }
        (.mk [.Bind [⟨.Path "x" [], ""⟩]] (some (.mk [] none [] [])) [] [⟨.Path "x" [], ""⟩])
        (.mk [.Bind [⟨.Path "x" [], ""⟩]] (some (.mk [] none [] [])) [] [⟨.Path "x" [], ""⟩])
        .Nil .Nil rfl (Or.inl rfl) rfl with
    | ⟨node, hrw, hscalar, _⟩ => ⟨node, hrw, hscalar rfl rfl rfl⟩⟩

/-- C10 (amended): when the trace built for a sub-query has class Zero, a bare
SELECT is replaced by the literal MISSING; an operand handled by
rewriteScalarArg is replaced by the literal NULL and the right-hand side of
IN by the literal FALSE, both when the trace has exactly one final binding,
and with another number of final bindings these two record an error
instead; in every one of these cases no trace is appended to the pending
list. -/
theorem class_zero_replacement (d : Pkg) (h : hoistwalk) (s : Select) (t : Trace)
    (hb : d.build h.parent s = .ok t) (hz : d.Class t = .SizeZero) :
    hoistwalk.Rewrite d h (.Select s) = some (.Missing, h)
    ∧ (t.FinalBindings.length = 1 →
        hoistwalk.rewriteScalarArg d h (.Select s) = (.Null, h)
        ∧ ∀ (a0 : Node) (rest : List Node),
            hoistwalk.rewriteInSubquery d h (a0 :: .Select s :: rest) = some (.Bool false, h))
    ∧ (t.FinalBindings.length ≠ 1 →
        hoistwalk.rewriteScalarArg d h (.Select s)
          = (.Nil, { h with err := some (errorf (.Select s)
              ("cannot coerce sub-query with " ++ toString t.FinalBindings.length
                ++ " columns into a scalar")) })
        ∧ ∀ (a0 : Node) (rest : List Node),
            hoistwalk.rewriteInSubquery d h (a0 :: .Select s :: rest)
              = some (.Builtin .InSubquery (a0 :: .Select s :: rest),
                  { h with err := some (errorf (.Select s)
                    ("IN sub-query should have 1 column; have "
                      ++ toString t.FinalBindings.length)) })) := by
  refine ⟨by simp [hoistwalk.Rewrite, hb, hz], fun hlen => ⟨?_, fun a0 rest => ?_⟩,
    fun hlen => ⟨?_, fun a0 rest => ?_⟩⟩
  · simp [hoistwalk.rewriteScalarArg, hb, hz, hlen]
  · simp [hoistwalk.rewriteInSubquery, hb, hz, hlen]
  · simp [hoistwalk.rewriteScalarArg, hb, hlen]
  · simp [hoistwalk.rewriteInSubquery, hb, hlen]

/-- C10, the claim as stated fails for an operand of a comparison: with every
trace of class Zero, rewriteScalarArg replaces the sub-query `SELECT x` by
the literal NULL, which is not the literal MISSING, and appends no trace. -/
theorem class_zero_scalar_not_missing :
    ({ Pkg.plain with Class := fun _ => .SizeZero } : Pkg).Class
        (.mk [.Bind [⟨.Path "x" [], ""⟩]] (some (.mk [] none [] [])) [] [⟨.Path "x" [], ""⟩])
      = .SizeZero
    ∧ hoistwalk.rewriteScalarArg { Pkg.plain with Class := fun _ => .SizeZero }
        ⟨.mk [] none [] [], [], none⟩
        (.Select { SelectOf.zero with Columns := [⟨.Path "x" [], ""⟩] })
      = (.Null, ⟨.mk [] none [] [], [], none⟩)
    ∧ Node.Null ≠ Node.Missing :=
  ⟨rfl, rfl, by simp⟩

/-- C10 (amended), on the sub-query `SELECT x` with every trace of class Zero:
the three contexts give MISSING, NULL and FALSE. -/
theorem class_zero_replacement_witness :
    (({ Pkg.plain with Class := fun _ => .SizeZero } : Pkg).build (.mk [] none [] [])
          { SelectOf.zero with Columns := [⟨.Path "x" [], ""⟩] }
        = .ok (.mk [.Bind [⟨.Path "x" [], ""⟩]] (some (.mk [] none [] [])) []
            [⟨.Path "x" [], ""⟩])
      ∧ ({ Pkg.plain with Class := fun _ => .SizeZero } : Pkg).Class
          (.mk [.Bind [⟨.Path "x" [], ""⟩]] (some (.mk [] none [] [])) []
            [⟨.Path "x" [], ""⟩]) = .SizeZero)
    ∧ hoistwalk.Rewrite { Pkg.plain with Class := fun _ => .SizeZero }
          ⟨.mk [] none [] [], [], none⟩
          (.Select { SelectOf.zero with Columns := [⟨.Path "x" [], ""⟩] })
        = some (.Missing, ⟨.mk [] none [] [], [], none⟩)
    ∧ hoistwalk.rewriteScalarArg { Pkg.plain with Class := fun _ => .SizeZero }
          ⟨.mk [] none [] [], [], none⟩
          (.Select { SelectOf.zero with Columns := [⟨.Path "x" [], ""⟩] })
        = (.Null, ⟨.mk [] none [] [], [], none⟩)
    ∧ hoistwalk.rewriteInSubquery { Pkg.plain with Class := fun _ => .SizeZero }
          ⟨.mk [] none [] [], [], none⟩
          [.Path "a" [], .Select { SelectOf.zero with Columns := [⟨.Path "x" [], ""⟩] }]
        = some (.Bool false, ⟨.mk [] none [] [], [], none⟩) :=
  have hthm := class_zero_replacement { Pkg.plain with Class := fun _ => .SizeZero }
    ⟨.mk [] none [] [], [], none⟩ { SelectOf.zero with Columns := [⟨.Path "x" [], ""⟩] }
    (.mk [.Bind [⟨.Path "x" [], ""⟩]] (some (.mk [] none [] [])) [] [⟨.Path "x" [], ""⟩])
    rfl rfl
  ⟨⟨rfl, rfl⟩, hthm.1, (hthm.2.1 rfl).1, (hthm.2.1 rfl).2 (.Path "a" []) []⟩

end Sneller

namespace Sneller

/-- C1: hoist on a trace that already holds one replacement.  The sub-query
`SELECT x` becomes SCALAR_REPLACEMENT(0), its trace is appended after the
replacement that was there, and so index 0 of Replacements holds the earlier
replacement and not the trace built for the sub-query, which sits at
index 1. -/
theorem hoist_index_restarts_at_zero :
    Trace.hoist Pkg.plain hoistInput
      = some (.mk [.Bind [⟨Call .ScalarReplacement [.Integer 0], "m"⟩],
            .Scan ⟨.Path "t" [], ""⟩]
          none
          [.mk [.DummyOutput] none [] [],
            .mk [.Bind [⟨.Path "x" [], ""⟩]] (some hoistInput) [] [⟨.Path "x" [], ""⟩]]
          [⟨.Select { SelectOf.zero with Columns := [⟨.Path "x" [], ""⟩] }, "m"⟩], none)
    ∧ Pkg.plain.build hoistInput { SelectOf.zero with Columns := [⟨.Path "x" [], ""⟩] }
      = .ok (.mk [.Bind [⟨.Path "x" [], ""⟩]] (some hoistInput) [] [⟨.Path "x" [], ""⟩])
    ∧ ([.mk [.DummyOutput] none [] [],
          .mk [.Bind [⟨.Path "x" [], ""⟩]] (some hoistInput) [] [⟨.Path "x" [], ""⟩]]
        : List Trace)[0]? = some (.mk [.DummyOutput] none [] [])
    ∧ Trace.mk [.DummyOutput] none [] []
      ≠ .mk [.Bind [⟨.Path "x" [], ""⟩]] (some hoistInput) [] [⟨.Path "x" [], ""⟩] :=
  ⟨rfl, rfl, rfl, by simp⟩

/-- C2: build on `SELECT a FROM t` when postcheck rejects the trace.  The
method optimize returns the error of postcheck, and build still returns the
trace and no error. -/
theorem build_drops_optimize_error :
    Trace.optimize Pkg.failing (.mk [.Bind [⟨.Path "a" [], ""⟩], .Scan ⟨.Path "t" [], ""⟩]
        none [] [])
      = some (.mk [.Bind [⟨.Path "a" [], ""⟩], .Scan ⟨.Path "t" [], ""⟩] none [] [],
          some (.other "postcheck failed"))
    ∧ build Pkg.failing walkPlain none { SelectOf.zero with Columns := [⟨.Path "a" [], ""⟩] }
      = some (.ok (.mk [.Bind [⟨.Path "a" [], ""⟩], .Scan ⟨.Path "t" [], ""⟩] none [] [])) :=
  ⟨rfl, rfl⟩

/-- The general form of C2: whenever the walk of the SELECT succeeds, build
returns a trace, whatever error optimize returns. -/
theorem build_ignores_optimize_result (d : Pkg)
    (walkSelect : Trace → Select → Option (Trace × Option GoError))
    (parent : Option Trace) (s : Select) (b b1 : Trace) (err : Option GoError)
    (hcheck : d.Check (d.Simplify s) = none)
    (hwalk : walkSelect (.mk [] parent [] []) (d.Simplify s) = some (b, none))
    (hopt : Trace.optimize d b = some (b1, err)) :
    build d walkSelect parent s = some (.ok b1) := by
  simp [build, hcheck, hwalk, hopt]

end Sneller

namespace Sneller

/-! ## Hoisting of sub-queries: errors and the IN rewrite -/

theorem Contains_append_right (a b sub : String) (h : Contains b sub) :
    Contains (a ++ b) sub := by
  obtain ⟨x, y, hxy⟩ := h
  refine ⟨a.data ++ x, y, ?_⟩
  rw [String.data_append, ← hxy]
  simp [List.append_assoc]

/-- C11 (amended): when the trace built for a sub-query has class Unbounded
and exactly one final binding, hoisting leaves the sub-query in place, records
a CompileError on it and leaves the pending list as it is: (1) for a bare
SELECT whose trace decorrelates without an error (here whatever the number of
final bindings) the message is `cardinality of sub-query is too large; use
LIMIT`; (2) for an operand handled by rewriteScalarArg the message is `scalar
sub-query ... has unbounded results; use LIMIT 1`, which contains `use
LIMIT`; (3) for the right-hand side of IN the error is on the sub-query.
(4) With another number `n` of final bindings rewriteScalarArg returns nil and
records `cannot coerce sub-query with n columns into a scalar`, and
rewriteInSubquery leaves the call in place and records `IN sub-query should
have 1 column; have n`, both on the sub-query and with the pending list
unchanged. -/
theorem unbounded_subquery_fails (d : Pkg) (h : hoistwalk) (s : Select) (t : Trace)
    (hb : d.build h.parent s = .ok t) (hcls : d.Class t = .SizeUnbounded) :
    (∀ (t1 : Trace) (label corrv : Node), d.decorrelate t = .ok (t1, label, corrv) →
        hoistwalk.Rewrite d h (.Select s)
            = some (.Select s, { h with err := some (errorf (.Select s)
                "cardinality of sub-query is too large; use LIMIT") })
          ∧ Contains "cardinality of sub-query is too large; use LIMIT" "use LIMIT")
    ∧ (t.FinalBindings.length = 1 →
        ∃ q : String,
          hoistwalk.rewriteScalarArg d h (.Select s)
            = (.Select s, { h with err := some (errorf (.Select s)
                ("scalar sub-query " ++ q ++ " has unbounded results; use LIMIT 1")) })
          ∧ Contains ("scalar sub-query " ++ q ++ " has unbounded results; use LIMIT 1")
              "use LIMIT")
    ∧ (t.FinalBindings.length = 1 → ∀ (a0 : Node) (rest : List Node), ∃ msg,
        hoistwalk.rewriteInSubquery d h (a0 :: .Select s :: rest)
          = some (.Builtin .InSubquery (a0 :: .Select s :: rest),
              { h with err := some (errorf (.Select s) msg) }))
    ∧ (t.FinalBindings.length ≠ 1 →
        hoistwalk.rewriteScalarArg d h (.Select s)
          = (.Nil, { h with err := some (errorf (.Select s)
              ("cannot coerce sub-query with " ++ toString t.FinalBindings.length
                ++ " columns into a scalar")) })
        ∧ ∀ (a0 : Node) (rest : List Node),
          hoistwalk.rewriteInSubquery d h (a0 :: .Select s :: rest)
            = some (.Builtin .InSubquery (a0 :: .Select s :: rest),
                { h with err := some (errorf (.Select s)
                  ("IN sub-query should have 1 column; have "
                    ++ toString t.FinalBindings.length)) })) := by
  refine ⟨fun t1 label corrv hd => ⟨?_, by decide⟩,
    fun hlen => ⟨d.Quote (d.ToString (.Select s)), ?_, ?_⟩,
    fun hlen a0 rest => ⟨"sub-query cardinality too large: " ++ d.Sprint (.Select s), ?_⟩,
    fun hlen => ⟨?_, fun a0 rest => ?_⟩⟩
  · simp [hoistwalk.Rewrite, hb, hcls, hd]
  · simp [hoistwalk.rewriteScalarArg, hb, hcls, hlen]
  · exact Contains_append_right _ _ _ (by decide)
  · simp [hoistwalk.rewriteInSubquery, hb, hcls, hlen]
  · simp [hoistwalk.rewriteScalarArg, hb, hlen]
  · simp [hoistwalk.rewriteInSubquery, hb, hlen]

/-- C11, the claim as stated fails for the right-hand side of IN: with every
trace of class Unbounded, the sub-query `SELECT x, y` has two final bindings,
and the error recorded is `IN sub-query should have 1 column; have 2`, which
does not contain `use LIMIT`. -/
theorem unbounded_in_subquery_other_error :
    ({ Pkg.plain with Class := fun _ => .SizeUnbounded } : Pkg).Class
        (.mk [.Bind [⟨.Path "x" [], ""⟩, ⟨.Path "y" [], ""⟩]] (some (.mk [] none [] [])) []
          [⟨.Path "x" [], ""⟩, ⟨.Path "y" [], ""⟩])
      = .SizeUnbounded
    ∧ hoistwalk.rewriteInSubquery { Pkg.plain with Class := fun _ => .SizeUnbounded }
        ⟨.mk [] none [] [], [], none⟩
        [.Path "a" [], .Select { SelectOf.zero with
          Columns := [⟨.Path "x" [], ""⟩, ⟨.Path "y" [], ""⟩] }]
      = some (.Builtin .InSubquery [.Path "a" [], .Select { SelectOf.zero with
            Columns := [⟨.Path "x" [], ""⟩, ⟨.Path "y" [], ""⟩] }],
          ⟨.mk [] none [] [], [], some (errorf (.Select { SelectOf.zero with
            Columns := [⟨.Path "x" [], ""⟩, ⟨.Path "y" [], ""⟩] })
            "IN sub-query should have 1 column; have 2")⟩)
    ∧ ¬ Contains "IN sub-query should have 1 column; have 2" "use LIMIT" :=
  ⟨rfl, rfl, by decide⟩

/-- C11 (amended), on the sub-query `SELECT x` with every trace of class
Unbounded: as a bare SELECT it stays in place with the `use LIMIT` error. -/
theorem unbounded_subquery_fails_witness :
    (({ Pkg.plain with Class := fun _ => .SizeUnbounded } : Pkg).build (.mk [] none [] [])
          { SelectOf.zero with Columns := [⟨.Path "x" [], ""⟩] }
        = .ok (.mk [.Bind [⟨.Path "x" [], ""⟩]] (some (.mk [] none [] [])) []
            [⟨.Path "x" [], ""⟩])
      ∧ ({ Pkg.plain with Class := fun _ => .SizeUnbounded } : Pkg).Class
          (.mk [.Bind [⟨.Path "x" [], ""⟩]] (some (.mk [] none [] [])) []
            [⟨.Path "x" [], ""⟩]) = .SizeUnbounded)
    ∧ hoistwalk.Rewrite { Pkg.plain with Class := fun _ => .SizeUnbounded }
          ⟨.mk [] none [] [], [], none⟩
          (.Select { SelectOf.zero with Columns := [⟨.Path "x" [], ""⟩] })
        = some (.Select { SelectOf.zero with Columns := [⟨.Path "x" [], ""⟩] },
            ⟨.mk [] none [] [], [], some (errorf
              (.Select { SelectOf.zero with Columns := [⟨.Path "x" [], ""⟩] })
              "cardinality of sub-query is too large; use LIMIT")⟩) :=
  ⟨⟨rfl, rfl⟩,
    ((unbounded_subquery_fails { Pkg.plain with Class := fun _ => .SizeUnbounded }
      ⟨.mk [] none [] [], [], none⟩ { SelectOf.zero with Columns := [⟨.Path "x" [], ""⟩] }
      (.mk [.Bind [⟨.Path "x" [], ""⟩]] (some (.mk [] none [] [])) [] [⟨.Path "x" [], ""⟩])
      rfl rfl).1
      (.mk [.Bind [⟨.Path "x" [], ""⟩]] (some (.mk [] none [] [])) [] [⟨.Path "x" [], ""⟩])
      .Nil .Nil rfl).1⟩

end Sneller

namespace Sneller

/-- C12: rewriteScalarArg hands back every node that is not a SELECT together
with the unchanged state.  For a SELECT, a failing build records its error;
a built trace with a number of final bindings other than one records `cannot
coerce sub-query with N columns into a scalar`; with one final binding, class
Zero gives NULL and no error, class One gives SCALAR_REPLACEMENT(i) with the
trace appended at position `i` of the pending list, and every larger class
records an error whose message contains `use LIMIT 1`.  So no new error is
recorded only for one final binding and class Zero or One. -/
theorem rewriteScalarArg_spec (d : Pkg) (h : hoistwalk) :
    (∀ e : Node, (∀ s, e ≠ .Select s) → hoistwalk.rewriteScalarArg d h e = (e, h))
    ∧ (∀ (s : Select) (err : GoError), d.build h.parent s = .error err →
        hoistwalk.rewriteScalarArg d h (.Select s) = (.Nil, { h with err := some err }))
    ∧ (∀ (s : Select) (t : Trace), d.build h.parent s = .ok t →
        (t.FinalBindings.length ≠ 1 →
          hoistwalk.rewriteScalarArg d h (.Select s)
            = (.Nil, { h with err := some (errorf (.Select s)
                ("cannot coerce sub-query with " ++ toString t.FinalBindings.length
                  ++ " columns into a scalar")) }))
        ∧ (t.FinalBindings.length = 1 → d.Class t = .SizeZero →
          hoistwalk.rewriteScalarArg d h (.Select s) = (.Null, h))
        ∧ (t.FinalBindings.length = 1 → d.Class t = .SizeOne →
          hoistwalk.rewriteScalarArg d h (.Select s)
              = (Call .ScalarReplacement [.Integer h.in_.length],
                  { h with in_ := h.in_ ++ [t] })
            ∧ (h.in_ ++ [t])[h.in_.length]? = some t)
        ∧ (t.FinalBindings.length = 1 → d.Class t ≠ .SizeZero → d.Class t ≠ .SizeOne →
          ∃ msg, hoistwalk.rewriteScalarArg d h (.Select s)
              = (.Select s, { h with err := some (errorf (.Select s) msg) })
            ∧ Contains msg "use LIMIT 1")
        ∧ ((hoistwalk.rewriteScalarArg d h (.Select s)).2.err = none →
          t.FinalBindings.length = 1 ∧ (d.Class t = .SizeZero ∨ d.Class t = .SizeOne))) := by
  refine ⟨fun e he => ?_, fun s err hb => ?_, fun s t hb => ⟨fun hlen => ?_, fun hlen hz => ?_,
    fun hlen ho => ⟨?_, ?_⟩, fun hlen hz ho => ?_, fun herr => ?_⟩⟩
  · cases e <;> first | rfl | exact absurd rfl (he _)
  · simp [hoistwalk.rewriteScalarArg, hb]
  · simp [hoistwalk.rewriteScalarArg, hb, hlen]
  · simp [hoistwalk.rewriteScalarArg, hb, hlen, hz]
  · simp [hoistwalk.rewriteScalarArg, hb, hlen, ho]
  · simp
  · refine ⟨"scalar sub-query " ++ d.Quote (d.ToString (.Select s))
        ++ " has unbounded results; use LIMIT 1", ?_, Contains_append_right _ _ _ (by decide)⟩
    cases hc : d.Class t <;> simp [hoistwalk.rewriteScalarArg, hb, hlen, hc] <;>
      simp [hc] at hz ho
  · by_cases hlen : t.FinalBindings.length = 1
    · refine ⟨hlen, ?_⟩
      cases hc : d.Class t <;> simp [hoistwalk.rewriteScalarArg, hb, hlen, hc] at herr ⊢
    · simp [hoistwalk.rewriteScalarArg, hb, hlen] at herr

/-- C12, on the operand `SELECT x` with one trace pending: the built trace has
one final binding and class One, so the operand becomes
SCALAR_REPLACEMENT(1) and its trace is appended at position 1. -/
theorem rewriteScalarArg_spec_witness :
    (Pkg.plain.build (.mk [] none [] []) { SelectOf.zero with Columns := [⟨.Path "x" [], ""⟩] }
        = .ok (.mk [.Bind [⟨.Path "x" [], ""⟩]] (some (.mk [] none [] [])) []
            [⟨.Path "x" [], ""⟩])
      ∧ (Trace.mk [.Bind [⟨.Path "x" [], ""⟩]] (some (.mk [] none [] [])) []
            [⟨.Path "x" [], ""⟩]).FinalBindings.length = 1
      ∧ Pkg.plain.Class (.mk [.Bind [⟨.Path "x" [], ""⟩]] (some (.mk [] none [] [])) []
            [⟨.Path "x" [], ""⟩]) = .SizeOne)
    ∧ hoistwalk.rewriteScalarArg Pkg.plain
          ⟨.mk [] none [] [], [.mk [.DummyOutput] none [] []], none⟩
          (.Select { SelectOf.zero with Columns := [⟨.Path "x" [], ""⟩] })
        = (Call .ScalarReplacement [.Integer 1],
            ⟨.mk [] none [] [], [.mk [.DummyOutput] none [] [],
              .mk [.Bind [⟨.Path "x" [], ""⟩]] (some (.mk [] none [] [])) []
                [⟨.Path "x" [], ""⟩]], none⟩) :=
  ⟨⟨rfl, rfl, rfl⟩,
    ((rewriteScalarArg_spec Pkg.plain
        ⟨.mk [] none [] [], [.mk [.DummyOutput] none [] []], none⟩).2.2
      { SelectOf.zero with Columns := [⟨.Path "x" [], ""⟩] }
      (.mk [.Bind [⟨.Path "x" [], ""⟩]] (some (.mk [] none [] [])) [] [⟨.Path "x" [], ""⟩])
      rfl).2.2.1 rfl rfl |>.1⟩

/-- C13: for `lhs IN (sub-query)` whose sub-query builds to the trace `t`,
rewriteInSubquery is decided by the number of final bindings and the class of
`t`.  A number other than one records `IN sub-query should have 1 column`
whatever the class; otherwise class Zero gives FALSE, class One gives
`lhs = SCALAR_REPLACEMENT(i)`, class ExactSmall or ColumnCardinality gives
IN_REPLACEMENT(lhs, i), and class Unbounded records an error.  In the two
replacement cases the trace is appended at position `i`; in the other cases
the pending list is unchanged. -/
theorem rewriteInSubquery_spec (d : Pkg) (h : hoistwalk) (lhs : Node) (rest : List Node)
    (s : Select) (t : Trace) (hb : d.build h.parent s = .ok t) :
    (t.FinalBindings.length ≠ 1 →
      hoistwalk.rewriteInSubquery d h (lhs :: .Select s :: rest)
        = some (.Builtin .InSubquery (lhs :: .Select s :: rest),
            { h with err := some (errorf (.Select s)
              ("IN sub-query should have 1 column; have "
                ++ toString t.FinalBindings.length)) }))
    ∧ (t.FinalBindings.length = 1 →
        (d.Class t = .SizeZero →
          hoistwalk.rewriteInSubquery d h (lhs :: .Select s :: rest) = some (.Bool false, h))
        ∧ (d.Class t = .SizeOne →
          hoistwalk.rewriteInSubquery d h (lhs :: .Select s :: rest)
            = some (Compare .Equals lhs (Call .ScalarReplacement [.Integer h.in_.length]),
                { h with in_ := h.in_ ++ [t] }))
        ∧ (d.Class t = .SizeExactSmall ∨ d.Class t = .SizeColumnCardinality →
          hoistwalk.rewriteInSubquery d h (lhs :: .Select s :: rest)
            = some (Call .InReplacement [lhs, .Integer h.in_.length],
                { h with in_ := h.in_ ++ [t] }))
        ∧ (d.Class t = .SizeUnbounded →
          hoistwalk.rewriteInSubquery d h (lhs :: .Select s :: rest)
            = some (.Builtin .InSubquery (lhs :: .Select s :: rest),
                { h with err := some (errorf (.Select s)
                  ("sub-query cardinality too large: " ++ d.Sprint (.Select s))) })))
    ∧ (h.in_ ++ [t])[h.in_.length]? = some t := by
  refine ⟨fun hlen => ?_, fun hlen => ⟨fun hc => ?_, fun hc => ?_, fun hc => ?_, fun hc => ?_⟩,
    by simp⟩
  · simp [hoistwalk.rewriteInSubquery, hb, hlen]
  · simp [hoistwalk.rewriteInSubquery, hb, hlen, hc]
  · simp [hoistwalk.rewriteInSubquery, hb, hlen, hc]
  · rcases hc with hc | hc <;> simp [hoistwalk.rewriteInSubquery, hb, hlen, hc]
  · simp [hoistwalk.rewriteInSubquery, hb, hlen, hc]

/-- C13, on `a IN (SELECT x)` with every trace of class ExactSmall and no
trace pending: the call becomes IN_REPLACEMENT(a, 0) and the trace is
appended at position 0. -/
theorem rewriteInSubquery_spec_witness :
    ({ Pkg.plain with Class := fun _ => .SizeExactSmall } : Pkg).build (.mk [] none [] [])
          { SelectOf.zero with Columns := [⟨.Path "x" [], ""⟩] }
        = .ok (.mk [.Bind [⟨.Path "x" [], ""⟩]] (some (.mk [] none [] [])) []
            [⟨.Path "x" [], ""⟩])
    ∧ hoistwalk.rewriteInSubquery { Pkg.plain with Class := fun _ => .SizeExactSmall }
          ⟨.mk [] none [] [], [], none⟩
          [.Path "a" [], .Select { SelectOf.zero with Columns := [⟨.Path "x" [], ""⟩] }]
        = some (Call .InReplacement [.Path "a" [], .Integer 0],
            ⟨.mk [] none [] [], [.mk [.Bind [⟨.Path "x" [], ""⟩]] (some (.mk [] none [] [])) []
              [⟨.Path "x" [], ""⟩]], none⟩) :=
  ⟨rfl,
    ((rewriteInSubquery_spec { Pkg.plain with Class := fun _ => .SizeExactSmall }
      ⟨.mk [] none [] [], [], none⟩ (.Path "a" []) []
      { SelectOf.zero with Columns := [⟨.Path "x" [], ""⟩] }
      (.mk [.Bind [⟨.Path "x" [], ""⟩]] (some (.mk [] none [] [])) [] [⟨.Path "x" [], ""⟩])
      rfl).2.1 rfl).2.2.1 (Or.inl rfl)⟩

end Sneller

namespace Sneller

/-- The runs of Rewrite on a MISSING test that return: let `e` be
`HASH_REPLACEMENT(i, kind, label, v, ...) IS NOT MISSING`
or `... IS MISSING`.  When the pending replacement `i` exists,
replacementNeverMissing holds for its final bindings, and its top step is a
Bind in which `keep` is the first binding named `label`, Rewrite returns
IN_REPLACEMENT(v, i), under NOT for IS MISSING, and reduces that Bind to
`keep` alone.  Whenever Rewrite returns otherwise, it returns `e` and the
unchanged state.  The test replacementNeverMissing is true for more than two
final bindings, and for two final bindings exactly when `expr.TypeOf` of the
binding that is not named `label` excludes MISSING. -/
theorem Rewrite_hash_is_missing (d : Pkg) (h : hoistwalk) (Key : Keyword)
    (hkey : Key = .IsMissing ∨ Key = .IsNotMissing) (i : Int) (kind v : Node) (label : String)
    (extra : List Node) :
    (∀ (rep : Trace) (bs : List Binding) (rest : List Step) (keep : Binding),
        0 ≤ i → h.in_[i.toNat]? = some rep →
        replacementNeverMissing d rep rep.FinalBindings label = some true →
        rep.top = .Bind bs :: rest →
        bs.find? (fun b => b.Result d == label) = some keep →
        hoistwalk.Rewrite d h (.IsKey Key (.Builtin .HashReplacement
            (.Integer i :: kind :: .String label :: v :: extra)))
          = some (if Key = .IsMissing then .Not (.Builtin .InReplacement [v, .Integer i])
                else .Builtin .InReplacement [v, .Integer i],
              { h with in_ := h.in_.set i.toNat (rep.setTop (.Bind [keep] :: rest)) }))
    ∧ (∀ (node : Node) (h1 : hoistwalk),
        hoistwalk.Rewrite d h (.IsKey Key (.Builtin .HashReplacement
            (.Integer i :: kind :: .String label :: v :: extra))) = some (node, h1) →
        (node = .IsKey Key (.Builtin .HashReplacement
            (.Integer i :: kind :: .String label :: v :: extra)) ∧ h1 = h)
        ∨ ∃ (rep : Trace) (bs : List Binding) (rest : List Step) (keep : Binding),
            0 ≤ i ∧ h.in_[i.toNat]? = some rep
            ∧ replacementNeverMissing d rep rep.FinalBindings label = some true
            ∧ rep.top = .Bind bs :: rest
            ∧ bs.find? (fun b => b.Result d == label) = some keep)
    ∧ (∀ (rep : Trace),
        (2 < rep.FinalBindings.length →
          replacementNeverMissing d rep rep.FinalBindings label = some true)
        ∧ ∀ (b0 b1 : Binding) (top : Step) (parent : List Step),
            rep.FinalBindings = [b0, b1] → rep.top = top :: parent →
            replacementNeverMissing d rep rep.FinalBindings label
              = some (Nat.land (d.TypeOf (if b0.Result d = label then b1 else b0).Expr parent)
                  d.MissingType == 0)) := by
  refine ⟨fun rep bs rest keep hi hrep hnm htop hfind => ?_, fun node h1 hrw => ?_,
    fun rep => ⟨fun hlen => ?_, fun b0 b1 top parent hfb htop => ?_⟩⟩
  · have hi2 : ¬ i < 0 := by omega
    simp [hoistwalk.Rewrite, hkey, hi2, hrep, hnm, stripFinal, htop, hfind]
  · by_cases hi : i < 0
    · simp [hoistwalk.Rewrite, hkey, hi] at hrw
    · cases hrep : h.in_[i.toNat]? with
      | none => simp [hoistwalk.Rewrite, hkey, hi, hrep] at hrw
      | some rep =>
        cases hnm : replacementNeverMissing d rep rep.FinalBindings label with
        | none => simp [hoistwalk.Rewrite, hkey, hi, hrep, hnm] at hrw
        | some b =>
          cases b with
          | false =>
            simp [hoistwalk.Rewrite, hkey, hi, hrep, hnm] at hrw
            exact Or.inl ⟨hrw.1.symm, hrw.2.symm⟩
          | true =>
            by_cases hs : (stripFinal d rep label).1 = true
            · refine Or.inr ?_
              unfold stripFinal at hs
              split at hs
              · rename_i old rest htop
                split at hs
                · rename_i keep hfind
                  exact ⟨rep, old, rest, keep, by omega, rfl, hnm, htop, hfind⟩
                · simp at hs
              · simp at hs
            · simp [hoistwalk.Rewrite, hkey, hi, hrep, hnm, hs] at hrw
              exact Or.inl ⟨hrw.1.symm, hrw.2.symm⟩
  · simp [replacementNeverMissing, hlen]
  · by_cases hr : b0.Result d = label <;> simp [replacementNeverMissing, hfb, htop, hr]

/-- Rewrite on `HASH_REPLACEMENT(0, "scalar", "$__key", x) IS NOT MISSING` where
the pending replacement 0 ends in a Bind of `v AS $__val, k AS $__key`: the
test becomes IN_REPLACEMENT(x, 0) and the Bind keeps `k AS $__key` alone. -/
theorem Rewrite_hash_is_missing_witness :
    ((0 : Int) ≤ 0
      ∧ ([.mk [.Bind [⟨.Path "v" [], "$__val"⟩, ⟨.Path "k" [], "$__key"⟩],
              .Scan ⟨.Path "t" [], ""⟩] none []
            [⟨.Path "v" [], "$__val"⟩, ⟨.Path "k" [], "$__key"⟩]] : List Trace)[(0 : Int).toNat]?
          = some (.mk [.Bind [⟨.Path "v" [], "$__val"⟩, ⟨.Path "k" [], "$__key"⟩],
              .Scan ⟨.Path "t" [], ""⟩] none []
            [⟨.Path "v" [], "$__val"⟩, ⟨.Path "k" [], "$__key"⟩])
      ∧ replacementNeverMissing Pkg.plain
          (.mk [.Bind [⟨.Path "v" [], "$__val"⟩, ⟨.Path "k" [], "$__key"⟩],
              .Scan ⟨.Path "t" [], ""⟩] none []
            [⟨.Path "v" [], "$__val"⟩, ⟨.Path "k" [], "$__key"⟩])
          [⟨.Path "v" [], "$__val"⟩, ⟨.Path "k" [], "$__key"⟩] "$__key" = some true
      ∧ ([⟨.Path "v" [], "$__val"⟩, ⟨.Path "k" [], "$__key"⟩] : List Binding).find?
          (fun b => b.Result Pkg.plain == "$__key") = some ⟨.Path "k" [], "$__key"⟩)
    ∧ hoistwalk.Rewrite Pkg.plain
        ⟨.mk [] none [] [],
          [.mk [.Bind [⟨.Path "v" [], "$__val"⟩, ⟨.Path "k" [], "$__key"⟩],
              .Scan ⟨.Path "t" [], ""⟩] none []
            [⟨.Path "v" [], "$__val"⟩, ⟨.Path "k" [], "$__key"⟩]], none⟩
        (.IsKey .IsNotMissing (.Builtin .HashReplacement
          [.Integer 0, .String "scalar", .String "$__key", .Path "x" []]))
      = some (.Builtin .InReplacement [.Path "x" [], .Integer 0],
          ⟨.mk [] none [] [],
            [.mk [.Bind [⟨.Path "k" [], "$__key"⟩], .Scan ⟨.Path "t" [], ""⟩] none []
              [⟨.Path "v" [], "$__val"⟩, ⟨.Path "k" [], "$__key"⟩]], none⟩) :=
  ⟨⟨by decide, rfl, rfl, rfl⟩,
    (Rewrite_hash_is_missing Pkg.plain
      ⟨.mk [] none [] [],
        [.mk [.Bind [⟨.Path "v" [], "$__val"⟩, ⟨.Path "k" [], "$__key"⟩],
            .Scan ⟨.Path "t" [], ""⟩] none []
          [⟨.Path "v" [], "$__val"⟩, ⟨.Path "k" [], "$__key"⟩]], none⟩
      .IsNotMissing (Or.inr rfl) 0 (.String "scalar") (.Path "x" []) "$__key" []).1
      (.mk [.Bind [⟨.Path "v" [], "$__val"⟩, ⟨.Path "k" [], "$__key"⟩],
          .Scan ⟨.Path "t" [], ""⟩] none []
        [⟨.Path "v" [], "$__val"⟩, ⟨.Path "k" [], "$__key"⟩])
      [⟨.Path "v" [], "$__val"⟩, ⟨.Path "k" [], "$__key"⟩] [.Scan ⟨.Path "t" [], ""⟩]
      ⟨.Path "k" [], "$__key"⟩ (by decide) rfl rfl rfl rfl⟩

end Sneller

namespace Sneller

/-! ## Window aggregates -/

theorem windowHoist.walk_aggregate (d : Pkg) (w : windowHoist) (Op : AggregateOp) (Inner : Node)
    (Over : Option Window) :
    Sneller.Rewrite (windowHoist.rewriter d) w (.Aggregate Op Inner Over)
      = windowHoist.Rewrite d w (.Aggregate Op Inner Over) := by
  apply Rewrite_no_walk
  simp only [windowHoist.rewriter, windowHoist.Walk]
  split <;> rfl

/-- C15 (amended): for every aggregate whose OVER clause lists more than one
PARTITION BY expression and that is not a COUNT(DISTINCT) in an outer SELECT
with exactly one GROUP BY binding and not exactly one aggregate (whose OVER
clause Rewrite replaces first), windowHoist.Rewrite records the error `only 1
PARTITION BY column supported (for now)` on the aggregate, returns the
aggregate as it is and leaves the trace with its Replacements alone; and
hoistWindows on a SELECT whose first column is that aggregate returns the
error with the trace and the SELECT unchanged. -/
theorem windowHoist_rejects_partitions (d : Pkg) (outer : Select) (trace : Trace)
    (Op : AggregateOp) (Inner : Node) (over : Window)
    (hrule : ¬ (Op = .OpCountDistinct ∧ outer.GroupBy.length = 1
      ∧ hasOnlyOneAggregate d outer = false))
    (hlen : 1 < over.PartitionBy.length) :
    (∀ err0 : Option GoError,
      windowHoist.Rewrite d ⟨outer, trace, err0⟩ (.Aggregate Op Inner (some over))
        = some (.Aggregate Op Inner (some over),
            ⟨outer, trace, some (errorf (.Aggregate Op Inner (some over))
              "only 1 PARTITION BY column supported (for now)")⟩))
    ∧ Contains "only 1 PARTITION BY column supported (for now)"
        "only 1 PARTITION BY column supported"
    ∧ (∀ (c : Binding) (rest : List Binding), outer.Columns = c :: rest →
        c.Expr = .Aggregate Op Inner (some over) →
        Trace.hoistWindows d trace outer
          = some (trace, outer, some (errorf (.Aggregate Op Inner (some over))
              "only 1 PARTITION BY column supported (for now)"))) := by
  have h1 : ∀ err0 : Option GoError,
      windowHoist.Rewrite d ⟨outer, trace, err0⟩ (.Aggregate Op Inner (some over))
        = some (.Aggregate Op Inner (some over),
            ⟨outer, trace, some (errorf (.Aggregate Op Inner (some over))
              "only 1 PARTITION BY column supported (for now)")⟩) := by
    intro err0
    have hover : windowHoist.Rewrite.over d ⟨outer, trace, err0⟩ Op (some over) = some over := by
      simp only [windowHoist.Rewrite.over, if_neg hrule]
    simp only [windowHoist.Rewrite, hover]
    split
    · rename_i partition hp
      rw [hp] at hlen
      simp at hlen
    · rfl
  refine ⟨h1, by decide, fun c rest hcols hc => ?_⟩
  obtain ⟨cE, cas⟩ := c
  simp only at hc
  subst hc
  simp only [Trace.hoistWindows, hcols, hoistWindows.columns, windowHoist.walk_aggregate, h1,
    List.nil_append, Option.map_some']
  congr 2
  rw [← hcols]

/-- C15, the claim as stated fails on `COUNT(DISTINCT x) OVER (PARTITION BY a,
b)` in `SELECT ..., SUM(y) FROM t GROUP BY g`: Rewrite first replaces the
OVER clause by PARTITION BY g, then finds one partition expression, records
no error and returns a HASH_REPLACEMENT call. -/
theorem windowHoist_accepts_two_partitions :
    (windowHoist.Rewrite Pkg.plain
        ⟨outerCountDistinct (some ⟨[.Path "a" [], .Path "b" []], []⟩), .mk [] none [] [], none⟩
        (.Aggregate .OpCountDistinct (.Path "x" [])
          (some ⟨[.Path "a" [], .Path "b" []], []⟩))).map (fun r => (r.1, r.2.err))
      = some (Call .HashReplacement
          [.Integer 0, .String "scalar", .String "$__key", .Path "g" [], .Integer 0], none) := by
  rfl

/-- C15 (amended), on `SUM(y) OVER (PARTITION BY a, b)` as the first column of
a SELECT: hoistWindows returns the error. -/
theorem windowHoist_rejects_partitions_witness :
    (¬ ((AggregateOp.Other "SUM") = .OpCountDistinct
        ∧ ({ SelectOf.zero with Columns := [⟨.Aggregate (.Other "SUM") (.Path "y" [])
            (some ⟨[.Path "a" [], .Path "b" []], []⟩), ""⟩] } : Select).GroupBy.length = 1
        ∧ hasOnlyOneAggregate Pkg.plain { SelectOf.zero with
            Columns := [⟨.Aggregate (.Other "SUM") (.Path "y" [])
              (some ⟨[.Path "a" [], .Path "b" []], []⟩), ""⟩] } = false)
      ∧ 1 < (⟨[.Path "a" [], .Path "b" []], []⟩ : Window).PartitionBy.length)
    ∧ Trace.hoistWindows Pkg.plain (.mk [] none [] [])
        { SelectOf.zero with Columns := [⟨.Aggregate (.Other "SUM") (.Path "y" [])
            (some ⟨[.Path "a" [], .Path "b" []], []⟩), ""⟩] }
      = some (.mk [] none [] [],
          { SelectOf.zero with Columns := [⟨.Aggregate (.Other "SUM") (.Path "y" [])
            (some ⟨[.Path "a" [], .Path "b" []], []⟩), ""⟩] },
          some (errorf (.Aggregate (.Other "SUM") (.Path "y" [])
              (some ⟨[.Path "a" [], .Path "b" []], []⟩))
            "only 1 PARTITION BY column supported (for now)")) :=
  ⟨⟨by simp, by decide⟩,
    (windowHoist_rejects_partitions Pkg.plain
      { SelectOf.zero with Columns := [⟨.Aggregate (.Other "SUM") (.Path "y" [])
          (some ⟨[.Path "a" [], .Path "b" []], []⟩), ""⟩] }
      (.mk [] none [] []) (.Other "SUM") (.Path "y" []) ⟨[.Path "a" [], .Path "b" []], []⟩
      (by simp) (by decide)).2.2 _ _ rfl rfl⟩

end Sneller

namespace Sneller

theorem Trace.setTop_Parent (b : Trace) (t : List Step) : (b.setTop t).Parent = b.Parent := rfl

theorem Trace.setFinal_Parent (b : Trace) (f : List Binding) :
    (b.setFinal f).Parent = b.Parent := rfl

theorem simplify_Parent (d : Pkg) (b b1 : Trace) (h : simplify d b = some b1) :
    b1.Parent = b.Parent := by
  unfold simplify at h
  cases hs : simplify.steps d b.top with
  | none => simp [hs] at h
  | some t =>
    simp [hs] at h
    rw [← h]
    rfl

/-- The method optimize leaves the field Parent as it is when the passes
do. -/
theorem Trace.optimize_Parent (d : Pkg) (hk : d.KeepsParent) (b b1 : Trace)
    (e : Option GoError) (h : Trace.optimize d b = some (b1, e)) : b1.Parent = b.Parent := by
  unfold Trace.optimize at h
  cases hs1 : simplify d (subflatten (freezefinal d b)) with
  | none => simp [hs1] at h
  | some b2 =>
    have p2 : b2.Parent = b.Parent := by
      rw [simplify_Parent d _ b2 hs1]
      rfl
    simp only [hs1, Option.some_bind] at h
    have p3 : (d.joinelim (d.limitpushdown (d.filterpushdown (d.filterelim (d.strengthReduce
        (d.countdistinct2count (d.distinctelim (d.liftprojectagg (d.projectpushdown
        (d.orderelim (d.aggfilter (d.aggelim b2)))))))))))).1.Parent = b.Parent := by
      rw [(hk _).2.2.2.2.2.2.2.2.2.2.2.1, (hk _).2.2.2.2.2.2.2.2.2.2.1,
        (hk _).2.2.2.2.2.2.2.2.2.1, (hk _).2.2.2.2.2.2.2.2.1, (hk _).2.2.2.2.2.2.2.1,
        (hk _).2.2.2.2.2.2.1, (hk _).2.2.2.2.2.1, (hk _).2.2.2.2.1, (hk _).2.2.2.1,
        (hk _).2.2.1, (hk _).2.1, (hk _).1, p2]
    split at h
    · simp only [Option.some.injEq, Prod.mk.injEq] at h
      rw [← h.1]
      exact p3
    · cases hs2 : simplify d (d.projectpushdown (d.projectelim
          (d.joinelim (d.limitpushdown (d.filterpushdown (d.filterelim (d.strengthReduce
          (d.countdistinct2count (d.distinctelim (d.liftprojectagg (d.projectpushdown
          (d.orderelim (d.aggfilter (d.aggelim b2)))))))))))).1)) with
      | none => simp [hs2] at h
      | some b3 =>
        have p4 : b3.Parent = b.Parent := by
          rw [simplify_Parent d _ b3 hs2, (hk _).2.2.2.1, (hk _).2.2.2.2.2.2.2.2.2.2.2.2.1, p3]
        simp only [hs2, Option.some_bind] at h
        split at h
        · simp only [Option.some.injEq, Prod.mk.injEq] at h
          rw [← h.1, (hk _).2.2.2.2.2.2.2.2.2.2.2.2.2.1, p4]
        · simp only [Option.some.injEq, Prod.mk.injEq] at h
          rw [← h.1, (hk _).2.2.2.2.2.2.2.2.2.2.2.2.2.2.2, (hk _).2.2.2.2.2.2.2.2.2.2.2.2.2.2.1,
            (hk _).2.2.2.2.2.2.2.2.2.2.2.2.2.1, p4]

/-- The function build hands back a trace whose Parent is the parent it was
given, when the walk of the SELECT and the optimizer passes leave Parent as
it is. -/
theorem build_Parent (d : Pkg) (hk : d.KeepsParent)
    (walkSelect : Trace → Select → Option (Trace × Option GoError))
    (hw : ∀ (b : Trace) (s : Select) (b1 : Trace) (e : Option GoError),
      walkSelect b s = some (b1, e) → b1.Parent = b.Parent)
    (parent : Option Trace) (s : Select) (t : Trace)
    (h : build d walkSelect parent s = some (.ok t)) : t.Parent = parent := by
  unfold build at h
  simp only at h
  split at h
  · simp at h
  · split at h
    · simp at h
    · simp at h
    · rename_i b hws
      have pb : b.Parent = parent := hw _ _ _ _ hws
      split at h
      · simp at h
      · rename_i b1 e hopt
        simp only [Option.some.injEq, Except.ok.injEq] at h
        rw [← h, Trace.optimize_Parent d hk b b1 e hopt, pb]

theorem windowHoist.Rewrite.op_eq_count (Op : AggregateOp) :
    windowHoist.Rewrite.op Op = .OpCount ↔ (Op = .OpCount ∨ Op = .OpCountDistinct) := by
  unfold windowHoist.Rewrite.op
  split
  · rename_i h
    simp [h]
  · rename_i h
    simp [h]

/-- C16 (amended): let `PARTITION BY k` be the OVER clause of the aggregate
after the first step of Rewrite, which is its own OVER clause except for a
COUNT(DISTINCT) in an outer SELECT with exactly one GROUP BY binding `g` and
not exactly one aggregate, where it is `PARTITION BY g`.  When the outer
SELECT is copied and the auxiliary trace `t` builds, windowHoist.Rewrite
returns HASH_REPLACEMENT(n, "scalar", "$__key", k', d), where `n` is the
length of the Replacements of the outer trace before the call, `k'` is the
copy of `k`, and `d` is the integer 0 for COUNT and COUNT(DISTINCT) and NULL
otherwise; `t` is appended to Replacements at position `n`.  The trace that
build hands back for the outer trace as parent has that trace as Parent when
the walk of the SELECT and the optimizer passes leave Parent as it is. -/
theorem windowHoist_replaces_aggregate (d : Pkg) (w : windowHoist) (Op : AggregateOp)
    (Inner : Node) (Over : Option Window) (k : Node) (ob : List Order) (self : Select)
    (t : Trace)
    (hover : windowHoist.Rewrite.over d w Op Over = some ⟨[k], ob⟩)
    (hcopy : copyForWindow d w.outer = some self)
    (hbuild : d.build w.trace (windowHoist.Rewrite.auxiliary d Op Inner k self) = .ok t) :
    windowHoist.Rewrite d w (.Aggregate Op Inner Over)
      = some (Call .HashReplacement
          [.Integer w.trace.Replacements.length, .String "scalar", .String "$__key", d.Copy k,
            if Op = .OpCount ∨ Op = .OpCountDistinct then .Integer 0 else .Null],
          { w with trace := w.trace.setReplacements (w.trace.Replacements ++ [t]) })
    ∧ (w.trace.Replacements ++ [t])[w.trace.Replacements.length]? = some t
    ∧ (¬ (Op = .OpCountDistinct ∧ w.outer.GroupBy.length = 1
          ∧ hasOnlyOneAggregate d w.outer = false) → Over = some ⟨[k], ob⟩)
    ∧ ((Op = .OpCountDistinct ∧ w.outer.GroupBy.length = 1
          ∧ hasOnlyOneAggregate d w.outer = false) → ∃ g, w.outer.GroupBy = [g] ∧ k = g.Expr)
    ∧ (∀ (walkSelect : Trace → Select → Option (Trace × Option GoError)) (t1 : Trace),
        d.KeepsParent →
        (∀ (b : Trace) (s : Select) (b1 : Trace) (e : Option GoError),
          walkSelect b s = some (b1, e) → b1.Parent = b.Parent) →
        build d walkSelect (some w.trace) (windowHoist.Rewrite.auxiliary d Op Inner k self)
          = some (.ok t1) →
        t1.Parent = some w.trace) := by
  refine ⟨?_, by simp, fun hrule => ?_, fun hrule => ?_, fun walkSelect t1 hk hw hb =>
    build_Parent d hk walkSelect hw _ _ _ hb⟩
  · simp only [windowHoist.Rewrite, hover, hcopy, hbuild, scalarkind,
      windowHoist.Rewrite.op_eq_count]
  · simpa only [windowHoist.Rewrite.over, if_neg hrule] using hover
  · simp only [windowHoist.Rewrite.over, if_pos hrule, Option.some.injEq,
      WindowOf.mk.injEq, BindingValues] at hover
    cases hg : w.outer.GroupBy with
    | nil => simp [hg] at hover
    | cons g rest =>
      cases rest with
      | nil =>
        refine ⟨g, rfl, ?_⟩
        simpa [hg] using hover.1.symm
      | cons g2 rest2 => simp [hg] at hover

/-- C16, the claim as stated fails on `COUNT(DISTINCT x) OVER (PARTITION BY k)`
in `SELECT ..., SUM(y) FROM t GROUP BY g`: the aggregate has exactly one
PARTITION BY expression `k`, the auxiliary trace builds, and the fourth
argument of the HASH_REPLACEMENT call is the copy of `g`, not of `k`. -/
theorem windowHoist_key_from_group_by :
    (windowHoist.Rewrite Pkg.plain
        ⟨outerCountDistinct (some ⟨[.Path "k" []], []⟩), .mk [] none [] [], none⟩
        (.Aggregate .OpCountDistinct (.Path "x" []) (some ⟨[.Path "k" []], []⟩))).map
          (fun r => (r.1, r.2.err))
      = some (Call .HashReplacement
          [.Integer 0, .String "scalar", .String "$__key", .Path "g" [], .Integer 0], none)
    ∧ Pkg.plain.Copy (.Path "k" []) = .Path "k" []
    ∧ Node.Path "g" [] ≠ Node.Path "k" [] :=
  ⟨rfl, rfl, by simp⟩

/-- C16 (amended), on `SUM(y) OVER (PARTITION BY k)` in `SELECT ... FROM t`:
the aggregate becomes HASH_REPLACEMENT(0, "scalar", "$__key", k, NULL). -/
theorem windowHoist_replaces_aggregate_witness :
    (windowHoist.Rewrite.over Pkg.plain
          ⟨{ SelectOf.zero with From := some (.Table ⟨.Path "t" [], ""⟩) }, .mk [] none [] [],
            none⟩ (.Other "SUM") (some ⟨[.Path "k" []], []⟩) = some ⟨[.Path "k" []], []⟩
      ∧ copyForWindow Pkg.plain { SelectOf.zero with From := some (.Table ⟨.Path "t" [], ""⟩) }
          = some { SelectOf.zero with From := some (.Table ⟨.Path "t" [], ""⟩) }
      ∧ Pkg.plain.build (.mk [] none [] [])
          (windowHoist.Rewrite.auxiliary Pkg.plain (.Other "SUM") (.Path "y" []) (.Path "k" [])
            { SelectOf.zero with From := some (.Table ⟨.Path "t" [], ""⟩) })
          = .ok (.mk [.Bind [⟨.Aggregate (.Other "SUM") (.Path "y" []) none, "$__val"⟩,
                ⟨.Path "$__key" [], "$__key"⟩]] (some (.mk [] none [] [])) []
              [⟨.Aggregate (.Other "SUM") (.Path "y" []) none, "$__val"⟩,
                ⟨.Path "$__key" [], "$__key"⟩]))
    ∧ windowHoist.Rewrite Pkg.plain
        ⟨{ SelectOf.zero with From := some (.Table ⟨.Path "t" [], ""⟩) }, .mk [] none [] [],
          none⟩
        (.Aggregate (.Other "SUM") (.Path "y" []) (some ⟨[.Path "k" []], []⟩))
      = some (Call .HashReplacement
          [.Integer 0, .String "scalar", .String "$__key", .Path "k" [], .Null],
          ⟨{ SelectOf.zero with From := some (.Table ⟨.Path "t" [], ""⟩) },
            .mk [] none
              [.mk [.Bind [⟨.Aggregate (.Other "SUM") (.Path "y" []) none, "$__val"⟩,
                  ⟨.Path "$__key" [], "$__key"⟩]] (some (.mk [] none [] [])) []
                [⟨.Aggregate (.Other "SUM") (.Path "y" []) none, "$__val"⟩,
                  ⟨.Path "$__key" [], "$__key"⟩]] [], none⟩) :=
  ⟨⟨rfl, rfl, rfl⟩,
    (windowHoist_replaces_aggregate Pkg.plain
      ⟨{ SelectOf.zero with From := some (.Table ⟨.Path "t" [], ""⟩) }, .mk [] none [] [],
        none⟩ (.Other "SUM") (.Path "y" []) (some ⟨[.Path "k" []], []⟩) (.Path "k" []) []
      { SelectOf.zero with From := some (.Table ⟨.Path "t" [], ""⟩) }
      (.mk [.Bind [⟨.Aggregate (.Other "SUM") (.Path "y" []) none, "$__val"⟩,
          ⟨.Path "$__key" [], "$__key"⟩]] (some (.mk [] none [] [])) []
        [⟨.Aggregate (.Other "SUM") (.Path "y" []) none, "$__val"⟩,
          ⟨.Path "$__key" [], "$__key"⟩])
      rfl rfl rfl).1⟩

theorem windowHoist.Rewrite.group_last (d : Pkg) (b : Binding) (hb : b.Explicit = true) :
    ∀ (l : List Binding) (i : Nat) (p : Node),
      ∃ l1, (windowHoist.Rewrite.group d i p (l ++ [b])).1 = l1 ++ [b] := by
  intro l
  induction l with
  | nil =>
    intro i p
    refine ⟨[], ?_⟩
    simp only [List.nil_append, windowHoist.Rewrite.group, hb, if_true]
    split <;> rfl
  | cons g rest ih =>
    intro i p
    simp only [List.cons_append, windowHoist.Rewrite.group]
    split
    · obtain ⟨l1, h1⟩ := ih (i + 1) (Identifier ((if g.Explicit = true then g
          else g.As (d.gensym 3 i)).Result d))
      refine ⟨(if g.Explicit = true then g else g.As (d.gensym 3 i)) :: l1, ?_⟩
      rw [List.cons_append, ← h1]
      rfl
    · obtain ⟨l1, h1⟩ := ih (i + 1) p
      refine ⟨g :: l1, ?_⟩
      rw [List.cons_append, ← h1]
      rfl

/-- C17: let `COUNT(DISTINCT x)` carry no OVER clause, in an outer SELECT that
holds at least one aggregate (the aggregate itself).  When the outer SELECT
has exactly one GROUP BY binding `g` and more than one aggregate, counting
aggregates that `Equals` each other once and leaving nested SELECTs out,
windowHoist.Rewrite treats the aggregate as `OVER (PARTITION BY g)`: once
the outer SELECT is copied and the auxiliary trace builds, it returns
HASH_REPLACEMENT(n, "scalar", "$__key", copy of g, 0); the auxiliary query
computes COUNT(*) under the name `$__val` over a SELECT DISTINCT whose last
column is `x` under the name `$__distinct`.  In every other case Rewrite
returns the aggregate and the state unchanged. -/
theorem count_distinct_without_over (d : Pkg) (w : windowHoist) (x : Node)
    (hself : 1 ≤ (hasOnlyOneAggregate.uniq d []
      (hasOnlyOneAggregate.foundOuter w.outer)).length) :
    (∀ g : Binding, w.outer.GroupBy = [g] →
        1 < (hasOnlyOneAggregate.uniq d [] (hasOnlyOneAggregate.foundOuter w.outer)).length →
        windowHoist.Rewrite.over d w .OpCountDistinct none = some ⟨[g.Expr], []⟩
        ∧ ∀ self : Select, copyForWindow d w.outer = some self →
          (∀ t : Trace,
            d.build w.trace (windowHoist.Rewrite.auxiliary d .OpCountDistinct x g.Expr self)
              = .ok t →
            windowHoist.Rewrite d w (.Aggregate .OpCountDistinct x none)
              = some (Call .HashReplacement
                  [.Integer w.trace.Replacements.length, .String "scalar", .String "$__key",
                    d.Copy g.Expr, .Integer 0],
                  { w with trace := w.trace.setReplacements (w.trace.Replacements ++ [t]) }))
          ∧ (windowHoist.Rewrite.auxiliary d .OpCountDistinct x g.Expr self).Columns
              = [Bind (.Aggregate .OpCount .Star none) "$__val",
                  Bind (Identifier "$__key") "$__key"]
          ∧ ∃ inner : Select,
              (windowHoist.Rewrite.auxiliary d .OpCountDistinct x g.Expr self).From
                = some (.Table (Bind (.Select inner) ""))
              ∧ inner.Distinct = true
              ∧ inner.Columns.getLast? = some (Bind x "$__distinct"))
    ∧ (¬ (w.outer.GroupBy.length = 1
          ∧ 1 < (hasOnlyOneAggregate.uniq d []
              (hasOnlyOneAggregate.foundOuter w.outer)).length) →
        windowHoist.Rewrite d w (.Aggregate .OpCountDistinct x none)
          = some (.Aggregate .OpCountDistinct x none, w)) := by
  refine ⟨fun g hg hmany => ?_, fun hno => ?_⟩
  · have hrule : (AggregateOp.OpCountDistinct = .OpCountDistinct ∧ w.outer.GroupBy.length = 1
        ∧ hasOnlyOneAggregate d w.outer = false) := by
      refine ⟨rfl, by simp [hg], ?_⟩
      simp only [hasOnlyOneAggregate, beq_eq_false_iff_ne, ne_eq]
      omega
    have hover : windowHoist.Rewrite.over d w .OpCountDistinct none = some ⟨[g.Expr], []⟩ := by
      unfold windowHoist.Rewrite.over
      rw [if_pos hrule, hg]
      rfl
    refine ⟨hover, fun self hcopy => ⟨fun t hbuild => ?_, ?_, ?_⟩⟩
    · simp only [windowHoist.Rewrite, hover, hcopy, hbuild, scalarkind,
        windowHoist.Rewrite.op, if_true]
    · simp [windowHoist.Rewrite.auxiliary, windowHoist.Rewrite.op, windowHoist.Rewrite.inner]
    · obtain ⟨l1, h1⟩ := windowHoist.Rewrite.group_last d (Bind x "$__distinct") rfl
        self.GroupBy 0 g.Expr
      refine ⟨{ self with
        GroupBy := [], GroupByMade := false, Columns := l1 ++ [Bind x "$__distinct"],
        Distinct := true }, ?_, rfl, ?_⟩
      · simp [windowHoist.Rewrite.auxiliary, h1]
      · simp
  · have hrule : ¬ (AggregateOp.OpCountDistinct = .OpCountDistinct ∧ w.outer.GroupBy.length = 1
        ∧ hasOnlyOneAggregate d w.outer = false) := by
      rintro ⟨-, h1, h2⟩
      apply hno
      refine ⟨h1, ?_⟩
      simp only [hasOnlyOneAggregate, beq_eq_false_iff_ne, ne_eq] at h2
      omega
    have hover : windowHoist.Rewrite.over d w .OpCountDistinct none = none := by
      unfold windowHoist.Rewrite.over
      rw [if_neg hrule]
    simp only [windowHoist.Rewrite, hover]

/-- C17, on `COUNT(DISTINCT x)` without OVER in `SELECT COUNT(DISTINCT x),
SUM(y) FROM t GROUP BY g`: two aggregates and one GROUP BY binding, so the
aggregate becomes HASH_REPLACEMENT(0, "scalar", "$__key", g, 0). -/
theorem count_distinct_without_over_witness :
    (1 ≤ (hasOnlyOneAggregate.uniq Pkg.plain []
          (hasOnlyOneAggregate.foundOuter (outerCountDistinct none))).length
      ∧ (outerCountDistinct none).GroupBy = [⟨.Path "g" [], ""⟩]
      ∧ 1 < (hasOnlyOneAggregate.uniq Pkg.plain []
          (hasOnlyOneAggregate.foundOuter (outerCountDistinct none))).length)
    ∧ windowHoist.Rewrite.over Pkg.plain ⟨outerCountDistinct none, .mk [] none [] [], none⟩
        .OpCountDistinct none = some ⟨[.Path "g" []], []⟩
    ∧ (windowHoist.Rewrite Pkg.plain ⟨outerCountDistinct none, .mk [] none [] [], none⟩
        (.Aggregate .OpCountDistinct (.Path "x" []) none)).map (fun r => (r.1, r.2.err))
      = some (Call .HashReplacement
          [.Integer 0, .String "scalar", .String "$__key", .Path "g" [], .Integer 0], none) :=
  ⟨⟨by decide, rfl, by decide⟩,
    ((count_distinct_without_over Pkg.plain
      ⟨outerCountDistinct none, .mk [] none [] [], none⟩ (.Path "x" []) (by decide)).1
      ⟨.Path "g" [], ""⟩ rfl (by decide)).1, rfl⟩

end Sneller

namespace Sneller

/-! ## Build: the INTO clause -/

theorem pathClean.split_ne_nil (a : List Char) : pathClean.split a ≠ [] := by
  induction a with
  | nil => simp [pathClean.split]
  | cons c rest ih =>
    unfold pathClean.split
    split
    · simp
    · split
      · simp
      · simp

theorem pathClean.split_no_slash (a : List Char) (h : '/' ∉ a) : pathClean.split a = [a] := by
  induction a with
  | nil => rfl
  | cons c rest ih =>
    have hc : c ≠ '/' := fun e => h (by simp [e])
    have hr : '/' ∉ rest := fun e => h (by simp [e])
    unfold pathClean.split
    rw [if_neg hc, ih hr]

theorem pathClean.split_append (a b : List Char) (h : '/' ∉ a) :
    pathClean.split (a ++ '/' :: b) = a :: pathClean.split b := by
  induction a with
  | nil => simp [pathClean.split]
  | cons c rest ih =>
    have hc : c ≠ '/' := fun e => h (by simp [e])
    have hr : '/' ∉ rest := fun e => h (by simp [e])
    rw [List.cons_append, pathClean.split, if_neg hc, ih hr]

theorem pathClean.step_plain (rooted : Bool) (out : List (List Char)) (x : String)
    (h : pathClean.plain x) : pathClean.step rooted out x.data = x.data :: out := by
  obtain ⟨h0, h1, h2, _⟩ := h
  have e0 : x.data ≠ [] := fun e => h0 (String.ext e)
  have e1 : x.data ≠ ['.'] := fun e => h1 (String.ext e)
  have e2 : x.data ≠ ['.', '.'] := fun e => h2 (String.ext e)
  unfold pathClean.step
  rw [if_neg (by simp [e0, e1]), if_neg e2]

theorem pathJoin_db (first field : String) (hfirst : pathClean.plain first)
    (hfield : pathClean.plain field) :
    pathJoin ["db", first, field] = "db/" ++ first ++ "/" ++ field := by
  have hbuf : pathJoin.buf [] ["db", first, field]
      = ['d', 'b'] ++ '/' :: (first.data ++ '/' :: field.data) := by
    simp [pathJoin.buf]
  have hsum : ¬ (List.map String.length ["db", first, field]).sum = 0 := by
    simp only [List.map_cons, List.map_nil, List.sum_cons, List.sum_nil]
    have : "db".length = 2 := by decide
    omega
  unfold pathJoin
  rw [if_neg hsum, hbuf]
  unfold pathClean
  have hne : String.mk (['d', 'b'] ++ '/' :: (first.data ++ '/' :: field.data)) ≠ "" := by
    intro e
    have := congrArg String.data e
    simp at this
  rw [if_neg hne]
  simp only []
  rw [pathClean.split_append _ _ (by decide), pathClean.split_append _ _ hfirst.2.2.2,
    pathClean.split_no_slash _ hfield.2.2.2]
  have hdb : pathClean.step false [] ['d', 'b'] = [['d', 'b']] := by decide
  simp only [List.foldl_cons, List.foldl_nil, hdb, pathClean.step_plain _ _ _ hfirst,
    pathClean.step_plain _ _ _ hfield]
  apply String.ext
  simp [pathClean.join]

/-- C18 (amended): for every Build whose SELECT builds to the trace `t` and
whose INTO target is the path `first.field`, where `first` and `field` are
not empty, are not `.` or `..` and hold no slash, the Output step is put on
top of `t` with the path `"db/" ++ first ++ "/" ++ field`, and Build returns
what postcheck leaves of that trace (or the error of postcheck). -/
theorem Build_into_path (d : Pkg)
    (walkSelect : Trace → Select → Option (Trace × Option GoError))
    (q : Query) (sel : Select) (t : Trace) (first field : String)
    (hbody : (if q.With.length > 0 then replaceTables d q.Body q.With else some (q.Body, none))
      = some (.Select sel, none))
    (hbuild : build d walkSelect none sel = some (.ok t))
    (hinto : q.Into = some (.Path first [.Dot field]))
    (hfirst : pathClean.plain first) (hfield : pathClean.plain field) :
    Build.into d t q.Into
      = .ok (t.setTop (.Output (.Path first [.Dot field]) ("db/" ++ first ++ "/" ++ field)
          :: t.top))
    ∧ Build d walkSelect q
      = some (match d.postcheck (t.setTop
            (.Output (.Path first [.Dot field]) ("db/" ++ first ++ "/" ++ field) :: t.top)) with
          | (_, some err) => .error err
          | (t2, none) => .ok t2) := by
  have h1 : Build.into d t q.Into
      = .ok (t.setTop (.Output (.Path first [.Dot field]) ("db/" ++ first ++ "/" ++ field)
          :: t.top)) := by
    rw [hinto]
    simp only [Build.into, Trace.Into, pathJoin_db first field hfirst hfield]
  refine ⟨h1, ?_⟩
  unfold Build
  simp only [hbody, hbuild, h1]
  split <;> simp_all

/-- C18, the claim as stated fails on `SELECT x FROM t INTO "..".x`: Build
succeeds and the path of the Output step is `x`, not `db/../x`. -/
theorem Build_into_path_cleaned :
    Build Pkg.plain walkPlain
        ⟨[], .Select { SelectOf.zero with Columns := [⟨.Path "x" [], ""⟩] },
          some (.Path ".." [.Dot "x"])⟩
      = some (.ok (.mk [.Output (.Path ".." [.Dot "x"]) "x", .Bind [⟨.Path "x" [], ""⟩],
          .Scan ⟨.Path "t" [], ""⟩] none [] []))
    ∧ "x" ≠ "db/" ++ ".." ++ "/" ++ "x" :=
  ⟨rfl, by decide⟩

/-- C18 (amended), on `SELECT x FROM t INTO db1.tbl`: the path is
`db/db1/tbl`. -/
theorem Build_into_path_witness :
    Build Pkg.plain walkPlain
        ⟨[], .Select { SelectOf.zero with Columns := [⟨.Path "x" [], ""⟩] },
          some (.Path "db1" [.Dot "tbl"])⟩
      = some (.ok (.mk [.Output (.Path "db1" [.Dot "tbl"]) "db/db1/tbl",
          .Bind [⟨.Path "x" [], ""⟩], .Scan ⟨.Path "t" [], ""⟩] none [] [])) :=
  (Build_into_path Pkg.plain walkPlain
    ⟨[], .Select { SelectOf.zero with Columns := [⟨.Path "x" [], ""⟩] },
      some (.Path "db1" [.Dot "tbl"])⟩
    { SelectOf.zero with Columns := [⟨.Path "x" [], ""⟩] }
    (.mk [.Bind [⟨.Path "x" [], ""⟩], .Scan ⟨.Path "t" [], ""⟩] none [] [])
    "db1" "tbl" rfl rfl rfl (by decide) (by decide)).2

/-- C19: for every Build whose SELECT builds to the trace `t`, by the shape
of the INTO target.  Without a target, Build hands `t` to postcheck as it
is; on the path `first.field` it puts an Output step on top of `t` first; on
a target that is not a path it returns the error `unsupported INTO`; on a
bare identifier and on a path whose first accessor is an index it returns
the error `INTO missing database`; and on a path with a further accessor
after the field it returns the error `unsupported INTO`.  An error comes
with no trace. -/
theorem Build_into_shapes (d : Pkg)
    (walkSelect : Trace → Select → Option (Trace × Option GoError))
    (q : Query) (sel : Select) (t : Trace)
    (hbody : (if q.With.length > 0 then replaceTables d q.Body q.With else some (q.Body, none))
      = some (.Select sel, none))
    (hbuild : build d walkSelect none sel = some (.ok t)) :
    (q.Into = none →
      Build d walkSelect q
        = some (match d.postcheck t with
            | (_, some err) => .error err
            | (t2, none) => .ok t2))
    ∧ (∀ first field, q.Into = some (.Path first [.Dot field]) →
      Build d walkSelect q
        = some (match d.postcheck (t.setTop
              (.Output (.Path first [.Dot field]) (pathJoin ["db", first, field]) :: t.top)) with
            | (_, some err) => .error err
            | (t2, none) => .ok t2))
    ∧ (∀ into, q.Into = some into → (∀ first rest, into ≠ .Path first rest) →
      Build d walkSelect q
        = some (.error (.other ("unsupported INTO: " ++ d.Quote (d.ToString into)))))
    ∧ (∀ first, q.Into = some (.Path first []) →
      Build d walkSelect q
        = some (.error (.other
            ("INTO missing database: " ++ d.Quote (d.ToString (.Path first []))))))
    ∧ (∀ first i rest, q.Into = some (.Path first (.Index i :: rest)) →
      Build d walkSelect q
        = some (.error (.other
            ("INTO missing database: "
              ++ d.Quote (d.ToString (.Path first (.Index i :: rest)))))))
    ∧ (∀ first field c rest, q.Into = some (.Path first (.Dot field :: c :: rest)) →
      Build d walkSelect q
        = some (.error (.other
            ("unsupported INTO: "
              ++ d.Quote (d.ToString (.Path first (.Dot field :: c :: rest))))))) := by
  refine ⟨fun h => ?_, fun first field h => ?_, fun into h hp => ?_, fun first h => ?_,
    fun first i rest h => ?_, fun first field c rest h => ?_⟩
  · unfold Build
    simp only [hbody, hbuild, h, Build.into]
    split <;> simp_all
  · unfold Build
    simp only [hbody, hbuild, h, Build.into, Trace.Into]
    split <;> simp_all
  · have hi : Build.into d t (some into)
        = .error (.other ("unsupported INTO: " ++ d.Quote (d.ToString into))) := by
      cases into <;> first | rfl | exact absurd rfl (hp _ _)
    unfold Build
    simp only [hbody, hbuild, h, hi]
  · unfold Build
    simp only [hbody, hbuild, h, Build.into]
  · unfold Build
    simp only [hbody, hbuild, h, Build.into]
  · unfold Build
    simp only [hbody, hbuild, h, Build.into]

/-- C19, on `SELECT x FROM t` with the INTO targets `db1.tbl`, `1`, `tbl`,
`tbl[0]` and `db1.tbl.x`: only the first gives a trace, and it ends in the
Output step. -/
theorem Build_into_shapes_witness :
    Build Pkg.plain walkPlain
        ⟨[], .Select { SelectOf.zero with Columns := [⟨.Path "x" [], ""⟩] },
          some (.Path "db1" [.Dot "tbl"])⟩
      = some (.ok (.mk [.Output (.Path "db1" [.Dot "tbl"]) "db/db1/tbl",
          .Bind [⟨.Path "x" [], ""⟩], .Scan ⟨.Path "t" [], ""⟩] none [] []))
    ∧ Build Pkg.plain walkPlain
        ⟨[], .Select { SelectOf.zero with Columns := [⟨.Path "x" [], ""⟩] },
          some (.Integer 1)⟩
      = some (.error (.other "unsupported INTO: \"(...)\""))
    ∧ Build Pkg.plain walkPlain
        ⟨[], .Select { SelectOf.zero with Columns := [⟨.Path "x" [], ""⟩] },
          some (.Path "tbl" [])⟩
      = some (.error (.other "INTO missing database: \"(...)\""))
    ∧ Build Pkg.plain walkPlain
        ⟨[], .Select { SelectOf.zero with Columns := [⟨.Path "x" [], ""⟩] },
          some (.Path "tbl" [.Index 0])⟩
      = some (.error (.other "INTO missing database: \"(...)\""))
    ∧ Build Pkg.plain walkPlain
        ⟨[], .Select { SelectOf.zero with Columns := [⟨.Path "x" [], ""⟩] },
          some (.Path "db1" [.Dot "tbl", .Dot "x"])⟩
      = some (.error (.other "unsupported INTO: \"(...)\"")) :=
  ⟨(Build_into_shapes Pkg.plain walkPlain
      ⟨[], .Select { SelectOf.zero with Columns := [⟨.Path "x" [], ""⟩] },
        some (.Path "db1" [.Dot "tbl"])⟩
      { SelectOf.zero with Columns := [⟨.Path "x" [], ""⟩] }
      (.mk [.Bind [⟨.Path "x" [], ""⟩], .Scan ⟨.Path "t" [], ""⟩] none [] [])
      rfl rfl).2.1 "db1" "tbl" rfl,
   (Build_into_shapes Pkg.plain walkPlain
      ⟨[], .Select { SelectOf.zero with Columns := [⟨.Path "x" [], ""⟩] }, some (.Integer 1)⟩
      { SelectOf.zero with Columns := [⟨.Path "x" [], ""⟩] }
      (.mk [.Bind [⟨.Path "x" [], ""⟩], .Scan ⟨.Path "t" [], ""⟩] none [] [])
      rfl rfl).2.2.1 (.Integer 1) rfl (fun _ _ h => Node.noConfusion h),
   (Build_into_shapes Pkg.plain walkPlain
      ⟨[], .Select { SelectOf.zero with Columns := [⟨.Path "x" [], ""⟩] },
        some (.Path "tbl" [])⟩
      { SelectOf.zero with Columns := [⟨.Path "x" [], ""⟩] }
      (.mk [.Bind [⟨.Path "x" [], ""⟩], .Scan ⟨.Path "t" [], ""⟩] none [] [])
      rfl rfl).2.2.2.1 "tbl" rfl,
   (Build_into_shapes Pkg.plain walkPlain
      ⟨[], .Select { SelectOf.zero with Columns := [⟨.Path "x" [], ""⟩] },
        some (.Path "tbl" [.Index 0])⟩
      { SelectOf.zero with Columns := [⟨.Path "x" [], ""⟩] }
      (.mk [.Bind [⟨.Path "x" [], ""⟩], .Scan ⟨.Path "t" [], ""⟩] none [] [])
      rfl rfl).2.2.2.2.1 "tbl" 0 [] rfl,
   (Build_into_shapes Pkg.plain walkPlain
      ⟨[], .Select { SelectOf.zero with Columns := [⟨.Path "x" [], ""⟩] },
        some (.Path "db1" [.Dot "tbl", .Dot "x"])⟩
      { SelectOf.zero with Columns := [⟨.Path "x" [], ""⟩] }
      (.mk [.Bind [⟨.Path "x" [], ""⟩], .Scan ⟨.Path "t" [], ""⟩] none [] [])
      rfl rfl).2.2.2.2.2 "db1" "tbl" (.Dot "x") [] rfl⟩

/-! ## Failures on unsupported constructs -/

/-- C20 (amended): the four failures on unsupported constructs.  A JOIN whose
kind is not CROSS JOIN makes walkFromJoin return a CompileError whose In node
is the JOIN, with the trace unchanged, and an aggregate with more than one
PARTITION BY expression (that keeps its OVER clause) makes
windowHoist.Rewrite record a CompileError whose In node is the aggregate.
An UNPIVOT with neither AS nor AT makes buildUnpivot return an error that is
not a CompileError and names no node, and so does Build on an INTO target
that is not of the shape `first.field`. -/
theorem unsupported_construct_errors (d : Pkg)
    (walkSelect : Trace → Select → Option (Trace × Option GoError)) :
    (∀ (b : Trace) (Kind : JoinKind) (Left : Node) (Right : Binding), Kind ≠ .CrossJoin →
      Trace.walkFromJoin d walkSelect b Kind Left Right
        = some (b, some (.compile
            ⟨some (.Join Kind Left Right), "join " ++ d.KindQ Kind ++ " not yet supported"⟩)))
    ∧ (∀ (outer : Select) (trace : Trace) (err0 : Option GoError) (Op : AggregateOp)
        (Inner : Node) (over : Window),
      ¬ (Op = .OpCountDistinct ∧ outer.GroupBy.length = 1
        ∧ hasOnlyOneAggregate d outer = false) →
      1 < over.PartitionBy.length →
      (windowHoist.Rewrite d ⟨outer, trace, err0⟩ (.Aggregate Op Inner (some over))).map
          (fun r => r.2.err)
        = some (some (.compile ⟨some (.Aggregate Op Inner (some over)),
            "only 1 PARTITION BY column supported (for now)"⟩)))
    ∧ (∀ (b : Trace) (TupleRef : Node),
      Trace.buildUnpivot d walkSelect b TupleRef none none
        = some (b, some (.other "the AS and AT UNPIVOT labels must not be empty simultaneously")))
    ∧ (∀ (q : Query) (sel : Select) (t : Trace) (into : Node),
      (if q.With.length > 0 then replaceTables d q.Body q.With else some (q.Body, none))
        = some (.Select sel, none) →
      build d walkSelect none sel = some (.ok t) →
      q.Into = some into →
      (∀ first field, into ≠ .Path first [.Dot field]) →
      ∃ msg, Build d walkSelect q = some (.error (.other msg))) := by
  refine ⟨fun b Kind Left Right hk => ?_, fun outer trace err0 Op Inner over hrule hlen => ?_,
    fun b TupleRef => ?_, fun q sel t into hbody hbuild h hp => ?_⟩
  · simp only [Trace.walkFromJoin, Trace.walkFrom, if_pos hk, errorf]
  · have hover : windowHoist.Rewrite.over d ⟨outer, trace, err0⟩ Op (some over) = some over := by
      simp only [windowHoist.Rewrite.over, if_neg hrule]
    simp only [windowHoist.Rewrite, hover]
    split
    · rename_i partition hpart
      rw [hpart] at hlen
      simp at hlen
    · rfl
  · simp [Trace.buildUnpivot, Trace.walkFrom]
  · have hi : ∃ msg, Build.into d t (some into) = .error (.other msg) := by
      cases into with
      | Path first rest =>
        match rest with
        | [] => exact ⟨_, rfl⟩
        | .Index _ :: _ => exact ⟨_, rfl⟩
        | [.Dot field] => exact absurd rfl (hp first field)
        | .Dot _ :: _ :: _ => exact ⟨_, rfl⟩
      | _ => exact ⟨_, rfl⟩
    obtain ⟨msg, hi⟩ := hi
    refine ⟨msg, ?_⟩
    unfold Build
    simp only [hbody, hbuild, h, hi]

/-- C20, the claim as stated fails on `UNPIVOT t` without AS and AT, and on
`SELECT x FROM t INTO tbl`: the error returned is not a CompileError, and it
names no node. -/
theorem unsupported_construct_plain_error :
    (Trace.buildUnpivot Pkg.plain walkPlain (.mk [] none [] []) (.Table ⟨.Path "t" [], ""⟩)
        none none
      = some (.mk [] none [] [],
          some (.other "the AS and AT UNPIVOT labels must not be empty simultaneously"))
    ∧ ∀ c : CompileError,
      GoError.other "the AS and AT UNPIVOT labels must not be empty simultaneously"
        ≠ .compile c)
    ∧ (Build Pkg.plain walkPlain
        ⟨[], .Select { SelectOf.zero with Columns := [⟨.Path "x" [], ""⟩] },
          some (.Path "tbl" [])⟩
      = some (.error (.other "INTO missing database: \"(...)\""))
    ∧ ∀ c : CompileError,
      GoError.other "INTO missing database: \"(...)\"" ≠ .compile c) :=
  ⟨⟨rfl, fun _ h => GoError.noConfusion h⟩, rfl, fun _ h => GoError.noConfusion h⟩

/-- C20 (amended), on `t INNER JOIN u`: the error is a CompileError on the
JOIN. -/
theorem unsupported_construct_errors_witness :
    JoinKind.Other "INNER" ≠ .CrossJoin
    ∧ Trace.walkFromJoin Pkg.plain walkPlain (.mk [] none [] []) (.Other "INNER")
        (.Table ⟨.Path "t" [], ""⟩) ⟨.Path "u" [], ""⟩
      = some (.mk [] none [] [], some (.compile
          ⟨some (.Join (.Other "INNER") (.Table ⟨.Path "t" [], ""⟩) ⟨.Path "u" [], ""⟩),
            "join \"JOIN\" not yet supported"⟩)) :=
  ⟨by decide,
    (unsupported_construct_errors Pkg.plain walkPlain).1 (.mk [] none [] []) (.Other "INNER")
      (.Table ⟨.Path "t" [], ""⟩) ⟨.Path "u" [], ""⟩ (by decide)⟩

end Sneller

namespace Sneller

/-! ## Build: the body of the query -/

/-- C28: for every query whose body after the CTE substitution is `body`, and
`body` is not a SELECT, Build returns an error and no trace; the error is the
CompileError `cannot pir.Build T` whose In node is `body`. -/
theorem Build_rejects_other_body (d : Pkg)
    (walkSelect : Trace → Select → Option (Trace × Option GoError))
    (q : Query) (body : Node)
    (hbody : (if q.With.length > 0 then replaceTables d q.Body q.With else some (q.Body, none))
      = some (body, none))
    (hsel : ∀ s, body ≠ .Select s) :
    Build d walkSelect q
      = some (.error (.compile ⟨some body, "cannot pir.Build " ++ d.TypeName body⟩)) := by
  unfold Build
  simp only [hbody]
  cases body with
  | Select s => exact absurd rfl (hsel s)
  | _ => rfl

/-- C28, on a query whose body is the UNION ALL of two SELECTs. -/
theorem Build_rejects_other_body_witness :
    Build Pkg.plain walkPlain
        ⟨[], .Appended [.Select SelectOf.zero, .Select SelectOf.zero], none⟩
      = some (.error (.compile
          ⟨some (.Appended [.Select SelectOf.zero, .Select SelectOf.zero]),
            "cannot pir.Build expr.Node"⟩)) :=
  Build_rejects_other_body Pkg.plain walkPlain
    ⟨[], .Appended [.Select SelectOf.zero, .Select SelectOf.zero], none⟩
    (.Appended [.Select SelectOf.zero, .Select SelectOf.zero]) rfl
    (fun _ h => Node.noConfusion h)

/-! ## The FROM clause -/

/-- C29: walkFromJoin on a join whose kind is not CROSS JOIN returns the
CompileError `join K not yet supported` on the join and leaves the trace as it
is.  On a CROSS JOIN it walks the left side first: an error of that walk is
returned with the trace as the walk left it, and Iterate is not called;
otherwise it returns what Iterate gives on the right side.  A panic of the
walk of the left side is a panic of walkFromJoin. -/
theorem walkFromJoin_spec (d : Pkg)
    (walkSelect : Trace → Select → Option (Trace × Option GoError)) (b : Trace)
    (Kind : JoinKind) (Left : Node) (Right : Binding) :
    (Kind ≠ .CrossJoin →
      Trace.walkFromJoin d walkSelect b Kind Left Right
          = some (b, some (errorf (.Join Kind Left Right)
              ("join " ++ d.KindQ Kind ++ " not yet supported")))
        ∧ Contains ("join " ++ d.KindQ Kind ++ " not yet supported") "not yet supported")
    ∧ (Kind = .CrossJoin →
        (∀ (b1 : Trace) (err : GoError),
          Trace.walkFrom d walkSelect b Left = some (b1, some err) →
          Trace.walkFromJoin d walkSelect b Kind Left Right = some (b1, some err))
        ∧ (∀ b1 : Trace, Trace.walkFrom d walkSelect b Left = some (b1, none) →
          Trace.walkFromJoin d walkSelect b Kind Left Right = some (d.Iterate b1 Right))
        ∧ (Trace.walkFrom d walkSelect b Left = none →
          Trace.walkFromJoin d walkSelect b Kind Left Right = none)) := by
  refine ⟨fun hk => ⟨?_, ?_⟩, fun hk => ⟨fun b1 err h => ?_, fun b1 h => ?_, fun h => ?_⟩⟩
  · simp only [Trace.walkFromJoin, Trace.walkFrom, if_pos hk]
  · exact Contains_append_right _ _ _ (by decide)
  · subst hk
    simp [Trace.walkFromJoin, Trace.walkFrom, h]
  · subst hk
    simp [Trace.walkFromJoin, Trace.walkFrom, h]
  · subst hk
    simp [Trace.walkFromJoin, Trace.walkFrom, h]

/-- C29, on `t CROSS JOIN u` and on `(t INNER JOIN v) CROSS JOIN u`: the first
gives the scan of `t` under the iteration over `u`; in the second the walk of
the left side fails, and the trace holds no Iterate step. -/
theorem walkFromJoin_spec_witness :
    Trace.walkFromJoin Pkg.plain walkPlain (.mk [] none [] []) .CrossJoin
        (.Table ⟨.Path "t" [], ""⟩) ⟨.Path "u" [], ""⟩
      = some (.mk [.Iterate ⟨.Path "u" [], ""⟩, .Scan ⟨.Path "t" [], ""⟩] none [] [], none)
    ∧ Trace.walkFromJoin Pkg.plain walkPlain (.mk [] none [] []) .CrossJoin
        (.Join (.Other "INNER") (.Table ⟨.Path "t" [], ""⟩) ⟨.Path "v" [], ""⟩)
        ⟨.Path "u" [], ""⟩
      = some (.mk [] none [] [],
          some (errorf (.Join (.Other "INNER") (.Table ⟨.Path "t" [], ""⟩) ⟨.Path "v" [], ""⟩)
            "join \"JOIN\" not yet supported")) :=
  ⟨((walkFromJoin_spec Pkg.plain walkPlain (.mk [] none [] []) .CrossJoin
        (.Table ⟨.Path "t" [], ""⟩) ⟨.Path "u" [], ""⟩).2 rfl).2.1
      (.mk [.Scan ⟨.Path "t" [], ""⟩] none [] []) rfl,
    ((walkFromJoin_spec Pkg.plain walkPlain (.mk [] none [] []) .CrossJoin
        (.Join (.Other "INNER") (.Table ⟨.Path "t" [], ""⟩) ⟨.Path "v" [], ""⟩)
        ⟨.Path "u" [], ""⟩).2 rfl).1 (.mk [] none [] []) _ rfl⟩

/-- C30: walkFrom on a nil FROM clause makes DummyOutput the top step of the
trace, with no step under it, and returns no error; on a FROM expression that
is not nil, not a join and not a table it returns the CompileError `unexpected
expression E` on the expression and leaves the trace as it is. -/
theorem walkFrom_spec (d : Pkg)
    (walkSelect : Trace → Select → Option (Trace × Option GoError)) (b : Trace) :
    Trace.walkFrom d walkSelect b .Nil = some (b.setTop [.DummyOutput], none)
    ∧ ∀ f : Node, f ≠ .Nil → (∀ k l r, f ≠ .Join k l r) → (∀ t, f ≠ .Table t) →
      Trace.walkFrom d walkSelect b f
        = some (b, some (errorf f ("unexpected expression " ++ d.SprintQ f))) := by
  refine ⟨by simp [Trace.walkFrom], fun f h0 hj ht => ?_⟩
  cases f with
  | Nil => exact absurd rfl h0
  | Join k l r => exact absurd rfl (hj k l r)
  | Table t => exact absurd rfl (ht t)
  | _ => simp [Trace.walkFrom]

/-- C30, on the FROM expression `1`. -/
theorem walkFrom_spec_witness :
    Trace.walkFrom Pkg.plain walkPlain (.mk [.Scan ⟨.Path "t" [], ""⟩] none [] []) (.Integer 1)
      = some (.mk [.Scan ⟨.Path "t" [], ""⟩] none [] [],
          some (errorf (.Integer 1) "unexpected expression \"(...)\"")) :=
  (walkFrom_spec Pkg.plain walkPlain (.mk [.Scan ⟨.Path "t" [], ""⟩] none [] [])).2
    (.Integer 1) (fun h => Node.noConfusion h) (fun _ _ _ h => Node.noConfusion h)
    (fun _ h => Node.noConfusion h)

end Sneller

namespace Sneller

/-! ## DISTINCT ON with constants -/

theorem dropConstantsFromDistinctOn.nonconst_eq (d : Pkg) (acc l : List Node) :
    dropConstantsFromDistinctOn.nonconst d acc l = acc ++ l.filter (fun e => !d.Constant e) := by
  induction l generalizing acc with
  | nil => simp [dropConstantsFromDistinctOn.nonconst]
  | cons e rest ih =>
    unfold dropConstantsFromDistinctOn.nonconst
    by_cases h : d.Constant e = true
    · simp [h, ih]
    · simp [h, ih]

theorem dropConstantsFromDistinctOn.filter_length (d : Pkg) (l : List Node) :
    (l.filter (fun e => !d.Constant e)).length = l.length ↔ ∀ e ∈ l, d.Constant e = false := by
  rw [List.filter_length_eq_length]
  simp

/-- C24: after dropConstantsFromDistinctOn the DISTINCT ON list holds the
expressions of the list before the call that are not constants, in their
order.  When the list is not empty and every expression in it is a constant,
the call clears DISTINCT ON and sets LIMIT to 1 and leaves the other clauses
alone; when some but not all are constants, only the DISTINCT ON list changes;
when no expression is a constant the SELECT is unchanged. -/
theorem dropConstantsFromDistinctOn_spec (d : Pkg) (s : Select) :
    (dropConstantsFromDistinctOn d s).DistinctExpr
      = s.DistinctExpr.filter (fun e => !d.Constant e)
    ∧ (s.DistinctExpr ≠ [] → (∀ e ∈ s.DistinctExpr, d.Constant e = true) →
        dropConstantsFromDistinctOn d s
          = { s with DistinctExpr := [], DistinctExprMade := false, Limit := some 1 })
    ∧ ((∃ e ∈ s.DistinctExpr, d.Constant e = true) →
        (∃ e ∈ s.DistinctExpr, d.Constant e = false) →
        dropConstantsFromDistinctOn d s
          = { s with DistinctExpr := s.DistinctExpr.filter (fun e => !d.Constant e) })
    ∧ ((∀ e ∈ s.DistinctExpr, d.Constant e = false) → dropConstantsFromDistinctOn d s = s) := by
  have hdef : dropConstantsFromDistinctOn d s
      = if (s.DistinctExpr.filter (fun e => !d.Constant e)).length = s.DistinctExpr.length
        then s
        else if (s.DistinctExpr.filter (fun e => !d.Constant e)).length > 0
        then { s with DistinctExpr := s.DistinctExpr.filter (fun e => !d.Constant e) }
        else { s with DistinctExpr := [], DistinctExprMade := false, Limit := some 1 } := by
    simp only [dropConstantsFromDistinctOn, dropConstantsFromDistinctOn.nonconst_eq,
      List.nil_append]
  refine ⟨?_, fun hne hall => ?_, fun hc hn => ?_, fun hnone => ?_⟩
  · rw [hdef]
    by_cases h1 : (s.DistinctExpr.filter (fun e => !d.Constant e)).length = s.DistinctExpr.length
    · rw [if_pos h1]
      have := (dropConstantsFromDistinctOn.filter_length d s.DistinctExpr).1 h1
      symm
      rw [List.filter_eq_self]
      intro e he
      simp [this e he]
    · rw [if_neg h1]
      by_cases h2 : (s.DistinctExpr.filter (fun e => !d.Constant e)).length > 0
      · rw [if_pos h2]
      · rw [if_neg h2]
        have : s.DistinctExpr.filter (fun e => !d.Constant e) = [] :=
          List.eq_nil_of_length_eq_zero (by omega)
        rw [this]
  · have hf : s.DistinctExpr.filter (fun e => !d.Constant e) = [] := by
      rw [List.filter_eq_nil_iff]
      intro e he
      simp [hall e he]
    have hlen : s.DistinctExpr.length ≠ 0 := fun h => hne (List.eq_nil_of_length_eq_zero h)
    rw [hdef, hf]
    simp only [List.length_nil, gt_iff_lt, lt_self_iff_false, if_false]
    rw [if_neg (fun h => hlen h.symm)]
  · obtain ⟨c, hc, hcc⟩ := hc
    obtain ⟨n, hn, hnn⟩ := hn
    have h1 : ¬ (s.DistinctExpr.filter (fun e => !d.Constant e)).length = s.DistinctExpr.length := by
      intro h
      have := (dropConstantsFromDistinctOn.filter_length d s.DistinctExpr).1 h c hc
      rw [hcc] at this
      exact Bool.noConfusion this
    have h2 : (s.DistinctExpr.filter (fun e => !d.Constant e)).length > 0 := by
      apply List.length_pos_of_mem (a := n)
      rw [List.mem_filter]
      exact ⟨hn, by simp [hnn]⟩
    rw [hdef, if_neg h1, if_pos h2]
  · rw [hdef, if_pos ((dropConstantsFromDistinctOn.filter_length d s.DistinctExpr).2 hnone)]

/-- C24, on `SELECT DISTINCT ON (1, 'x') ...` and on `SELECT DISTINCT ON (a, 1,
b) ...`: the first becomes `SELECT ... LIMIT 1`, the second `SELECT DISTINCT
ON (a, b) ...`. -/
theorem dropConstantsFromDistinctOn_spec_witness :
    dropConstantsFromDistinctOn Pkg.plain
        { SelectOf.zero with DistinctExpr := [.Integer 1, .String "x"] }
      = { SelectOf.zero with DistinctExpr := [], Limit := some 1 }
    ∧ (dropConstantsFromDistinctOn Pkg.plain
        { SelectOf.zero with DistinctExpr := [.Path "a" [], .Integer 1, .Path "b" []] }).DistinctExpr
      = [.Path "a" [], .Path "b" []] :=
  ⟨(dropConstantsFromDistinctOn_spec Pkg.plain
      { SelectOf.zero with DistinctExpr := [.Integer 1, .String "x"] }).2.1
      (fun h => List.noConfusion h) (by simp [SelectOf.zero, Pkg.plain]),
    (dropConstantsFromDistinctOn_spec Pkg.plain
      { SelectOf.zero with DistinctExpr := [.Path "a" [], .Integer 1, .Path "b" []] }).1⟩

end Sneller

namespace Sneller

/-! ## DISTINCT with GROUP BY -/

theorem distinctEqualsGroupBy.exists_iff (d : Pkg) (e : Node) (group : List Binding) :
    distinctEqualsGroupBy.exists_ d e group = true
      ↔ ∃ g ∈ group, d.Equivalent e g.Expr = true := by
  induction group with
  | nil => simp [distinctEqualsGroupBy.exists_]
  | cons g rest ih =>
    unfold distinctEqualsGroupBy.exists_
    by_cases h : d.Equivalent e g.Expr = true
    · simp [h]
    · simp [h, ih]

theorem distinctEqualsGroupBy.loop_some (d : Pkg) (group cols : List Binding) (n : Nat)
    (h : ∀ c ∈ cols, distinctEqualsGroupBy.exists_ d c.Expr group = true) :
    distinctEqualsGroupBy.loop d group n cols = some (n + cols.length) := by
  induction cols generalizing n with
  | nil => rfl
  | cons c rest ih =>
    unfold distinctEqualsGroupBy.loop
    have hc := h c (by simp)
    simp only [hc, Bool.not_true, Bool.false_eq_true, if_false]
    rw [ih (n + 1) (fun x hx => h x (by simp [hx]))]
    simp only [List.length_cons]
    congr 1
    omega

theorem distinctEqualsGroupBy.loop_none (d : Pkg) (group cols : List Binding) (n : Nat)
    (h : ∃ c ∈ cols, distinctEqualsGroupBy.exists_ d c.Expr group = false) :
    distinctEqualsGroupBy.loop d group n cols = none := by
  induction cols generalizing n with
  | nil => simp at h
  | cons c rest ih =>
    unfold distinctEqualsGroupBy.loop
    by_cases hc : distinctEqualsGroupBy.exists_ d c.Expr group = true
    · simp only [hc, Bool.not_true, Bool.false_eq_true, if_false]
      obtain ⟨x, hx, hxe⟩ := h
      rcases List.mem_cons.1 hx with rfl | hx
      · rw [hc] at hxe
        exact Bool.noConfusion hxe
      · exact ih (n + 1) ⟨x, hx, hxe⟩
    · simp [hc]

/-- What distinctEqualsGroupBy tests: every column expression is equivalent
to some GROUP BY expression, and the two lists have the same length. -/
theorem distinctEqualsGroupBy_iff (d : Pkg) (s : Select) :
    distinctEqualsGroupBy d s = true
      ↔ (∀ c ∈ s.Columns, ∃ g ∈ s.GroupBy, d.Equivalent c.Expr g.Expr = true)
        ∧ s.Columns.length = s.GroupBy.length := by
  unfold distinctEqualsGroupBy
  by_cases h : ∀ c ∈ s.Columns, distinctEqualsGroupBy.exists_ d c.Expr s.GroupBy = true
  · rw [distinctEqualsGroupBy.loop_some d _ _ 0 h]
    simp only [Nat.zero_add, beq_iff_eq]
    constructor
    · intro hl
      exact ⟨fun c hc => (distinctEqualsGroupBy.exists_iff d _ _).1 (h c hc), hl⟩
    · intro hl
      exact hl.2
  · have h1 : ∃ c ∈ s.Columns, distinctEqualsGroupBy.exists_ d c.Expr s.GroupBy = false := by
      by_contra hcon
      apply h
      intro c hc
      by_contra hne
      exact hcon ⟨c, hc, by simpa using hne⟩
    rw [distinctEqualsGroupBy.loop_none d _ _ 0 h1]
    constructor
    · intro hf
      exact Bool.noConfusion hf
    · intro hl
      exact absurd (fun c hc => (distinctEqualsGroupBy.exists_iff d _ _).2 (hl.1 c hc)) h

/-- C22: distinctEqualsGroupBy on `SELECT DISTINCT a, a ... GROUP BY a, b`
and on `SELECT DISTINCT a, a ... GROUP BY a`.  In the first the GROUP BY
expression `b` is equivalent to no column, and the function returns true; in
the second every column is equivalent to the GROUP BY expression and the
other way round, and the function returns false. -/
theorem distinctEqualsGroupBy_counts_duplicates :
    (distinctEqualsGroupBy Pkg.plain { SelectOf.zero with
        Distinct := true,
        Columns := [⟨.Path "a" [], ""⟩, ⟨.Path "a" [], "a_2"⟩],
        GroupBy := [⟨.Path "a" [], ""⟩, ⟨.Path "b" [], ""⟩] } = true
      ∧ Pkg.plain.Equivalent (.Path "b" []) (.Path "a" []) = false)
    ∧ (distinctEqualsGroupBy Pkg.plain { SelectOf.zero with
        Distinct := true,
        Columns := [⟨.Path "a" [], ""⟩, ⟨.Path "a" [], "a_2"⟩],
        GroupBy := [⟨.Path "a" [], ""⟩] } = false
      ∧ Pkg.plain.Equivalent (.Path "a" []) (.Path "a" []) = true) := by
  refine ⟨⟨?_, ?_⟩, ?_, ?_⟩ <;> decide

end Sneller

namespace Sneller

/-! ## `walkSelect`: DISTINCT and DISTINCT ON with GROUP BY -/

theorem Trace.walkSelect.run_of_prepare (d : Pkg)
    (walkSelect : Trace → Select → Option (Trace × Option GoError)) (b0 b : Trace)
    (s0 s : Select) (hprep : Sneller.walkSelect.prepare d walkSelect b0 s0 = some (b, s, none)) :
    Trace.walkSelect.run d walkSelect b0 s0
      = match Sneller.walkSelect.columns d b s with
        | none => none
        | some (b1, s1, some err) => some (b1, s1, some err)
        | some (b1, s1, none) => Sneller.walkSelect.limit d b1 s1 := by
  simp only [Trace.walkSelect.run, hprep]

theorem List.isEmpty_eq_false_of_ne_nil {α : Type} (l : List α) (h : l ≠ []) :
    l.isEmpty = false := by
  cases l with
  | nil => exact absurd rfl h
  | cons a rest => rfl

/-- C21 (amended): let the SELECT carry DISTINCT and a GROUP BY (the test
`s.GroupBy != nil` holds, so the list may also be one made without elements)
when walkSelect reaches the walk of its columns with the trace `b`.  Without
HAVING: when the
column expressions and the GROUP BY expressions are the same set up to
`expr.Equivalent` and the two lists have the same length, walkSelect erases
the DISTINCT flag and goes on with what splitAggregate returns, and calls no
method that adds a Distinct step; when a column expression is equivalent to
no GROUP BY expression, or a GROUP BY expression is equivalent to no column
expression and the lengths differ, walkSelect returns the error `set of
DISTINCT expressions has to be equal to GROUP BY expressions` on the SELECT.
With HAVING walkSelect returns the error `mixed hash aggregate and DISTINCT
not supported` on the SELECT. -/
theorem walkSelect_distinct_group_by (d : Pkg)
    (walkSelect : Trace → Select → Option (Trace × Option GoError)) (b0 b : Trace)
    (s0 s : Select) (hprep : Sneller.walkSelect.prepare d walkSelect b0 s0 = some (b, s, none))
    (hd : s.Distinct = true) (hg : s.GroupByNotNil = true) :
    (s.Having = none →
      ((∀ c ∈ s.Columns, ∃ g ∈ s.GroupBy, d.Equivalent c.Expr g.Expr = true) →
        (∀ g ∈ s.GroupBy, ∃ c ∈ s.Columns, d.Equivalent c.Expr g.Expr = true) →
        s.Columns.length = s.GroupBy.length →
        Sneller.walkSelect.columns d b s
            = some ((d.splitAggregate b s.OrderBy s.Columns s.GroupBy none).1,
                { s with Distinct := false },
                (d.splitAggregate b s.OrderBy s.Columns s.GroupBy none).2)
          ∧ Trace.walkSelect.run d walkSelect b0 s0
            = match (d.splitAggregate b s.OrderBy s.Columns s.GroupBy none).2 with
              | some err =>
                some ((d.splitAggregate b s.OrderBy s.Columns s.GroupBy none).1,
                  { s with Distinct := false }, some err)
              | none =>
                Sneller.walkSelect.limit d (d.splitAggregate b s.OrderBy s.Columns s.GroupBy none).1
                  { s with Distinct := false })
      ∧ ((∃ c ∈ s.Columns, ∀ g ∈ s.GroupBy, d.Equivalent c.Expr g.Expr = false)
          ∨ ((∃ g ∈ s.GroupBy, ∀ c ∈ s.Columns, d.Equivalent c.Expr g.Expr = false)
            ∧ s.Columns.length ≠ s.GroupBy.length) →
        Trace.walkSelect.run d walkSelect b0 s0
          = some (b, s, some (errorf (.Select s)
              "set of DISTINCT expressions has to be equal to GROUP BY expressions"))))
    ∧ (s.Having ≠ none →
        Trace.walkSelect.run d walkSelect b0 s0
          = some (b, s, some (errorf (.Select s)
              "mixed hash aggregate and DISTINCT not supported"))) := by
  have hhd : s.HasDistinct = true := by simp [SelectOf.HasDistinct, hd]
  refine ⟨fun hh => ⟨fun hsub _ hlen => ?_, fun hdiff => ?_⟩, fun hh => ?_⟩
  · have heq : distinctEqualsGroupBy d s = true := (distinctEqualsGroupBy_iff d s).2 ⟨hsub, hlen⟩
    have hcol : Sneller.walkSelect.columns d b s
        = some ((d.splitAggregate b s.OrderBy s.Columns s.GroupBy none).1,
            { s with Distinct := false },
            (d.splitAggregate b s.OrderBy s.Columns s.GroupBy none).2) := by
      simp [Sneller.walkSelect.columns, hhd, hg, hh, hd, heq]
    refine ⟨hcol, ?_⟩
    rw [Trace.walkSelect.run_of_prepare d walkSelect b0 b s0 s hprep, hcol]
    cases hr : (d.splitAggregate b s.OrderBy s.Columns s.GroupBy none).2 <;> simp
  · have hne : distinctEqualsGroupBy d s = false := by
      cases hv : distinctEqualsGroupBy d s with
      | false => rfl
      | true =>
        obtain ⟨hsub, hlen⟩ := (distinctEqualsGroupBy_iff d s).1 hv
        rcases hdiff with ⟨c, hc, hcn⟩ | ⟨_, hl⟩
        · obtain ⟨g, hgm, hge1⟩ := hsub c hc
          rw [hcn g hgm] at hge1
          exact Bool.noConfusion hge1
        · exact absurd hlen hl
    have hcol : Sneller.walkSelect.columns d b s
        = some (b, s, some (errorf (.Select s)
            "set of DISTINCT expressions has to be equal to GROUP BY expressions")) := by
      simp [Sneller.walkSelect.columns, hhd, hg, hh, hd, hne]
    rw [Trace.walkSelect.run_of_prepare d walkSelect b0 b s0 s hprep, hcol]
  · have hsome : s.Having.isSome = true := by
      cases hv : s.Having with
      | none => exact absurd hv hh
      | some x => rfl
    have hnone : s.Having.isNone = false := by
      cases hv : s.Having with
      | none => exact absurd hv hh
      | some x => rfl
    have hcol : Sneller.walkSelect.columns d b s
        = some (b, s, some (errorf (.Select s)
            "mixed hash aggregate and DISTINCT not supported")) := by
      simp [Sneller.walkSelect.columns, hhd, hg, hsome, hnone, hd]
    rw [Trace.walkSelect.run_of_prepare d walkSelect b0 b s0 s hprep, hcol]

/-- C21, the claim as stated fails on `SELECT DISTINCT a, b FROM t GROUP BY a,
b HAVING TRUE`: the column expressions are the GROUP BY expressions, and
walkSelect returns the error `mixed hash aggregate and DISTINCT not
supported` and leaves the DISTINCT flag set. -/
theorem walkSelect_distinct_group_by_having :
    Trace.walkSelect.run Pkg.plain walkPlain (.mk [] none [] [])
        { SelectOf.zero with
          Distinct := true,
          Columns := [⟨.Path "a" [], "a"⟩, ⟨.Path "b" [], "b"⟩],
          From := some (.Table ⟨.Path "t" [], ""⟩),
          GroupBy := [⟨.Path "a" [], ""⟩, ⟨.Path "b" [], ""⟩],
          Having := some (.Bool true) }
      = some (.mk [.Scan ⟨.Path "t" [], ""⟩] none [] [],
          { SelectOf.zero with
            Distinct := true,
            Columns := [⟨.Path "a" [], "a"⟩, ⟨.Path "b" [], "b"⟩],
            From := some (.Table ⟨.Path "t" [], ""⟩),
            GroupBy := [⟨.Path "a" [], ""⟩, ⟨.Path "b" [], ""⟩],
            Having := some (.Bool true) },
          some (errorf (.Select { SelectOf.zero with
            Distinct := true,
            Columns := [⟨.Path "a" [], "a"⟩, ⟨.Path "b" [], "b"⟩],
            From := some (.Table ⟨.Path "t" [], ""⟩),
            GroupBy := [⟨.Path "a" [], ""⟩, ⟨.Path "b" [], ""⟩],
            Having := some (.Bool true) })
            "mixed hash aggregate and DISTINCT not supported")) := by
  rfl

/-- C21 (amended), on `SELECT DISTINCT a, b FROM t GROUP BY a, b`: the trace
is the scan of `t` under the aggregate step, and the DISTINCT flag is
erased.  On `SELECT DISTINCT a FROM t` with a GROUP BY list that was made
without elements: walkSelect returns the error on the SELECT. -/
theorem walkSelect_distinct_group_by_witness :
    Trace.walkSelect.run Pkg.plain walkPlain (.mk [] none [] [])
        { SelectOf.zero with
          Distinct := true,
          Columns := [⟨.Path "a" [], "a"⟩, ⟨.Path "b" [], "b"⟩],
          From := some (.Table ⟨.Path "t" [], ""⟩),
          GroupBy := [⟨.Path "a" [], ""⟩, ⟨.Path "b" [], ""⟩] }
      = some (.mk [.Aggregate [⟨.Path "a" [], "a"⟩, ⟨.Path "b" [], "b"⟩]
              [⟨.Path "a" [], ""⟩, ⟨.Path "b" [], ""⟩] none,
            .Scan ⟨.Path "t" [], ""⟩] none [] [],
          { SelectOf.zero with
            Distinct := false,
            Columns := [⟨.Path "a" [], "a"⟩, ⟨.Path "b" [], "b"⟩],
            From := some (.Table ⟨.Path "t" [], ""⟩),
            GroupBy := [⟨.Path "a" [], ""⟩, ⟨.Path "b" [], ""⟩] },
          none)
    ∧ Trace.walkSelect.run Pkg.plain walkPlain (.mk [] none [] [])
        { SelectOf.zero with
          Distinct := true,
          Columns := [⟨.Path "a" [], "a"⟩],
          From := some (.Table ⟨.Path "t" [], ""⟩),
          GroupByMade := true }
      = some (.mk [.Scan ⟨.Path "t" [], ""⟩] none [] [],
          { SelectOf.zero with
            Distinct := true,
            Columns := [⟨.Path "a" [], "a"⟩],
            From := some (.Table ⟨.Path "t" [], ""⟩),
            GroupByMade := true },
          some (errorf (.Select { SelectOf.zero with
            Distinct := true,
            Columns := [⟨.Path "a" [], "a"⟩],
            From := some (.Table ⟨.Path "t" [], ""⟩),
            GroupByMade := true })
            "set of DISTINCT expressions has to be equal to GROUP BY expressions")) :=
  ⟨(((walkSelect_distinct_group_by Pkg.plain walkPlain (.mk [] none [] [])
      (.mk [.Scan ⟨.Path "t" [], ""⟩] none [] [])
      { SelectOf.zero with
        Distinct := true,
        Columns := [⟨.Path "a" [], "a"⟩, ⟨.Path "b" [], "b"⟩],
        From := some (.Table ⟨.Path "t" [], ""⟩),
        GroupBy := [⟨.Path "a" [], ""⟩, ⟨.Path "b" [], ""⟩] }
      { SelectOf.zero with
        Distinct := true,
        Columns := [⟨.Path "a" [], "a"⟩, ⟨.Path "b" [], "b"⟩],
        From := some (.Table ⟨.Path "t" [], ""⟩),
        GroupBy := [⟨.Path "a" [], ""⟩, ⟨.Path "b" [], ""⟩] }
      rfl rfl rfl).1 rfl).1
    (by simp +decide [SelectOf.zero, Pkg.plain]) (by simp +decide [SelectOf.zero, Pkg.plain])
    rfl).2,
   ((walkSelect_distinct_group_by Pkg.plain walkPlain (.mk [] none [] [])
      (.mk [.Scan ⟨.Path "t" [], ""⟩] none [] [])
      { SelectOf.zero with
        Distinct := true,
        Columns := [⟨.Path "a" [], "a"⟩],
        From := some (.Table ⟨.Path "t" [], ""⟩),
        GroupByMade := true }
      { SelectOf.zero with
        Distinct := true,
        Columns := [⟨.Path "a" [], "a"⟩],
        From := some (.Table ⟨.Path "t" [], ""⟩),
        GroupByMade := true }
      rfl rfl rfl).1 rfl).2
    (Or.inl ⟨⟨.Path "a" [], "a"⟩, by simp [SelectOf.zero], by simp [SelectOf.zero]⟩)⟩

theorem distinctOnEqualsGroupBy.loop_all (d : Pkg) (group : List Binding) (l : List Node)
    (n : Nat) (h : ∀ e ∈ l, distinctEqualsGroupBy.exists_ d e group = true) :
    distinctOnEqualsGroupBy.loop d group n l = some (n + l.length) := by
  induction l generalizing n with
  | nil => rfl
  | cons e rest ih =>
    unfold distinctOnEqualsGroupBy.loop
    have he := h e (by simp)
    simp only [he, Bool.not_true, Bool.false_eq_true, if_false]
    rw [ih (n + 1) (fun x hx => h x (by simp [hx]))]
    simp only [List.length_cons]
    congr 1
    omega

theorem distinctOnEqualsGroupBy_of_subset (d : Pkg) (s : Select)
    (hsub : ∀ e ∈ s.DistinctExpr, ∃ g ∈ s.GroupBy, d.Equivalent e g.Expr = true)
    (hlen : s.DistinctExpr.length = s.GroupBy.length) :
    distinctOnEqualsGroupBy d s = true := by
  unfold distinctOnEqualsGroupBy
  rw [distinctOnEqualsGroupBy.loop_all d _ _ 0
    (fun e he => (distinctEqualsGroupBy.exists_iff d _ _).2 (hsub e he))]
  simp [hlen]

/-- C23 (amended): let the SELECT carry DISTINCT ON (the test `HasDistinct`
holds and the flag DISTINCT is not set), a GROUP BY (the test `s.GroupBy !=
nil` holds) and no HAVING when walkSelect reaches the walk of its columns with
the trace `b`.  When the DISTINCT ON expressions, after
distinctOnPullGroupByBindings, and the GROUP BY expressions are the same up
to `expr.Equivalent` (every DISTINCT ON expression is equivalent to some
GROUP BY expression and every GROUP BY expression to some DISTINCT ON
expression) and the two lists have the same length, walkSelect sets the
DISTINCT ON list to nil and goes on with what splitAggregate returns; it
calls no method that adds a Distinct step. -/
theorem walkSelect_distinct_on_group_by (d : Pkg)
    (walkSelect : Trace → Select → Option (Trace × Option GoError)) (b0 b : Trace)
    (s0 s : Select) (hprep : Sneller.walkSelect.prepare d walkSelect b0 s0 = some (b, s, none))
    (hd : s.Distinct = false) (hon : s.HasDistinct = true) (hg : s.GroupByNotNil = true)
    (hh : s.Having = none) :
    (∀ e ∈ (distinctOnPullGroupByBindings d s).DistinctExpr,
        ∃ g ∈ s.GroupBy, d.Equivalent e g.Expr = true) →
    (∀ g ∈ s.GroupBy, ∃ e ∈ (distinctOnPullGroupByBindings d s).DistinctExpr,
        d.Equivalent e g.Expr = true) →
    (distinctOnPullGroupByBindings d s).DistinctExpr.length = s.GroupBy.length →
    Sneller.walkSelect.columns d b s
        = some ((d.splitAggregate b s.OrderBy s.Columns s.GroupBy none).1,
            { s with DistinctExpr := [], DistinctExprMade := false },
            (d.splitAggregate b s.OrderBy s.Columns s.GroupBy none).2)
    ∧ (SelectOf.DistinctExprNotNil { s with DistinctExpr := [], DistinctExprMade := false })
        = false
    ∧ Trace.walkSelect.run d walkSelect b0 s0
        = match (d.splitAggregate b s.OrderBy s.Columns s.GroupBy none).2 with
          | some err =>
            some ((d.splitAggregate b s.OrderBy s.Columns s.GroupBy none).1,
              { s with DistinctExpr := [], DistinctExprMade := false }, some err)
          | none =>
            Sneller.walkSelect.limit d (d.splitAggregate b s.OrderBy s.Columns s.GroupBy none).1
              { s with DistinctExpr := [], DistinctExprMade := false } := by
  intro hsub _ hlen
  have heq : distinctOnEqualsGroupBy d (distinctOnPullGroupByBindings d s) = true :=
    distinctOnEqualsGroupBy_of_subset d _ hsub hlen
  have hcol : Sneller.walkSelect.columns d b s
      = some ((d.splitAggregate b s.OrderBy s.Columns s.GroupBy none).1,
          { s with DistinctExpr := [], DistinctExprMade := false },
          (d.splitAggregate b s.OrderBy s.Columns s.GroupBy none).2) := by
    have c1 : (s.HasDistinct && s.GroupByNotNil && s.Having.isNone) = true := by
      simp [hon, hg, hh]
    unfold Sneller.walkSelect.columns
    simp only [c1, hd, Bool.false_eq_true, if_false, heq, if_true]
    simp [distinctOnPullGroupByBindings, hd, hh]
  refine ⟨hcol, rfl, ?_⟩
  rw [Trace.walkSelect.run_of_prepare d walkSelect b0 b s0 s hprep, hcol]
  cases hr : (d.splitAggregate b s.OrderBy s.Columns s.GroupBy none).2 <;> simp

/-- C23, the claim as stated fails on `SELECT DISTINCT ON (a) a, b FROM t GROUP
BY a, b`: the DISTINCT ON expression is a GROUP BY expression, and walkSelect
keeps the DISTINCT ON list and puts a Distinct step on top of the aggregate
step. -/
theorem walkSelect_distinct_on_subset_kept :
    Pkg.plain.Equivalent (.Path "a" []) (.Path "a" []) = true
    ∧ Trace.walkSelect.run Pkg.plain walkPlain (.mk [] none [] [])
        { SelectOf.zero with
          DistinctExpr := [.Path "a" []],
          Columns := [⟨.Path "a" [], "a"⟩, ⟨.Path "b" [], "b"⟩],
          From := some (.Table ⟨.Path "t" [], ""⟩),
          GroupBy := [⟨.Path "a" [], ""⟩, ⟨.Path "b" [], ""⟩] }
      = some (.mk [.Distinct [.Path "a" []],
            .Aggregate [⟨.Path "a" [], "a"⟩, ⟨.Path "b" [], "b"⟩]
              [⟨.Path "a" [], ""⟩, ⟨.Path "b" [], ""⟩] none,
            .Scan ⟨.Path "t" [], ""⟩] none [] [],
          { SelectOf.zero with
            DistinctExpr := [.Path "a" []],
            Columns := [⟨.Path "a" [], "a"⟩, ⟨.Path "b" [], "b"⟩],
            From := some (.Table ⟨.Path "t" [], ""⟩),
            GroupBy := [⟨.Path "a" [], ""⟩, ⟨.Path "b" [], ""⟩] },
          none) := by
  exact ⟨by decide, rfl⟩

/-- C23 (amended), on `SELECT DISTINCT ON (a, b) a, b FROM t GROUP BY a, b`:
the trace is the scan of `t` under the aggregate step, and the DISTINCT ON
list is nil. -/
theorem walkSelect_distinct_on_group_by_witness :
    Trace.walkSelect.run Pkg.plain walkPlain (.mk [] none [] [])
        { SelectOf.zero with
          DistinctExpr := [.Path "a" [], .Path "b" []],
          Columns := [⟨.Path "a" [], "a"⟩, ⟨.Path "b" [], "b"⟩],
          From := some (.Table ⟨.Path "t" [], ""⟩),
          GroupBy := [⟨.Path "a" [], ""⟩, ⟨.Path "b" [], ""⟩] }
      = some (.mk [.Aggregate [⟨.Path "a" [], "a"⟩, ⟨.Path "b" [], "b"⟩]
              [⟨.Path "a" [], ""⟩, ⟨.Path "b" [], ""⟩] none,
            .Scan ⟨.Path "t" [], ""⟩] none [] [],
          { SelectOf.zero with
            DistinctExpr := [],
            Columns := [⟨.Path "a" [], "a"⟩, ⟨.Path "b" [], "b"⟩],
            From := some (.Table ⟨.Path "t" [], ""⟩),
            GroupBy := [⟨.Path "a" [], ""⟩, ⟨.Path "b" [], ""⟩] },
          none) :=
  (walkSelect_distinct_on_group_by Pkg.plain walkPlain (.mk [] none [] [])
    (.mk [.Scan ⟨.Path "t" [], ""⟩] none [] [])
    { SelectOf.zero with
      DistinctExpr := [.Path "a" [], .Path "b" []],
      Columns := [⟨.Path "a" [], "a"⟩, ⟨.Path "b" [], "b"⟩],
      From := some (.Table ⟨.Path "t" [], ""⟩),
      GroupBy := [⟨.Path "a" [], ""⟩, ⟨.Path "b" [], ""⟩] }
    { SelectOf.zero with
      DistinctExpr := [.Path "a" [], .Path "b" []],
      Columns := [⟨.Path "a" [], "a"⟩, ⟨.Path "b" [], "b"⟩],
      From := some (.Table ⟨.Path "t" [], ""⟩),
      GroupBy := [⟨.Path "a" [], ""⟩, ⟨.Path "b" [], ""⟩] }
    rfl rfl rfl rfl rfl
    (by simp +decide [SelectOf.zero, Pkg.plain, distinctOnPullGroupByBindings])
    (by simp +decide [SelectOf.zero, Pkg.plain, distinctOnPullGroupByBindings]) rfl).2.2

end Sneller

namespace Sneller

/-! ## The optimizer pipeline -/

/-- C25: optimize is the run of the passes freezefinal, subflatten, simplify,
aggelim, aggfilter, orderelim, projectpushdown, liftprojectagg, distinctelim,
countdistinct2count, strengthReduce, filterelim, filterpushdown,
limitpushdown, joinelim, projectelim, projectpushdown, simplify, postcheck,
partition, mergereplacements, in this order, which stops at the first error.
The passes simplify and projectpushdown stand twice in the sequence and every
other pass once.  When joinelim returns an error, optimize returns it with
the trace as joinelim left it, and when postcheck returns an error, optimize
returns it with the trace as postcheck left it. -/
theorem optimize_runs_passes (d : Pkg) (b : Trace) :
    Trace.optimize d b = Pass.runAll d optimize.passes b
    ∧ optimize.passes.count .simplify = 2
    ∧ optimize.passes.count .projectpushdown = 2
    ∧ (∀ p : Pass, p ≠ .simplify → p ≠ .projectpushdown → optimize.passes.count p = 1)
    ∧ (∀ (b1 b2 : Trace) (err : GoError),
        Pass.runAll d (optimize.passes.take 14) b = some (b1, none) →
        d.joinelim b1 = (b2, some err) → Trace.optimize d b = some (b2, some err))
    ∧ (∀ (b1 b2 : Trace) (err : GoError),
        Pass.runAll d (optimize.passes.take 18) b = some (b1, none) →
        d.postcheck b1 = (b2, some err) → Trace.optimize d b = some (b2, some err)) := by
  have hrun : Trace.optimize d b = Pass.runAll d optimize.passes b := by
    unfold Trace.optimize
    simp only [optimize.passes, Pass.runAll, Pass.run]
    cases h1 : simplify d (subflatten (freezefinal d b)) with
    | none => simp
    | some b1 =>
      simp only [Option.some_bind, Option.map_some']
      cases h2 : d.joinelim (d.limitpushdown (d.filterpushdown (d.filterelim (d.strengthReduce
        (d.countdistinct2count (d.distinctelim (d.liftprojectagg (d.projectpushdown
          (d.orderelim (d.aggfilter (d.aggelim b1))))))))))) with
      | mk j1 j2 =>
        cases j2 with
        | some err => simp
        | none =>
          simp only []
          cases h3 : simplify d (d.projectpushdown (d.projectelim j1)) with
          | none => simp
          | some b2 =>
            simp only [Option.some_bind, Option.map_some']
            cases h4 : d.postcheck b2 with
            | mk c1 c2 =>
              cases c2 with
              | some err => simp
              | none => simp
  have hsplit : ∀ (n : Nat) (b1 : Trace),
      Pass.runAll d (optimize.passes.take n) b = some (b1, none) →
      Pass.runAll d optimize.passes b = Pass.runAll d (optimize.passes.drop n) b1 := by
    intro n b1 h
    have key : ∀ (l1 l2 : List Pass) (x y : Trace),
        Pass.runAll d l1 x = some (y, none) →
        Pass.runAll d (l1 ++ l2) x = Pass.runAll d l2 y := by
      intro l1
      induction l1 with
      | nil =>
        intro l2 x y hx
        simp only [Pass.runAll, Option.some.injEq, Prod.mk.injEq, and_true] at hx
        rw [List.nil_append, hx]
      | cons p rest ih =>
        intro l2 x y hx
        simp only [List.cons_append, Pass.runAll] at hx ⊢
        cases hp : Pass.run d p x with
        | none => simp [hp] at hx
        | some r =>
          obtain ⟨r1, r2⟩ := r
          cases r2 with
          | some err => simp [hp] at hx
          | none =>
            simp only [hp] at hx ⊢
            exact ih l2 r1 y hx
    have := key (optimize.passes.take n) (optimize.passes.drop n) b b1 h
    rwa [List.take_append_drop] at this
  refine ⟨hrun, by decide, by decide, ?_, ?_, ?_⟩
  · intro p h1 h2
    cases p <;> first | rfl | exact absurd rfl h1 | exact absurd rfl h2
  · intro b1 b2 err h hj
    rw [hrun, hsplit 14 b1 h]
    simp [optimize.passes, Pass.runAll, Pass.run, hj]
  · intro b1 b2 err h hc
    rw [hrun, hsplit 18 b1 h]
    simp [optimize.passes, Pass.runAll, Pass.run, hc]

/-- C25, on a trace for which postcheck fails: optimize returns the error of
postcheck. -/
theorem optimize_runs_passes_witness :
    Trace.optimize Pkg.failing (.mk [.Bind [⟨.Path "a" [], ""⟩], .Scan ⟨.Path "t" [], ""⟩]
        none [] [])
      = some (.mk [.Bind [⟨.Path "a" [], ""⟩], .Scan ⟨.Path "t" [], ""⟩] none [] [],
          some (.other "postcheck failed")) :=
  (optimize_runs_passes Pkg.failing (.mk [.Bind [⟨.Path "a" [], ""⟩], .Scan ⟨.Path "t" [], ""⟩]
      none [] [])).2.2.2.2.2
    (.mk [.Bind [⟨.Path "a" [], ""⟩], .Scan ⟨.Path "t" [], ""⟩] none [] [])
    (.mk [.Bind [⟨.Path "a" [], ""⟩], .Scan ⟨.Path "t" [], ""⟩] none [] [])
    (.other "postcheck failed") rfl rfl

end Sneller

namespace Sneller

/-! ## `freezefinal` -/

theorem Result_As_self (d : Pkg) (c : Binding) :
    (c.As (c.Result d)).Result d = c.Result d := by
  by_cases h : c.Result d = ""
  · have h1 := h
    simp only [BindingOf.Result] at h1
    by_cases ha : (c.as != "") = true
    · rw [if_pos ha] at h1
      simp [h1] at ha
    · rw [if_neg ha] at h1
      simp [BindingOf.Result, BindingOf.As, ha, h1]
  · exact Result_As d c _ h

theorem As_Result_idem (d : Pkg) (c : Binding) :
    (c.As (c.Result d)).As ((c.As (c.Result d)).Result d) = c.As (c.Result d) := by
  rw [Result_As_self]
  rfl

/-- What freezefinal keeps: it changes only the list of final bindings, whose
length and order it keeps.  The binding at each position keeps its expression
and its result name, and it is explicitly named when that result name is not
empty.  A second call of freezefinal changes nothing. -/
theorem freezefinal_spec (d : Pkg) (b : Trace) :
    (freezefinal d b).final.length = b.final.length
    ∧ (∀ (i : Nat) (c : Binding), b.final[i]? = some c →
        ∃ c1 : Binding, (freezefinal d b).final[i]? = some c1
          ∧ c1.Expr = c.Expr ∧ c1.Result d = c.Result d
          ∧ (c.Result d ≠ "" → c1.Explicit = true))
    ∧ freezefinal d (freezefinal d b) = freezefinal d b
    ∧ (freezefinal d b).top = b.top ∧ (freezefinal d b).Parent = b.Parent
    ∧ (freezefinal d b).Replacements = b.Replacements := by
  obtain ⟨top, parent, repl, final⟩ := b
  have hfinal : (freezefinal d (.mk top parent repl final)).final
      = final.map fun c => c.As (c.Result d) := rfl
  refine ⟨by rw [hfinal, List.length_map]; rfl, fun i c hc => ?_, ?_, rfl, rfl, rfl⟩
  · refine ⟨c.As (c.Result d), ?_, rfl, Result_As_self d c, fun hne => ?_⟩
    · rw [hfinal, List.getElem?_map]
      simp only [Trace.final] at hc
      rw [hc]
      rfl
    · simpa [BindingOf.Explicit, BindingOf.As] using hne
  · simp only [freezefinal, Trace.setFinal, Trace.final, Trace.top, Trace.Parent,
      Trace.Replacements, List.map_map]
    congr 1
    apply List.map_congr_left
    intro c _
    exact As_Result_idem d c

/-- On a trace whose final binding is the path `a` without a name: after
freezefinal the binding carries the name `a`. -/
theorem freezefinal_spec_witness :
    ∃ c1 : Binding,
      (freezefinal Pkg.plain (.mk [.Bind [⟨.Path "a" [], ""⟩], .Scan ⟨.Path "t" [], ""⟩]
          none [] [⟨.Path "a" [], ""⟩])).final[0]? = some c1
      ∧ c1.Expr = .Path "a" [] ∧ c1.Result Pkg.plain = "a" ∧ c1.Explicit = true := by
  obtain ⟨c1, h1, h2, h3, h4⟩ := (freezefinal_spec Pkg.plain
    (.mk [.Bind [⟨.Path "a" [], ""⟩], .Scan ⟨.Path "t" [], ""⟩] none []
      [⟨.Path "a" [], ""⟩])).2.1 0 ⟨.Path "a" [], ""⟩ rfl
  exact ⟨c1, h1, h2, h3, h4 (by decide)⟩

end Sneller

namespace Sneller

/-! ## `subflatten` -/

theorem subflatten.steps_eq_filter (l : List Step) :
    subflatten.steps l = l.filter (fun s => !s.isPseudoTable) := by
  induction l with
  | nil => rfl
  | cons s rest ih =>
    cases s <;> simp [subflatten.steps, Step.isPseudoTable, ih]

theorem subflatten.steps_map (kind : Nat → Step) (l : List Nat) :
    subflatten.steps (l.map kind)
      = (l.filter (fun i => !(kind i).isPseudoTable)).map kind := by
  rw [subflatten.steps_eq_filter, List.filter_map]
  rfl

theorem Linked.head {parent : Nat → Option Nat} {top : Option Nat} {l : List Nat}
    (h : Linked parent top l) : top = l.head? := by
  cases l with
  | nil => exact h
  | cons x rest => exact h.1

theorem Linked.congr {p1 p2 : Nat → Option Nat} {top : Option Nat} {l : List Nat}
    (hp : ∀ x ∈ l, p1 x = p2 x) (h : Linked p1 top l) : Linked p2 top l := by
  induction l generalizing top with
  | nil => exact h
  | cons x rest ih =>
    refine ⟨h.1, ?_⟩
    rw [← hp x (by simp)]
    exact ih (fun y hy => hp y (by simp [hy])) h.2

theorem Linked.unique {parent : Nat → Option Nat} {top : Option Nat} {l1 l2 : List Nat}
    (h1 : Linked parent top l1) (h2 : Linked parent top l2) : l1 = l2 := by
  induction l1 generalizing top l2 with
  | nil =>
    cases l2 with
    | nil => rfl
    | cons y r2 =>
      have a : top = none := h1
      have b : top = some y := h2.1
      rw [a] at b
      exact Option.noConfusion b
  | cons x r1 ih =>
    cases l2 with
    | nil =>
      have a : top = some x := h1.1
      have b : top = none := h2
      rw [a] at b
      exact Option.noConfusion b
    | cons y r2 =>
      have a : top = some x := h1.1
      have b : top = some y := h2.1
      rw [a] at b
      have hxy : x = y := Option.some.inj b
      subst hxy
      rw [ih h1.2 h2.2]

theorem Linked.of_append {parent : Nat → Option Nat} {top : Option Nat} {a m : List Nat}
    (h : Linked parent top (a ++ m)) : ∃ t, Linked parent t m := by
  induction a generalizing top with
  | nil => exact ⟨top, h⟩
  | cons x rest ih => exact ih h.2

/-- A chain that ends holds every step object once. -/
theorem Linked.nodup {parent : Nat → Option Nat} {top : Option Nat} {l : List Nat}
    (h : Linked parent top l) : l.Nodup := by
  induction l generalizing top with
  | nil => exact List.nodup_nil
  | cons x rest ih =>
    refine List.nodup_cons.2 ⟨fun hx => ?_, ih h.2⟩
    obtain ⟨a, c, hac⟩ := List.append_of_mem hx
    rw [hac] at h
    obtain ⟨t, ht⟩ := Linked.of_append h.2
    have hc : Linked parent (parent x) c := ht.2
    have := Linked.unique h.2 hc
    have hlen := congrArg List.length this
    simp at hlen
    omega

/-- The loop of subflatten once `prev` is the step object `p`: the chain
under `p` loses its pseudo-tables, and `b.top` stays. -/
theorem subflatten.loop_prev (pseudo : Nat → Bool) (rest : List Nat) :
    ∀ (p : Nat) (parent : Nat → Option Nat) (top : Option Nat) (fuel : Nat),
      rest.length ≤ fuel → p ∉ rest → rest.Nodup → Linked parent (parent p) rest →
      ∃ parent1 : Nat → Option Nat,
        subflatten.loop pseudo fuel top parent (some p) (parent p) = some (top, parent1)
        ∧ Linked parent1 (parent1 p) (rest.filter (fun i => !pseudo i))
        ∧ ∀ i, i ≠ p → i ∉ rest → parent1 i = parent i := by
  induction rest with
  | nil =>
    intro p parent top fuel _ _ _ hl
    have hp : parent p = none := hl
    refine ⟨parent, ?_, ?_, fun _ _ _ => rfl⟩
    · rw [hp]
      cases fuel <;> rfl
    · simpa [Linked] using hp
  | cons x rest ih =>
    intro p parent top fuel hf hpr hnd hl
    have hpx : parent p = some x := hl.1
    have hxp : x ≠ p := fun e => hpr (by simp [e])
    have hprest : p ∉ rest := fun e => hpr (by simp [e])
    have hxrest : x ∉ rest := (List.nodup_cons.1 hnd).1
    have hndr : rest.Nodup := (List.nodup_cons.1 hnd).2
    obtain ⟨f, rfl⟩ : ∃ f, fuel = f + 1 := ⟨fuel - 1, by simp at hf; omega⟩
    have hf1 : rest.length ≤ f := by simp at hf; omega
    rw [hpx]
    by_cases hps : pseudo x = true
    · have hupd : Function.update parent p (parent x) x = parent x :=
        Function.update_noteq hxp _ _
      have hl1 : Linked (Function.update parent p (parent x))
          (Function.update parent p (parent x) p) rest := by
        rw [Function.update_same]
        refine Linked.congr (fun y hy => ?_) hl.2
        have hyp : y ≠ p := fun e => hprest (e ▸ hy)
        exact (Function.update_noteq hyp _ _).symm
      obtain ⟨parent1, h1, h2, h3⟩ :=
        ih p (Function.update parent p (parent x)) top f hf1 hprest hndr hl1
      refine ⟨parent1, ?_, ?_, fun i hip hi => ?_⟩
      · rw [Function.update_same] at h1
        show subflatten.loop pseudo (f + 1) top parent (some p) (some x) = _
        unfold subflatten.loop
        simp only [hps, if_true]
        rw [hupd]
        exact h1
      · simpa [List.filter, hps] using h2
      · have hir : i ∉ rest := fun e => hi (by simp [e])
        rw [h3 i hip hir]
        exact Function.update_noteq hip _ _
    · obtain ⟨parent1, h1, h2, h3⟩ := ih x parent top f hf1 hxrest hndr hl.2
      refine ⟨parent1, ?_, ?_, fun i hip hi => ?_⟩
      · show subflatten.loop pseudo (f + 1) top parent (some p) (some x) = _
        unfold subflatten.loop
        simp only [hps, Bool.false_eq_true, if_false]
        exact h1
      · have hpp : parent1 p = some x := by
          rw [h3 p (fun e => hxp e.symm) hprest]
          exact hpx
        have hfx : (x :: rest).filter (fun i => !pseudo i)
            = x :: rest.filter (fun i => !pseudo i) := by
          simp [List.filter, hps]
        rw [hfx]
        exact ⟨hpp, h2⟩
      · have hix : i ≠ x := fun e => hi (by simp [e])
        have hir : i ∉ rest := fun e => hi (by simp [e])
        exact h3 i hix hir

/-- The loop of subflatten from its start: the chain read from `b.top` after
the loop holds the step objects of the chain before it that are not
pseudo-tables, in their order; no other step object is changed. -/
theorem subflatten.loop_spec (pseudo : Nat → Bool) (l : List Nat) :
    ∀ (parent : Nat → Option Nat) (top : Option Nat) (fuel : Nat),
      l.length ≤ fuel → Linked parent top l →
      ∃ (top1 : Option Nat) (parent1 : Nat → Option Nat),
        subflatten.loop pseudo fuel top parent none top = some (top1, parent1)
        ∧ Linked parent1 top1 (l.filter (fun i => !pseudo i))
        ∧ ∀ i, i ∉ l → parent1 i = parent i := by
  induction l with
  | nil =>
    intro parent top fuel _ hl
    have ht : top = none := hl
    subst ht
    refine ⟨none, parent, ?_, by simp [Linked], fun _ _ => rfl⟩
    cases fuel <;> rfl
  | cons x rest ih =>
    intro parent top fuel hf hl
    have ht : top = some x := hl.1
    subst ht
    have hnd := Linked.nodup hl
    obtain ⟨f, rfl⟩ : ∃ f, fuel = f + 1 := ⟨fuel - 1, by simp at hf; omega⟩
    have hf1 : rest.length ≤ f := by simp at hf; omega
    by_cases hps : pseudo x = true
    · obtain ⟨top1, parent1, h1, h2, h3⟩ := ih parent (parent x) f hf1 hl.2
      refine ⟨top1, parent1, ?_, ?_, fun i hi => h3 i (fun e => hi (by simp [e]))⟩
      · unfold subflatten.loop
        simp only [hps, if_true]
        exact h1
      · simpa [List.filter, hps] using h2
    · obtain ⟨parent1, h1, h2, h3⟩ := subflatten.loop_prev pseudo rest x parent (some x) f hf1
        (List.nodup_cons.1 hnd).1 (List.nodup_cons.1 hnd).2 hl.2
      refine ⟨some x, parent1, ?_, ?_, fun i hi => ?_⟩
      · unfold subflatten.loop
        simp only [hps, Bool.false_eq_true, if_false]
        exact h1
      · have hfx : (x :: rest).filter (fun i => !pseudo i)
            = x :: rest.filter (fun i => !pseudo i) := by
          simp [List.filter, hps]
        rw [hfx]
        exact ⟨rfl, h2⟩
      · exact h3 i (fun e => hi (by simp [e])) (fun e => hi (by simp [e]))

/-- On a chain without pseudo-tables the loop of subflatten changes
nothing. -/
theorem subflatten.loop_fixed (pseudo : Nat → Bool) (l : List Nat) :
    ∀ (parent : Nat → Option Nat) (top prev s : Option Nat) (fuel : Nat),
      l.length ≤ fuel → (∀ x ∈ l, pseudo x = false) → Linked parent s l →
      subflatten.loop pseudo fuel top parent prev s = some (top, parent) := by
  induction l with
  | nil =>
    intro parent top prev s fuel _ _ hl
    have hs : s = none := hl
    subst hs
    cases fuel <;> rfl
  | cons x rest ih =>
    intro parent top prev s fuel hf hall hl
    have hs : s = some x := hl.1
    subst hs
    obtain ⟨f, rfl⟩ : ∃ f, fuel = f + 1 := ⟨fuel - 1, by simp at hf; omega⟩
    have hf1 : rest.length ≤ f := by simp at hf; omega
    unfold subflatten.loop
    simp only [hall x (by simp), Bool.false_eq_true, if_false]
    exact ih parent top (some x) (parent x) f hf1 (fun y hy => hall y (by simp [hy])) hl.2

/-- C27: after subflatten the chain of the trace holds no pseudo-table, its
steps are the steps of the chain before the call that are not pseudo-tables,
in their order, and a second call changes nothing.  The same holds of the
loop on linked step objects, for every chain that ends, wherever its
pseudo-tables stand: with the step objects `l` reached from `b.top`, the loop
returns, the chain reached from `b.top` afterwards holds the objects of `l`
that are not pseudo-tables, in their order, its steps are those of the trace
after subflatten, no other object is touched, and a second run of the loop
changes neither `b.top` nor a parent link. -/
theorem subflatten_spec (b : Trace) :
    (∀ s ∈ (subflatten b).top, s.isPseudoTable = false)
    ∧ (subflatten b).top = b.top.filter (fun s => !s.isPseudoTable)
    ∧ subflatten (subflatten b) = subflatten b
    ∧ (∀ (kind : Nat → Step) (parent : Nat → Option Nat) (top : Option Nat) (l : List Nat)
        (fuel : Nat),
        Linked parent top l → l.map kind = b.top → l.length ≤ fuel →
        ∃ (top1 : Option Nat) (parent1 : Nat → Option Nat),
          subflatten.loop (fun i => (kind i).isPseudoTable) fuel top parent none top
            = some (top1, parent1)
          ∧ Linked parent1 top1 (l.filter (fun i => !(kind i).isPseudoTable))
          ∧ (l.filter (fun i => !(kind i).isPseudoTable)).map kind = (subflatten b).top
          ∧ (∀ i, i ∉ l → parent1 i = parent i)
          ∧ subflatten.loop (fun i => (kind i).isPseudoTable) fuel top1 parent1 none top1
            = some (top1, parent1)) := by
  obtain ⟨top0, par0, repl0, final0⟩ := b
  have htop : (subflatten (.mk top0 par0 repl0 final0)).top
      = top0.filter (fun s => !s.isPseudoTable) := by
    show subflatten.steps top0 = _
    exact subflatten.steps_eq_filter top0
  refine ⟨fun s hs => ?_, htop, ?_, ?_⟩
  · rw [htop, List.mem_filter] at hs
    simpa using hs.2
  · show Trace.mk (subflatten.steps (subflatten.steps top0)) par0 repl0 final0
      = Trace.mk (subflatten.steps top0) par0 repl0 final0
    rw [subflatten.steps_eq_filter, subflatten.steps_eq_filter, List.filter_filter]
    simp
  · intro kind parent top l fuel hl hmap hfuel
    obtain ⟨top1, parent1, h1, h2, h3⟩ :=
      subflatten.loop_spec (fun i => (kind i).isPseudoTable) l parent top fuel hfuel hl
    refine ⟨top1, parent1, h1, h2, ?_, h3, ?_⟩
    · rw [← subflatten.steps_map, hmap]
      rfl
    · apply subflatten.loop_fixed (fun i => (kind i).isPseudoTable)
        (l.filter (fun i => !(kind i).isPseudoTable)) parent1 top1 none top1 fuel
      · exact le_trans (List.length_filter_le _ _) hfuel
      · intro x hx
        rw [List.mem_filter] at hx
        simpa using hx.2
      · exact h2

/-- C27, on the chain pseudo-table, BindStar, pseudo-table, pseudo-table,
Scan, pseudo-table, held by the step objects 0 to 5: the loop returns with
`b.top` at object 1, whose parent is object 4, which has no parent. -/
theorem subflatten_spec_witness :
    (∃ (top1 : Option Nat) (parent1 : Nat → Option Nat),
      subflatten.loop
          (fun i => (([Step.pseudoTable, .BindStar, .pseudoTable, .pseudoTable,
            .Scan ⟨.Path "t" [], ""⟩, .pseudoTable].getD i .DummyOutput)).isPseudoTable)
          6 (some 0) (fun i => if i < 5 then some (i + 1) else none) none (some 0)
        = some (top1, parent1)
      ∧ Linked parent1 top1 [1, 4])
    ∧ (subflatten.loop
          (fun i => (([Step.pseudoTable, .BindStar, .pseudoTable, .pseudoTable,
            .Scan ⟨.Path "t" [], ""⟩, .pseudoTable].getD i .DummyOutput)).isPseudoTable)
          6 (some 0) (fun i => if i < 5 then some (i + 1) else none) none (some 0)).map
        (fun r => (r.1, r.2 1, r.2 4))
      = some (some 1, some 4, none)
    ∧ (subflatten (.mk [.pseudoTable, .BindStar, .pseudoTable, .pseudoTable,
        .Scan ⟨.Path "t" [], ""⟩, .pseudoTable] none [] [])).top
      = [.BindStar, .Scan ⟨.Path "t" [], ""⟩] := by
  refine ⟨?_, by decide, rfl⟩
  obtain ⟨top1, parent1, h1, h2, _⟩ := (subflatten_spec (.mk [.pseudoTable, .BindStar,
      .pseudoTable, .pseudoTable, .Scan ⟨.Path "t" [], ""⟩, .pseudoTable] none [] [])).2.2.2
    (fun i => [Step.pseudoTable, .BindStar, .pseudoTable, .pseudoTable,
      .Scan ⟨.Path "t" [], ""⟩, .pseudoTable].getD i .DummyOutput)
    (fun i => if i < 5 then some (i + 1) else none) (some 0) [0, 1, 2, 3, 4, 5] 6
    (by simp [Linked]) rfl (by decide)
  exact ⟨top1, parent1, h1, h2⟩

end Sneller

namespace Sneller

/-! ## `stripFinal` -/

/-- C34: stripFinal returns true exactly when the top step of the trace is a
Bind one of whose bindings has the result name `except`.  It then replaces
the list of that Bind by the first such binding alone and leaves the rest of
the trace as it is; when it returns false the trace is unchanged. -/
theorem stripFinal_spec (d : Pkg) (t : Trace) (except : String) :
    ((stripFinal d t except).1 = true
      ↔ ∃ (old : List Binding) (rest : List Step), t.top = .Bind old :: rest
          ∧ ∃ b ∈ old, b.Result d = except)
    ∧ (∀ (pre post : List Binding) (keep : Binding) (rest : List Step),
        t.top = .Bind (pre ++ keep :: post) :: rest →
        (∀ b ∈ pre, b.Result d ≠ except) → keep.Result d = except →
        stripFinal d t except = (true, t.setTop (.Bind [keep] :: rest)))
    ∧ ((stripFinal d t except).1 = false → (stripFinal d t except).2 = t) := by
  have hfind : ∀ (pre post : List Binding) (keep : Binding),
      (∀ b ∈ pre, b.Result d ≠ except) → keep.Result d = except →
      (pre ++ keep :: post).find? (fun b => b.Result d == except) = some keep := by
    intro pre post keep hpre hkeep
    induction pre with
    | nil => simp [List.find?, hkeep]
    | cons p pre ih =>
      have hp : (p.Result d == except) = false := by
        simpa using hpre p (by simp)
      simp only [List.cons_append, List.find?, hp]
      exact ih (fun b hb => hpre b (by simp [hb]))
  refine ⟨⟨fun h => ?_, fun h => ?_⟩, fun pre post keep rest htop hpre hkeep => ?_, fun h => ?_⟩
  · unfold stripFinal at h
    split at h
    · rename_i old rest htop
      split at h
      · rename_i keep hk
        refine ⟨old, rest, htop, keep, List.mem_of_find?_eq_some hk, ?_⟩
        simpa using List.find?_some hk
      · exact Bool.noConfusion h
    · exact Bool.noConfusion h
  · obtain ⟨old, rest, htop, b, hb, hbe⟩ := h
    unfold stripFinal
    rw [htop]
    cases hk : old.find? (fun b => b.Result d == except) with
    | some keep => simp only [hk]
    | none =>
      have := List.find?_eq_none.1 hk b hb
      simp [hbe] at this
  · unfold stripFinal
    rw [htop]
    simp only [hfind pre post keep hpre hkeep]
  · unfold stripFinal at h ⊢
    split
    · rename_i old rest htop
      rw [htop] at h
      cases hk : old.find? (fun b => b.Result d == except) with
      | some keep => simp [hk] at h
      | none => rfl
    · rfl

/-- C34, on a trace whose top step binds `x AS k`, `y AS v` and `z AS k`: with
`v` the Bind is cut to `y AS v`. -/
theorem stripFinal_spec_witness :
    stripFinal Pkg.plain
        (.mk [.Bind [⟨.Path "x" [], "k"⟩, ⟨.Path "y" [], "v"⟩, ⟨.Path "z" [], "k"⟩],
          .Scan ⟨.Path "t" [], ""⟩] none [] []) "v"
      = (true, .mk [.Bind [⟨.Path "y" [], "v"⟩], .Scan ⟨.Path "t" [], ""⟩] none [] []) :=
  (stripFinal_spec Pkg.plain
    (.mk [.Bind [⟨.Path "x" [], "k"⟩, ⟨.Path "y" [], "v"⟩, ⟨.Path "z" [], "k"⟩],
      .Scan ⟨.Path "t" [], ""⟩] none [] []) "v").2.1
    [⟨.Path "x" [], "k"⟩] [⟨.Path "z" [], "k"⟩] ⟨.Path "y" [], "v"⟩ [.Scan ⟨.Path "t" [], ""⟩]
    rfl (by simp +decide [BindingOf.Result]) (by decide)

/-! ## DISTINCT ON with constants and an earlier LIMIT -/

/-- What dropConstantsFromDistinctOn does to LIMIT and OFFSET: OFFSET stays,
and LIMIT stays unless the DISTINCT ON list is not empty and holds constants
alone, where it becomes 1 whatever it was. -/
theorem dropConstantsFromDistinctOn_limit (d : Pkg) (s : Select) :
    (dropConstantsFromDistinctOn d s).Offset = s.Offset
    ∧ ((dropConstantsFromDistinctOn d s).Limit = s.Limit
      ∨ (dropConstantsFromDistinctOn d s).Limit = some 1) := by
  unfold dropConstantsFromDistinctOn
  simp only []
  split
  · exact ⟨rfl, Or.inl rfl⟩
  · split
    · exact ⟨rfl, Or.inl rfl⟩
    · exact ⟨rfl, Or.inr rfl⟩

/-- C39: dropConstantsFromDistinctOn on `SELECT DISTINCT ON (1) a FROM t LIMIT
0 OFFSET 3`: the SELECT leaves the call with LIMIT 1, and OFFSET 3. -/
theorem dropConstantsFromDistinctOn_raises_limit :
    dropConstantsFromDistinctOn Pkg.plain
        { SelectOf.zero with
          DistinctExpr := [.Integer 1],
          Columns := [⟨.Path "a" [], ""⟩],
          From := some (.Table ⟨.Path "t" [], ""⟩),
          Limit := some 0, Offset := some 3 }
      = { SelectOf.zero with
          DistinctExpr := [],
          Columns := [⟨.Path "a" [], ""⟩],
          From := some (.Table ⟨.Path "t" [], ""⟩),
          Limit := some 1, Offset := some 3 } := by
  rfl

end Sneller

namespace Sneller

/-! ## `CompileError.WriteTo` -/

/-- C31: WriteTo hands the writer, in one call of Write, the text `in
expression:\n\t` ++ ToString(In) ++ `\n` ++ Err ++ `\n` when a node is
attached, and Err ++ `\n` when In is nil, and returns the count and the error
of that call.  On a writer that takes what it is given, the text is what is
written, and the count is its length in bytes. -/
theorem WriteTo_spec {σ : Type} (d : Pkg) (w : Writer σ) (dst : σ) (Err : String) :
    (∀ e : Node, e ≠ .Nil →
      CompileError.WriteTo d ⟨some e, Err⟩ w dst
        = ((w.Write dst ("in expression:\n\t" ++ d.ToString e ++ "\n" ++ Err ++ "\n")).1,
            ((w.Write dst ("in expression:\n\t" ++ d.ToString e ++ "\n" ++ Err ++ "\n")).2.1
              : Int),
            (w.Write dst ("in expression:\n\t" ++ d.ToString e ++ "\n" ++ Err ++ "\n")).2.2))
    ∧ CompileError.WriteTo d ⟨none, Err⟩ w dst
        = ((w.Write dst (Err ++ "\n")).1, ((w.Write dst (Err ++ "\n")).2.1 : Int),
            (w.Write dst (Err ++ "\n")).2.2)
    ∧ CompileError.WriteTo d ⟨some .Nil, Err⟩ w dst
        = ((w.Write dst (Err ++ "\n")).1, ((w.Write dst (Err ++ "\n")).2.1 : Int),
            (w.Write dst (Err ++ "\n")).2.2)
    ∧ (∀ (buf : String) (e : Node), e ≠ .Nil →
      CompileError.WriteTo d ⟨some e, Err⟩ Writer.buffer buf
        = (buf ++ ("in expression:\n\t" ++ d.ToString e ++ "\n" ++ Err ++ "\n"),
            (("in expression:\n\t" ++ d.ToString e ++ "\n" ++ Err ++ "\n").utf8ByteSize : Int),
            none))
    ∧ (∀ buf : String,
      CompileError.WriteTo d ⟨none, Err⟩ Writer.buffer buf
        = (buf ++ (Err ++ "\n"), ((Err ++ "\n").utf8ByteSize : Int), none)) := by
  refine ⟨fun e he => ?_, rfl, rfl, fun buf e he => ?_, fun buf => rfl⟩
  · cases e with
    | Nil => exact absurd rfl he
    | _ => rfl
  · cases e with
    | Nil => exact absurd rfl he
    | _ => rfl

/-- C31, on the error `bad` attached to the path `x`: the text written is `in
expression:`, a line with a tab and the text of the node, and the line `bad`;
it has 26 bytes. -/
theorem WriteTo_spec_witness :
    CompileError.WriteTo Pkg.plain ⟨some (.Path "x" []), "bad"⟩ Writer.buffer ""
      = ("in expression:\n\t(...)\nbad\n", 26, none) := by
  have h := (WriteTo_spec Pkg.plain Writer.buffer "" "bad").2.2.2.1 "" (.Path "x" [])
    (fun h => Node.noConfusion h)
  rw [h]
  refine Prod.ext (by decide) (Prod.ext (by decide) rfl)

/-! ## `replaceTables`: the order of the WITH list -/

theorem replaceTables.loop_eq_bindings (d : Pkg) (post : List CTE) :
    ∀ (done : List CTE) (n : Nat), post.length ≤ n →
      replaceTables.loop d n done.length (done ++ post) = replaceTables.bindings d done post := by
  induction post with
  | nil =>
    intro done n _
    cases n with
    | zero => simp [replaceTables.loop, replaceTables.bindings]
    | succ n => simp [replaceTables.loop, replaceTables.bindings]
  | cons c post ih =>
    intro done n hn
    obtain ⟨m, rfl⟩ : ∃ m, n = m + 1 := ⟨n - 1, by simp at hn; omega⟩
    have hm : post.length ≤ m := by simp at hn; omega
    have hget : (done ++ c :: post)[done.length]? = some c := by
      rw [List.getElem?_append_right (le_refl _)]
      simp
    have htake : (done ++ c :: post).take done.length = done := by simp
    have hset : ∀ c1 : CTE,
        (done ++ c :: post).set done.length c1 = (done ++ [c1]) ++ post := by
      intro c1
      simp
    unfold replaceTables.loop replaceTables.bindings
    simp only [hget, htake, hset]
    cases hr : Sneller.Rewrite (tableReplacer.rewriter d) { with_ := done, err := none }
        (.Select c.As) with
    | none => rfl
    | some r =>
      obtain ⟨e1, rp⟩ := r
      cases e1 with
      | Select s1 =>
        simp only []
        cases he : rp.err with
        | some e => simp
        | none =>
          simp only []
          have := ih (done ++ [({ c with As := s1 } : CTE)]) m hm
          simp only [List.length_append, List.length_singleton] at this
          exact this
      | _ => rfl

theorem replaceTables.bindings_head (d : Pkg) (post : List CTE) :
    ∀ (c0 : CTE) (done with1 : List CTE) (err : Option GoError),
      replaceTables.bindings d (c0 :: done) post = some (with1, err) →
      with1.head? = some c0
        ∧ with1.map (fun c => c.Table) = (c0 :: done ++ post).map (fun c => c.Table) := by
  induction post with
  | nil =>
    intro c0 done with1 err h
    simp only [replaceTables.bindings, Option.some.injEq, Prod.mk.injEq] at h
    rw [← h.1]
    simp
  | cons c post ih =>
    intro c0 done with1 err h
    unfold replaceTables.bindings at h
    cases hr : Sneller.Rewrite (tableReplacer.rewriter d) { with_ := c0 :: done, err := none }
        (.Select c.As) with
    | none => simp [hr] at h
    | some r =>
      obtain ⟨e1, rp⟩ := r
      cases e1 with
      | Select s1 =>
        simp only [hr] at h
        cases he : rp.err with
        | some e =>
          simp only [he, Option.some.injEq, Prod.mk.injEq] at h
          rw [← h.1]
          simp
        | none =>
          simp only [he] at h
          have := ih c0 (done ++ [({ c with As := s1 } : CTE)]) with1 err h
          refine ⟨this.1, ?_⟩
          rw [this.2]
          simp
      | _ => simp [hr] at h

/-- C35: the first loop of replaceTables, run on the slice with the index `i`
from 1, hands binding `i` to a replacer whose list is `with[:i]`, the
bindings in front of it as the loop has left them, and stores the result at
index `i`; it is the recursion `replaceTables.bindings`, which starts from the
first binding alone.  The first binding keeps its body, and every binding
keeps its name.  When the loop leaves no error, the body of the query is
rewritten by a replacer whose list is the whole slice; when it leaves an
error, replaceTables returns that error and a nil node. -/
theorem replaceTables_spec (d : Pkg) (body : Node) (c0 : CTE) (rest : List CTE) :
    replaceTables.loop d rest.length 1 (c0 :: rest) = replaceTables.bindings d [c0] rest
    ∧ (∀ (with1 : List CTE) (err : Option GoError),
        replaceTables.loop d rest.length 1 (c0 :: rest) = some (with1, err) →
        with1.head? = some c0
          ∧ with1.map (fun c => c.Table) = (c0 :: rest).map (fun c => c.Table))
    ∧ (∀ with1 : List CTE,
        replaceTables.loop d rest.length 1 (c0 :: rest) = some (with1, none) →
        replaceTables d body (c0 :: rest)
          = (Sneller.Rewrite (tableReplacer.rewriter d) { with_ := with1, err := none }
              body).bind fun r => some (r.1, r.2.err))
    ∧ (∀ (with1 : List CTE) (e : GoError),
        replaceTables.loop d rest.length 1 (c0 :: rest) = some (with1, some e) →
        replaceTables d body (c0 :: rest) = some (.Nil, some e)) := by
  have hloop : replaceTables.loop d rest.length 1 (c0 :: rest)
      = replaceTables.bindings d [c0] rest :=
    replaceTables.loop_eq_bindings d rest [c0] rest.length (le_refl _)
  refine ⟨hloop, fun with1 err h => ?_, fun with1 h => ?_, fun with1 e h => ?_⟩
  · rw [hloop] at h
    have := replaceTables.bindings_head d rest c0 [] with1 err h
    simpa using this
  · rw [hloop] at h
    simp only [replaceTables, h]
  · rw [hloop] at h
    simp only [replaceTables, h]

/-- C35, on `WITH x AS (SELECT 1), y AS (SELECT a FROM x) SELECT b FROM y`:
the body of `y` is rewritten with the binding `x` alone, the body of `x` is
kept, and the body of the query is rewritten with both bindings. -/
theorem replaceTables_spec_witness :
    replaceTables Pkg.plain
        (.Select { SelectOf.zero with
          Columns := [⟨.Path "b" [], ""⟩],
          From := some (.Table ⟨.Path "y" [], ""⟩) })
        [⟨"x", { SelectOf.zero with Columns := [⟨.Integer 1, ""⟩] }⟩,
          ⟨"y", { SelectOf.zero with
            Columns := [⟨.Path "a" [], ""⟩],
            From := some (.Table ⟨.Path "x" [], ""⟩) }⟩]
      = (Sneller.Rewrite (tableReplacer.rewriter Pkg.plain)
          { with_ := [⟨"x", { SelectOf.zero with Columns := [⟨.Integer 1, ""⟩] }⟩,
              ⟨"y", { SelectOf.zero with
            Columns := [⟨.Path "a" [], ""⟩],
            From := some (.Table ⟨.Select { SelectOf.zero with Columns := [⟨.Integer 1, ""⟩] }, ""⟩) }⟩],
            err := none }
          (.Select { SelectOf.zero with
          Columns := [⟨.Path "b" [], ""⟩],
          From := some (.Table ⟨.Path "y" [], ""⟩) })).bind fun r => some (r.1, r.2.err) :=
  (replaceTables_spec Pkg.plain
    (.Select { SelectOf.zero with
          Columns := [⟨.Path "b" [], ""⟩],
          From := some (.Table ⟨.Path "y" [], ""⟩) })
    ⟨"x", { SelectOf.zero with Columns := [⟨.Integer 1, ""⟩] }⟩
    [⟨"y", { SelectOf.zero with
            Columns := [⟨.Path "a" [], ""⟩],
            From := some (.Table ⟨.Path "x" [], ""⟩) }⟩]).2.2.1
    [⟨"x", { SelectOf.zero with Columns := [⟨.Integer 1, ""⟩] }⟩,
      ⟨"y", { SelectOf.zero with
            Columns := [⟨.Path "a" [], ""⟩],
            From := some (.Table ⟨.Select { SelectOf.zero with Columns := [⟨.Integer 1, ""⟩] }, ""⟩) }⟩]
    rfl

end Sneller

namespace Sneller

/-! ## `walkSelect`: LIMIT and OFFSET -/

/-- C40 (amended): let the walk of the columns leave the trace `b2` and the
SELECT `s2` without an error.  When `s2` carries LIMIT `l` and OFFSET `o`,
walkSelect calls LimitOffset with `l` and `o`; when it carries LIMIT `l` and
no OFFSET, it calls LimitOffset with `l` and 0; an error of that call is
returned, and otherwise hoist works on the trace that the call left.  When
`s2` carries no LIMIT, LimitOffset is not called, whatever the OFFSET. -/
theorem walkSelect_limit_offset (d : Pkg)
    (walkSelect : Trace → Select → Option (Trace × Option GoError)) (b0 b1 b2 : Trace)
    (s0 s1 s2 : Select)
    (hprep : Sneller.walkSelect.prepare d walkSelect b0 s0 = some (b1, s1, none))
    (hcol : Sneller.walkSelect.columns d b1 s1 = some (b2, s2, none)) :
    (∀ l o : Int, s2.Limit = some l → s2.Offset = some o →
      Trace.walkSelect.run d walkSelect b0 s0
        = match (d.LimitOffset b2 l o).2 with
          | some err => some ((d.LimitOffset b2 l o).1, s2, some err)
          | none => (Trace.hoist d (d.LimitOffset b2 l o).1).map fun r => (r.1, s2, r.2))
    ∧ (∀ l : Int, s2.Limit = some l → s2.Offset = none →
      Trace.walkSelect.run d walkSelect b0 s0
        = match (d.LimitOffset b2 l 0).2 with
          | some err => some ((d.LimitOffset b2 l 0).1, s2, some err)
          | none => (Trace.hoist d (d.LimitOffset b2 l 0).1).map fun r => (r.1, s2, r.2))
    ∧ (s2.Limit = none →
      Trace.walkSelect.run d walkSelect b0 s0
        = (Trace.hoist d b2).map fun r => (r.1, s2, r.2)) := by
  have hrun : Trace.walkSelect.run d walkSelect b0 s0 = Sneller.walkSelect.limit d b2 s2 := by
    rw [Trace.walkSelect.run_of_prepare d walkSelect b0 b1 s0 s1 hprep, hcol]
  refine ⟨fun l o hl ho => ?_, fun l hl ho => ?_, fun hl => ?_⟩
  · rw [hrun]
    simp only [Sneller.walkSelect.limit, hl, ho, Option.getD_some]
  · rw [hrun]
    simp only [Sneller.walkSelect.limit, hl, ho, Option.getD_none]
  · rw [hrun]
    simp only [Sneller.walkSelect.limit, hl]

/-- C40, the claim as stated fails on `SELECT a FROM t OFFSET 5`: walkSelect
accepts the SELECT, and the trace is the scan under the projection, without
a LimitOffset step. -/
theorem walkSelect_offset_without_limit :
    Trace.walkSelect.run Pkg.plain walkPlain (.mk [] none [] [])
        { SelectOf.zero with
          Columns := [⟨.Path "a" [], "a"⟩],
          From := some (.Table ⟨.Path "t" [], ""⟩),
          Offset := some 5 }
      = some (.mk [.Bind [⟨.Path "a" [], "a"⟩], .Scan ⟨.Path "t" [], ""⟩] none [] [],
          { SelectOf.zero with
            Columns := [⟨.Path "a" [], "a"⟩],
            From := some (.Table ⟨.Path "t" [], ""⟩),
            Offset := some 5 },
          none) := by
  rfl

/-- C40 (amended), on `SELECT a FROM t LIMIT 10 OFFSET 5` and on `SELECT a
FROM t LIMIT 10`: the trace ends in the LimitOffset step with the offsets 5
and 0. -/
theorem walkSelect_limit_offset_witness :
    Trace.walkSelect.run Pkg.plain walkPlain (.mk [] none [] [])
        { SelectOf.zero with
          Columns := [⟨.Path "a" [], "a"⟩],
          From := some (.Table ⟨.Path "t" [], ""⟩),
          Limit := some 10, Offset := some 5 }
      = some (.mk [.LimitOffset 10 5, .Bind [⟨.Path "a" [], "a"⟩], .Scan ⟨.Path "t" [], ""⟩]
            none [] [],
          { SelectOf.zero with
            Columns := [⟨.Path "a" [], "a"⟩],
            From := some (.Table ⟨.Path "t" [], ""⟩),
            Limit := some 10, Offset := some 5 },
          none)
    ∧ Trace.walkSelect.run Pkg.plain walkPlain (.mk [] none [] [])
        { SelectOf.zero with
          Columns := [⟨.Path "a" [], "a"⟩],
          From := some (.Table ⟨.Path "t" [], ""⟩),
          Limit := some 10 }
      = some (.mk [.LimitOffset 10 0, .Bind [⟨.Path "a" [], "a"⟩], .Scan ⟨.Path "t" [], ""⟩]
            none [] [],
          { SelectOf.zero with
            Columns := [⟨.Path "a" [], "a"⟩],
            From := some (.Table ⟨.Path "t" [], ""⟩),
            Limit := some 10 },
          none) :=
  ⟨(walkSelect_limit_offset Pkg.plain walkPlain (.mk [] none [] [])
      (.mk [.Scan ⟨.Path "t" [], ""⟩] none [] [])
      (.mk [.Bind [⟨.Path "a" [], "a"⟩], .Scan ⟨.Path "t" [], ""⟩] none [] [])
      { SelectOf.zero with
        Columns := [⟨.Path "a" [], "a"⟩],
        From := some (.Table ⟨.Path "t" [], ""⟩),
        Limit := some 10, Offset := some 5 }
      { SelectOf.zero with
        Columns := [⟨.Path "a" [], "a"⟩],
        From := some (.Table ⟨.Path "t" [], ""⟩),
        Limit := some 10, Offset := some 5 }
      { SelectOf.zero with
        Columns := [⟨.Path "a" [], "a"⟩],
        From := some (.Table ⟨.Path "t" [], ""⟩),
        Limit := some 10, Offset := some 5 }
      rfl rfl).1 10 5 rfl rfl,
    (walkSelect_limit_offset Pkg.plain walkPlain (.mk [] none [] [])
      (.mk [.Scan ⟨.Path "t" [], ""⟩] none [] [])
      (.mk [.Bind [⟨.Path "a" [], "a"⟩], .Scan ⟨.Path "t" [], ""⟩] none [] [])
      { SelectOf.zero with
        Columns := [⟨.Path "a" [], "a"⟩],
        From := some (.Table ⟨.Path "t" [], ""⟩),
        Limit := some 10 }
      { SelectOf.zero with
        Columns := [⟨.Path "a" [], "a"⟩],
        From := some (.Table ⟨.Path "t" [], ""⟩),
        Limit := some 10 }
      { SelectOf.zero with
        Columns := [⟨.Path "a" [], "a"⟩],
        From := some (.Table ⟨.Path "t" [], ""⟩),
        Limit := some 10 }
      rfl rfl).2.1 10 rfl rfl⟩

/-! ## Hoisting after window aggregates -/

/-- C38: walkSelect on `SELECT (SUM(v) OVER (PARTITION BY k)) IS NOT MISSING AS
m FROM t`.  The method hoistWindows puts the trace of the window aggregate at
position 0 of the Replacements of the trace and HASH_REPLACEMENT(0, ...) into
the column; hoist then starts its walk with an empty list `in`, and the
lookup `h.in[0]` of Rewrite is out of range: hoist panics, and so does
walkSelect. -/
theorem hoist_window_lookup_out_of_range :
    (Trace.hoistWindows Pkg.plain (.mk [] none [] [])
        { SelectOf.zero with
          Columns := [⟨.IsKey .IsNotMissing (.Aggregate (.Other "SUM") (.Path "v" [])
            (some ⟨[.Path "k" []], []⟩)), "m"⟩],
          From := some (.Table ⟨.Path "t" [], ""⟩) }).map
        (fun r => (r.1.Replacements.length, r.2.1.Columns, r.2.2))
      = some (1, [⟨.IsKey .IsNotMissing (Call .HashReplacement
          [.Integer 0, .String "scalar", .String "$__key", .Path "k" [], .Null]), "m"⟩], none)
    ∧ hoistwalk.Rewrite Pkg.plain ⟨.mk [] none [] [], [], none⟩
        (.IsKey .IsNotMissing (Call .HashReplacement
          [.Integer 0, .String "scalar", .String "$__key", .Path "k" [], .Null]))
      = none
    ∧ Trace.walkSelect.run Pkg.plain walkPlain (.mk [] none [] [])
        { SelectOf.zero with
          Columns := [⟨.IsKey .IsNotMissing (.Aggregate (.Other "SUM") (.Path "v" [])
            (some ⟨[.Path "k" []], []⟩)), "m"⟩],
          From := some (.Table ⟨.Path "t" [], ""⟩) }
      = none := by
  refine ⟨rfl, rfl, rfl⟩

end Sneller

namespace Sneller

/-! ## The converter: one stream or several -/

/-- C33 (amended): MultiStream is true exactly when the converter has more
than one input and Parallel is not 1.  Run, after sorting the constants,
returns the error `no inputs or merge sources` when there is no input and no
reader to prepend; otherwise it returns what runMulti returns when
MultiStream is true, and what runSingle returns when it is false. -/
theorem Converter_Run_spec (sortFunc : List String → List String)
    (runMulti runSingle : Converter → Option GoError) (c : Converter) :
    (c.MultiStream = true ↔ 1 < c.Inputs.length ∧ c.Parallel ≠ 1)
    ∧ (c.MultiStream = true ↔ 1 < c.Inputs.length ∧ (c.Parallel ≤ 0 ∨ 1 < c.Parallel))
    ∧ (c.Inputs = [] → c.PrependR = false →
        Converter.Run sortFunc runMulti runSingle c
          = some (.other "no inputs or merge sources"))
    ∧ (c.Inputs ≠ [] ∨ c.PrependR = true →
        (c.MultiStream = true →
          Converter.Run sortFunc runMulti runSingle c
            = runMulti { c with Constants := sortFunc c.Constants })
        ∧ (c.MultiStream = false →
          Converter.Run sortFunc runMulti runSingle c
            = runSingle { c with Constants := sortFunc c.Constants })) := by
  have hms : c.MultiStream = true ↔ 1 < c.Inputs.length ∧ (c.Parallel ≤ 0 ∨ 1 < c.Parallel) := by
    simp [Converter.MultiStream]
  refine ⟨?_, hms, fun hi hp => ?_, fun h => ⟨fun hm => ?_, fun hm => ?_⟩⟩
  · rw [hms]
    constructor
    · rintro ⟨h1, h2⟩
      refine ⟨h1, ?_⟩
      omega
    · rintro ⟨h1, h2⟩
      refine ⟨h1, ?_⟩
      omega
  · simp [Converter.Run, hi, hp]
  · have hg : ¬ (c.Inputs.length = 0 ∧ c.PrependR = false) := by
      rintro ⟨h1, h2⟩
      rcases h with h | h
      · exact h (List.eq_nil_of_length_eq_zero h1)
      · rw [h2] at h
        exact Bool.noConfusion h
    have hm1 : Converter.MultiStream { c with Constants := sortFunc c.Constants } = true := hm
    simp only [Converter.Run]
    rw [if_neg hg, if_pos hm1]
  · have hg : ¬ (c.Inputs.length = 0 ∧ c.PrependR = false) := by
      rintro ⟨h1, h2⟩
      rcases h with h | h
      · exact h (List.eq_nil_of_length_eq_zero h1)
      · rw [h2] at h
        exact Bool.noConfusion h
    have hm1 : ¬ Converter.MultiStream { c with Constants := sortFunc c.Constants } = true := by
      show ¬ c.MultiStream = true
      rw [hm]
      exact Bool.noConfusion
    simp only [Converter.Run]
    rw [if_neg hg, if_neg hm1]

/-- C33, the claim as stated fails on a converter without inputs and without
a reader to prepend: MultiStream is false, and Run returns the error `no
inputs or merge sources` where runSingle would return nil. -/
theorem Converter_Run_without_inputs :
    Converter.MultiStream ⟨[], [], false, 1⟩ = false
    ∧ Converter.Run (fun l => l) (fun _ => none) (fun _ => none) ⟨[], [], false, 1⟩
      = some (.other "no inputs or merge sources")
    ∧ (fun _ : Converter => (none : Option GoError)) ⟨[], [], false, 1⟩ = none :=
  ⟨rfl, rfl, rfl⟩

/-- C33 (amended), on a converter with two inputs and Parallel 0: Run takes
what runMulti returns. -/
theorem Converter_Run_spec_witness :
    Converter.Run (fun l => l) (fun _ => some (.other "multi")) (fun _ => some (.other "single"))
        ⟨["a", "b"], [], false, 0⟩
      = some (.other "multi") :=
  ((Converter_Run_spec (fun l => l) (fun _ => some (.other "multi"))
      (fun _ => some (.other "single")) ⟨["a", "b"], [], false, 0⟩).2.2.2
    (Or.inl (fun h => List.noConfusion h))).1 (by decide)

end Sneller

namespace Sneller

/-! ## The constant pool: aliases inside a 64-bit constant -/

theorem poolValue_poolByte (o : Int) (v : Nat) (n : Nat) :
    ∀ m : Nat, m + n ≤ 8 →
      poolValue (poolByte o v) (o + (m : Int)) n = (v / 2 ^ (8 * m)) % 2 ^ (8 * n) := by
  induction n with
  | zero =>
    intro m _
    simp [poolValue, Nat.mod_one]
  | succ n ih =>
    intro m hm
    have hb : poolByte o v (o + (m : Int)) = (v / 2 ^ (8 * m)) % 2 ^ 8 := by
      unfold poolByte
      have h1 : o ≤ o + (m : Int) ∧ o + (m : Int) < o + 8 := by
        constructor <;> omega
      rw [if_pos h1]
      have h2 : (o + (m : Int) - o).toNat = m := by
        have : o + (m : Int) - o = (m : Int) := by omega
        rw [this]
        exact Int.toNat_ofNat m
      rw [h2]
    have hnext : o + (m : Int) + 1 = o + ((m + 1 : Nat) : Int) := by
      push_cast
      omega
    unfold poolValue
    rw [hb, hnext, ih (m + 1) (by omega)]
    have e1 : 2 ^ (8 * (m + 1)) = 2 ^ (8 * m) * 2 ^ 8 := by
      rw [← pow_add]
      congr 1
    have e2 : 2 ^ (8 * (n + 1)) = 2 ^ 8 * 2 ^ (8 * n) := by
      rw [← pow_add]
      congr 1
      omega
    rw [e1, e2, ← Nat.div_div_eq_div_mul, Nat.mod_mul]

theorem printu64.u8alias.loop_range (keys : List Nat) (left : Nat) :
    ∀ (i u k : Nat) (off : Int), printu64.u8alias.loop keys left i u = (k, off) → off ≠ -1 →
      (i : Int) ≤ off ∧ off < (i : Int) + left ∧ k ∈ keys
        ∧ k = (u / 2 ^ (8 * (off.toNat - i))) % 2 ^ 8 := by
  induction left with
  | zero =>
    intro i u k off h hoff
    simp only [printu64.u8alias.loop, Prod.mk.injEq] at h
    exact absurd h.2.symm hoff
  | succ left ih =>
    intro i u k off h hoff
    unfold printu64.u8alias.loop at h
    simp only [] at h
    by_cases hk : u % 2 ^ 8 ∈ keys
    · rw [if_pos hk] at h
      simp only [Prod.mk.injEq] at h
      obtain ⟨h1, h2⟩ := h
      subst h1 h2
      refine ⟨le_refl _, by omega, hk, ?_⟩
      simp
    · rw [if_neg hk] at h
      obtain ⟨h1, h2, h3, h4⟩ := ih (i + 1) (u / 2 ^ 8) k off h hoff
      refine ⟨by omega, by push_cast at h2 ⊢; omega, h3, ?_⟩
      have hoffi : off.toNat - i = (off.toNat - (i + 1)) + 1 := by
        have : (i : Int) + 1 ≤ off := by push_cast at h1; omega
        omega
      have hexp : 8 + 8 * (off.toNat - (i + 1)) = 8 * ((off.toNat - (i + 1)) + 1) := by omega
      rw [h4, Nat.div_div_eq_div_mul, ← pow_add, hoffi, hexp]

theorem printu64.round_lines (uniq : List String → List String) (c : constpool) (i : Nat)
    (o : Int) (v : Nat) :
    (printu64.round uniq c i o v).2
      = (if i > 0 then [Line.text ""] else [])
        ++ (if (printu64.u8alias (constpool.keys c.bytes) v).2 ≠ -1 then
            define uniq (constpool.at c.bytes (printu64.u8alias (constpool.keys c.bytes) v).1)
              (o + (printu64.u8alias (constpool.keys c.bytes) v).2)
          else [])
        ++ (if (printu64.u32alias (constpool.keys c.dword) v).2 ≠ -1 then
            define uniq (constpool.at c.dword (printu64.u32alias (constpool.keys c.dword) v).1)
              (o + (printu64.u32alias (constpool.keys c.dword) v).2)
          else [])
        ++ (if (printu64.f32alias (constpool.keys c.f32) v).2 ≠ -1 then
            define uniq (constpool.at c.f32 (printu64.f32alias (constpool.keys c.f32) v).1)
              (o + (printu64.f32alias (constpool.keys c.f32) v).2)
          else [])
        ++ (if (printu64.f64alias (constpool.keys c.f64) v).2 ≠ -1 then
            define uniq (constpool.at c.f64 (printu64.f64alias (constpool.keys c.f64) v).1)
              (o + (printu64.f64alias (constpool.keys c.f64) v).2)
          else [])
        ++ define uniq (constpool.at c.qword v) o ++ [Line.dataU64 o v] := by
  unfold printu64.round
  simp only []
  by_cases h1 : (printu64.u8alias (constpool.keys c.bytes) v).2 = -1 <;>
  by_cases h2 : (printu64.u32alias (constpool.keys c.dword) v).2 = -1 <;>
  by_cases h3 : (printu64.f32alias (constpool.keys c.f32) v).2 = -1 <;>
  by_cases h4 : (printu64.f64alias (constpool.keys c.f64) v).2 = -1 <;>
  simp [h1, h2, h3, h4]

/-- One round of printu64, for the 64-bit value `v` that the round
stores at the offset `o` of the pool in little-endian order.  A byte alias
`k` at `off` has `0 ≤ off < 8`, and the byte of the pool at `o + off` is `k`.
A 32-bit alias or a float32 alias `k` has `off = 0` and `k` is the low half of
`v`, or `off = 4` and `k` is the high half, and the four bytes of the pool
from `o + off` on hold `k`.  A float64 alias `k` has `off = 0` and `k = v`,
and the eight bytes from `o` on hold `k`.  In each case the names of the
constant are defined at `o + off` by a line of the round. -/
theorem printu64.round_aliases (uniq : List String → List String) (c : constpool) (i : Nat)
    (o : Int) (v : Nat) :
    (∀ (k : Nat) (off : Int),
      printu64.u8alias (constpool.keys c.bytes) v = (k, off) → off ≠ -1 →
        0 ≤ off ∧ off < 8 ∧ k ∈ constpool.keys c.bytes
        ∧ k = (v / 2 ^ (8 * off.toNat)) % 2 ^ 8
        ∧ poolByte o v (o + off) = k
        ∧ ∀ name ∈ uniq (constpool.at c.bytes k),
            Line.define name (o + off) ∈ (printu64.round uniq c i o v).2)
    ∧ (∀ (k : Nat) (off : Int),
      printu64.u32alias (constpool.keys c.dword) v = (k, off) → off ≠ -1 →
        ((off = 0 ∧ k = v % 2 ^ 32) ∨ (off = 4 ∧ k = (v / 2 ^ 32) % 2 ^ 32))
        ∧ k ∈ constpool.keys c.dword
        ∧ poolValue (poolByte o v) (o + off) 4 = k
        ∧ ∀ name ∈ uniq (constpool.at c.dword k),
            Line.define name (o + off) ∈ (printu64.round uniq c i o v).2)
    ∧ (∀ (k : Nat) (off : Int),
      printu64.f32alias (constpool.keys c.f32) v = (k, off) → off ≠ -1 →
        ((off = 0 ∧ k = v % 2 ^ 32) ∨ (off = 4 ∧ k = (v / 2 ^ 32) % 2 ^ 32))
        ∧ k ∈ constpool.keys c.f32
        ∧ poolValue (poolByte o v) (o + off) 4 = k
        ∧ ∀ name ∈ uniq (constpool.at c.f32 k),
            Line.define name (o + off) ∈ (printu64.round uniq c i o v).2)
    ∧ (∀ (k : Nat) (off : Int),
      printu64.f64alias (constpool.keys c.f64) v = (k, off) → off ≠ -1 → v < 2 ^ 64 →
        off = 0 ∧ k = v ∧ k ∈ constpool.keys c.f64
        ∧ poolValue (poolByte o v) (o + off) 8 = k
        ∧ ∀ name ∈ uniq (constpool.at c.f64 k),
            Line.define name (o + off) ∈ (printu64.round uniq c i o v).2) := by
  have h32 : ∀ (keys : List Nat) (k : Nat) (off : Int),
      printu64.u32alias keys v = (k, off) → off ≠ -1 →
        ((off = 0 ∧ k = v % 2 ^ 32) ∨ (off = 4 ∧ k = (v / 2 ^ 32) % 2 ^ 32)) ∧ k ∈ keys := by
    intro keys k off h hoff
    unfold printu64.u32alias at h
    simp only [] at h
    by_cases h1 : v % 2 ^ 32 ∈ keys
    · rw [if_pos h1] at h
      simp only [Prod.mk.injEq] at h
      exact ⟨Or.inl ⟨h.2.symm, h.1.symm⟩, h.1 ▸ h1⟩
    · rw [if_neg h1] at h
      by_cases h2 : (v / 2 ^ 32) % 2 ^ 32 ∈ keys
      · rw [if_pos h2] at h
        simp only [Prod.mk.injEq] at h
        exact ⟨Or.inr ⟨h.2.symm, h.1.symm⟩, h.1 ▸ h2⟩
      · rw [if_neg h2] at h
        simp only [Prod.mk.injEq] at h
        exact absurd h.2.symm hoff
  have hval : ∀ (k : Nat) (off : Int),
      ((off = 0 ∧ k = v % 2 ^ 32) ∨ (off = 4 ∧ k = (v / 2 ^ 32) % 2 ^ 32)) →
      poolValue (poolByte o v) (o + off) 4 = k := by
    intro k off h
    rcases h with ⟨h1, h2⟩ | ⟨h1, h2⟩
    · subst h1 h2
      have := poolValue_poolByte o v 4 0 (by omega)
      simpa using this
    · subst h1 h2
      have := poolValue_poolByte o v 4 4 (by omega)
      simpa using this
  refine ⟨fun k off h hoff => ?_, fun k off h hoff => ?_, fun k off h hoff => ?_,
    fun k off h hoff hv => ?_⟩
  · obtain ⟨h1, h2, h3, h4⟩ := printu64.u8alias.loop_range _ 8 0 v k off h hoff
    have h0 : 0 ≤ off := by simpa using h1
    have h8 : off < 8 := by simpa using h2
    have hk : k = (v / 2 ^ (8 * off.toNat)) % 2 ^ 8 := by simpa using h4
    refine ⟨h0, h8, h3, hk, ?_, fun name hn => ?_⟩
    · have hoffn : off = ((off.toNat : Nat) : Int) := (Int.toNat_of_nonneg h0).symm
      have := poolValue_poolByte o v 1 off.toNat (by omega)
      rw [← hoffn] at this
      simp only [poolValue, Nat.mul_zero, Nat.add_zero, Nat.mul_one] at this
      rw [this, hk]
    · rw [printu64.round_lines, h]
      simp only [if_pos hoff, define, List.mem_append, List.mem_map]
      exact Or.inl (Or.inl (Or.inl (Or.inl (Or.inl (Or.inr ⟨name, hn, rfl⟩)))))
  · obtain ⟨h1, h2⟩ := h32 _ k off h hoff
    refine ⟨h1, h2, hval k off h1, fun name hn => ?_⟩
    rw [printu64.round_lines, h]
    simp only [if_pos hoff, define, List.mem_append, List.mem_map]
    exact Or.inl (Or.inl (Or.inl (Or.inl (Or.inr ⟨name, hn, rfl⟩))))
  · obtain ⟨h1, h2⟩ := h32 _ k off h hoff
    refine ⟨h1, h2, hval k off h1, fun name hn => ?_⟩
    rw [printu64.round_lines, h]
    simp only [if_pos hoff, define, List.mem_append, List.mem_map]
    exact Or.inl (Or.inl (Or.inl (Or.inr ⟨name, hn, rfl⟩)))
  · unfold printu64.f64alias at h
    by_cases h1 : v ∈ constpool.keys c.f64
    · rw [if_pos h1] at h
      simp only [Prod.mk.injEq] at h
      obtain ⟨hk, ho⟩ := h
      subst hk ho
      refine ⟨rfl, rfl, h1, ?_, fun name hn => ?_⟩
      · have := poolValue_poolByte o v 8 0 (by omega)
        simp only [Nat.cast_zero, Nat.mul_zero, pow_zero, Nat.div_one] at this
        rw [this]
        exact Nat.mod_eq_of_lt hv
      · have hf : printu64.f64alias (constpool.keys c.f64) v = (v, 0) := by
          simp [printu64.f64alias, h1]
        rw [printu64.round_lines, hf]
        simp only [if_pos hoff, define, List.mem_append, List.mem_map]
        exact Or.inl (Or.inl (Or.inr ⟨name, hn, rfl⟩))
    · rw [if_neg h1] at h
      simp only [Prod.mk.injEq] at h
      exact absurd h.2.symm hoff

end Sneller

namespace Sneller

/-! ## Packing strings -/

theorem stringsContains_iff (s substr : Bytes) : stringsContains s substr = true ↔ substr <:+: s := by
  simp [stringsContains]

theorem costfunc_eq (compacted : Bytes) (set : List Bytes) :
    costfunc compacted set = (set.filter (stringsContains compacted)).length := by
  have h : ∀ (l : List Bytes) (n : Nat),
      l.foldl (fun n s => if stringsContains compacted s then n + 1 else n) n
        = n + (l.filter (stringsContains compacted)).length := by
    intro l
    induction l with
    | nil => intro n; rfl
    | cons s rest ih =>
      intro n
      by_cases hs : stringsContains compacted s = true
      · simp only [List.foldl_cons, hs, if_true, List.filter_cons_of_pos, List.length_cons]
        rw [ih]
        omega
      · simp only [List.foldl_cons, hs, Bool.false_eq_true, if_false]
        rw [ih, List.filter_cons_of_neg hs]
  unfold costfunc
  rw [h]
  omega

theorem prune_eq (compacted : Bytes) (set : List Bytes) :
    prune compacted set = set.filter (fun s => !stringsContains compacted s) := by
  have h : ∀ (l acc : List Bytes),
      l.foldl (fun tmp s => if !stringsContains compacted s then tmp ++ [s] else tmp) acc
        = acc ++ l.filter (fun s => !stringsContains compacted s) := by
    intro l
    induction l with
    | nil => intro acc; simp
    | cons s rest ih =>
      intro acc
      by_cases hs : stringsContains compacted s = true
      · simp only [List.foldl_cons, hs, Bool.not_true, Bool.false_eq_true, if_false]
        rw [ih, List.filter_cons_of_neg (by simp [hs])]
      · have hs1 : stringsContains compacted s = false := by simpa using hs
        simp only [List.foldl_cons, hs1, Bool.not_false, if_true]
        rw [ih, List.filter_cons_of_pos (by simp [hs1])]
        simp
  unfold prune
  rw [h]
  rfl

theorem prune_length (compacted : Bytes) (set : List Bytes) :
    (prune compacted set).length + costfunc compacted set = set.length := by
  rw [prune_eq, costfunc_eq]
  induction set with
  | nil => rfl
  | cons s rest ih =>
    by_cases hs : stringsContains compacted s = true
    · simp only [List.filter, hs, Bool.not_true, List.length_cons]
      simp only [List.filter] at ih
      omega
    · have hs1 : stringsContains compacted s = false := by simpa using hs
      simp only [List.filter, hs1, Bool.not_false, List.length_cons]
      simp only [List.filter] at ih
      omega

theorem allsubstrings_self (w : Bytes) (h : w ≠ []) : w ∈ allsubstrings w := by
  have hpos : 0 < w.length := List.length_pos.2 h
  unfold allsubstrings
  rw [List.mem_flatMap]
  refine ⟨0, List.mem_range.2 hpos, ?_⟩
  rw [List.mem_map]
  refine ⟨w.length - 1, ?_, ?_⟩
  · simp only [List.drop_zero]
    exact List.mem_range.2 (by omega)
  · have : w.length - 1 + 1 = w.length := by omega
    rw [this, List.take_length, List.drop_zero]

theorem costfunc_pos_of_mem (compacted w : Bytes) (uniq : List Bytes) (hw : w ∈ uniq)
    (hc : w <:+: compacted) : 1 ≤ costfunc compacted uniq := by
  rw [costfunc_eq]
  apply List.length_pos_of_mem (a := w)
  rw [List.mem_filter]
  exact ⟨hw, (stringsContains_iff _ _).2 hc⟩

theorem packstringsaux.candidate_ge (uniq : List Bytes) (best : Bytes × Nat) (tmp : Bytes) :
    best.2 ≤ (packstringsaux.candidate uniq best tmp).2
      ∧ costfunc tmp uniq ≤ (packstringsaux.candidate uniq best tmp).2 := by
  unfold packstringsaux.candidate
  simp only []
  split
  · constructor <;> omega
  · constructor <;> omega

theorem packstringsaux.candidate_found (compacted : Bytes) (uniq : List Bytes)
    (best : Bytes × Nat) (tmp : Bytes) (hb : packstringsaux.Found compacted uniq best)
    (ht : compacted <:+: tmp) :
    packstringsaux.Found compacted uniq (packstringsaux.candidate uniq best tmp) := by
  unfold packstringsaux.candidate
  simp only []
  split
  · exact Or.inr ⟨rfl, ht⟩
  · exact hb

theorem List.foldl_keeps {α β : Type} (f : β → α → β) (P : β → Prop) (l : List α) :
    ∀ init : β, P init → (∀ acc x, P acc → P (f acc x)) → P (l.foldl f init) := by
  induction l with
  | nil => intro init h _; exact h
  | cons x rest ih =>
    intro init h hstep
    exact ih (f init x) (hstep init x h) hstep

theorem List.foldl_reaches {α β : Type} (f : β → α → β) (R : β → Prop) (l : List α) (x0 : α)
    (hx : x0 ∈ l) (h0 : ∀ acc, R (f acc x0)) (hstep : ∀ acc x, R acc → R (f acc x)) :
    ∀ init : β, R (l.foldl f init) := by
  induction l with
  | nil => simp at hx
  | cons x rest ih =>
    intro init
    rcases List.mem_cons.1 hx with rfl | hx
    · exact List.foldl_keeps f R rest (f init x0) (h0 init) hstep
    · exact ih hx (f init x)

theorem packstringsaux.search_found (compacted : Bytes) (uniq : List Bytes) :
    packstringsaux.Found compacted uniq (packstringsaux.search compacted uniq) := by
  unfold packstringsaux.search
  apply List.foldl_keeps _ (packstringsaux.Found compacted uniq)
  · exact Or.inl rfl
  · intro acc word hacc
    apply List.foldl_keeps _ (packstringsaux.Found compacted uniq) _ acc hacc
    intro acc1 s h1
    apply packstringsaux.candidate_found
    · apply packstringsaux.candidate_found _ _ _ _ h1
      exact (List.prefix_append compacted s).isInfix
    · exact (List.suffix_append s compacted).isInfix

theorem packstringsaux.search_ge (compacted : Bytes) (uniq : List Bytes) (w : Bytes)
    (hw : w ∈ uniq) (hne : w ≠ []) :
    1 ≤ (packstringsaux.search compacted uniq).2 := by
  have hcost : 1 ≤ costfunc (compacted ++ w) uniq :=
    costfunc_pos_of_mem _ w uniq hw (List.suffix_append compacted w).isInfix
  have hinner : ∀ (acc : Bytes × Nat) (s : Bytes), 1 ≤ acc.2 →
      1 ≤ (packstringsaux.candidate uniq
        (packstringsaux.candidate uniq acc (compacted ++ s)) (s ++ compacted)).2 := by
    intro acc s h
    have h1 := (packstringsaux.candidate_ge uniq acc (compacted ++ s)).1
    have h2 := (packstringsaux.candidate_ge uniq
      (packstringsaux.candidate uniq acc (compacted ++ s)) (s ++ compacted)).1
    omega
  unfold packstringsaux.search
  apply List.foldl_reaches _ (fun best : Bytes × Nat => 1 ≤ best.2) uniq w hw
  · intro acc
    apply List.foldl_reaches _ (fun best : Bytes × Nat => 1 ≤ best.2) (allsubstrings w) w
      (allsubstrings_self w hne)
    · intro acc1
      have h1 := (packstringsaux.candidate_ge uniq acc1 (compacted ++ w)).2
      have h2 := (packstringsaux.candidate_ge uniq
        (packstringsaux.candidate uniq acc1 (compacted ++ w)) (w ++ compacted)).1
      show 1 ≤ _
      omega
    · intro acc1 s h
      exact hinner acc1 s h
  · intro acc word h
    exact List.foldl_keeps _ (fun best : Bytes × Nat => 1 ≤ best.2) _ acc h
      (fun acc1 s h1 => hinner acc1 s h1)

/-- A round of packstringsaux that goes on takes at least one string off the
list. -/
theorem packstringsaux.round_shrinks (compacted : Bytes) (uniq : List Bytes)
    (h : (packstringsaux.search compacted uniq).2 ≠ 0) :
    (prune (packstringsaux.search compacted uniq).1 uniq).length < uniq.length := by
  have hlen := prune_length (packstringsaux.search compacted uniq).1 uniq
  rcases packstringsaux.search_found compacted uniq with h0 | ⟨h1, _⟩
  · exact absurd h0 h
  · omega

theorem packstringsaux.loop_returns (fuel : Nat) :
    ∀ (compacted : Bytes) (uniq : List Bytes), uniq.length ≤ fuel →
      ∃ r, packstringsaux.loop fuel compacted uniq = some r
        ∧ compacted <:+: r ∧ ∀ s ∈ uniq, s <:+: r := by
  induction fuel with
  | zero =>
    intro compacted uniq h
    have : uniq = [] := List.eq_nil_of_length_eq_zero (by omega)
    subst this
    exact ⟨compacted, rfl, List.infix_refl _, by simp⟩
  | succ fuel ih =>
    intro compacted uniq h
    cases uniq with
    | nil => exact ⟨compacted, rfl, List.infix_refl _, by simp⟩
    | cons w rest =>
      unfold packstringsaux.loop
      simp only []
      by_cases h0 : (packstringsaux.search compacted (w :: rest)).2 = 0
      · rw [if_pos h0]
        refine ⟨compacted, rfl, List.infix_refl _, fun s hs => ?_⟩
        by_cases hne : s = []
        · rw [hne]
          exact List.nil_infix
        · have := packstringsaux.search_ge compacted (w :: rest) s hs hne
          omega
      · rw [if_neg h0]
        have hshrink := packstringsaux.round_shrinks compacted (w :: rest) h0
        have hfound := packstringsaux.search_found compacted (w :: rest)
        have hin : compacted <:+: (packstringsaux.search compacted (w :: rest)).1 := by
          rcases hfound with hz | ⟨_, hi⟩
          · exact absurd hz h0
          · exact hi
        obtain ⟨r, hr, hbr, hall⟩ := ih (packstringsaux.search compacted (w :: rest)).1
          (prune (packstringsaux.search compacted (w :: rest)).1 (w :: rest))
          (by simp only [List.length_cons] at h hshrink; omega)
        refine ⟨r, hr, hin.trans hbr, fun s hs => ?_⟩
        by_cases hc : stringsContains (packstringsaux.search compacted (w :: rest)).1 s = true
        · exact ((stringsContains_iff _ _).1 hc).trans hbr
        · apply hall
          rw [prune_eq, List.mem_filter]
          exact ⟨hs, by simpa using hc⟩

theorem packstringsaux.loop_more (fuel : Nat) :
    ∀ (compacted : Bytes) (uniq : List Bytes) (r : Bytes),
      packstringsaux.loop fuel compacted uniq = some r →
      packstringsaux.loop (fuel + 1) compacted uniq = some r := by
  induction fuel with
  | zero =>
    intro compacted uniq r h
    cases uniq with
    | nil => exact h
    | cons w rest => simp [packstringsaux.loop] at h
  | succ fuel ih =>
    intro compacted uniq r h
    cases uniq with
    | nil => exact h
    | cons w rest =>
      unfold packstringsaux.loop at h ⊢
      simp only [] at h ⊢
      by_cases h0 : (packstringsaux.search compacted (w :: rest)).2 = 0
      · rw [if_pos h0] at h ⊢
        exact h
      · rw [if_neg h0] at h ⊢
        exact ih _ _ r h

/-- C36: packstringsaux returns for every list of strings, within as many
rounds as the list has strings, and every string of the list is within the
string it returns.  A round whose best cost is not 0 takes at least one
string off the work list, and a round whose best cost is 0 ends the loop.
More rounds allowed give the same result. -/
theorem packstringsaux_spec (uniq : List Bytes) :
    (∃ r, packstringsaux uniq = some r ∧ ∀ s ∈ uniq, s <:+: r)
    ∧ (∀ (compacted : Bytes) (work : List Bytes),
        (packstringsaux.search compacted work).2 ≠ 0 →
        (prune (packstringsaux.search compacted work).1 work).length < work.length)
    ∧ (∀ (fuel : Nat) (compacted : Bytes) (work : List Bytes),
        (packstringsaux.search compacted work).2 = 0 →
        packstringsaux.loop (fuel + 1) compacted work = some compacted)
    ∧ (∀ (more : Nat) (r : Bytes), packstringsaux uniq = some r →
        packstringsaux.loop (uniq.length + more) [] uniq = some r) := by
  refine ⟨?_, packstringsaux.round_shrinks, fun fuel compacted work h => ?_,
    fun more r h => ?_⟩
  · obtain ⟨r, hr, _, hall⟩ := packstringsaux.loop_returns uniq.length [] uniq (le_refl _)
    exact ⟨r, hr, hall⟩
  · cases work with
    | nil => rfl
    | cons w rest =>
      unfold packstringsaux.loop
      simp only []
      rw [if_pos h]
  · induction more with
    | zero => exact h
    | succ more ih => exact packstringsaux.loop_more _ _ _ r ih

/-- C36, on the strings `ab` and `bc`, in both orders: packstringsaux gives
`abbc` and `abc`. -/
theorem packstringsaux_spec_witness :
    packstringsaux [[97, 98], [98, 99]] = some [97, 98, 98, 99]
    ∧ packstringsaux [[98, 99], [97, 98]] = some [97, 98, 99]
    ∧ packstringsaux.loop (2 + 3) [] [[98, 99], [97, 98]] = some [97, 98, 99] :=
  ⟨by decide, by decide,
    (packstringsaux_spec [[98, 99], [97, 98]]).2.2.2 3 [97, 98, 99] (by decide)⟩

/-- C32: packstrings on the set that holds the string `a` alone, and on the
set of `ab` and `cd`, whatever the order in which shuffle leaves them.  No
packing is shorter than the strings together, so `compacted` is never
assigned and packstrings returns the empty string, which holds no member of
the set; packstringsaux on the same strings returns `a`, and `abcd`. -/
theorem packstrings_returns_empty :
    (packstrings sortStrings (fun _ => ()) (fun l r => (l, r)) [[97]] = some []
      ∧ packstringsaux [[97]] = some [97]
      ∧ ¬ ([97] : Bytes) <:+: [])
    ∧ (packstrings sortStrings (fun _ => ()) (fun l r => (l, r)) [[99, 100], [97, 98]] = some []
      ∧ packstrings sortStrings (fun _ => ()) (fun l r => (l.reverse, r)) [[99, 100], [97, 98]]
        = some []
      ∧ packstringsaux [[97, 98], [99, 100]] = some [97, 98, 99, 100]
      ∧ ¬ ([97, 98] : Bytes) <:+: []) := by
  refine ⟨⟨?_, ?_, ?_⟩, ?_, ?_, ?_, ?_⟩ <;> decide

end Sneller

namespace Sneller

/-! ## MISSING tests on window replacements -/

/-- C14: Rewrite on `HASH_REPLACEMENT(0, "scalar", "$__key", k, NULL) IS
MISSING`, the expression that hoistWindows leaves in the column of `SELECT
(SUM(v) OVER (PARTITION BY k)) IS MISSING AS m FROM t`.  The method hoist
starts its walk with an empty list `in`, so the lookup `h.in[0]` is out of
range and Rewrite panics instead of returning the expression or its
replacement, and walkSelect panics with it.  With the Replacements of the
trace as the list `in`, the same call returns `NOT IN_REPLACEMENT(k, 0)`.
The index `lst[0]` of replacementNeverMissing is not guarded either: on a
pending trace without final bindings Rewrite panics as well. -/
theorem Rewrite_hash_is_missing_out_of_range :
    hoistwalk.Rewrite Pkg.plain ⟨.mk [] none [] [], [], none⟩
        (.IsKey .IsMissing (Call .HashReplacement
          [.Integer 0, .String "scalar", .String "$__key", .Path "k" [], .Null]))
      = none
    ∧ Trace.walkSelect.run Pkg.plain walkPlain (.mk [] none [] [])
        { SelectOf.zero with
          Columns := [⟨.IsKey .IsMissing (.Aggregate (.Other "SUM") (.Path "v" [])
            (some ⟨[.Path "k" []], []⟩)), "m"⟩],
          From := some (.Table ⟨.Path "t" [], ""⟩) }
      = none
    ∧ ((Trace.hoistWindows Pkg.plain (.mk [] none [] [])
        { SelectOf.zero with
          Columns := [⟨.IsKey .IsMissing (.Aggregate (.Other "SUM") (.Path "v" [])
            (some ⟨[.Path "k" []], []⟩)), "m"⟩],
          From := some (.Table ⟨.Path "t" [], ""⟩) }).bind fun r =>
          (hoistwalk.Rewrite Pkg.plain ⟨.mk [] none [] [], r.1.Replacements, none⟩
            (.IsKey .IsMissing (Call .HashReplacement
              [.Integer 0, .String "scalar", .String "$__key", .Path "k" [], .Null]))).map
            fun q => q.1)
      = some (.Not (.Builtin .InReplacement [.Path "k" [], .Integer 0]))
    ∧ hoistwalk.Rewrite Pkg.plain ⟨.mk [] none [] [], [.mk [.DummyOutput] none [] []], none⟩
        (.IsKey .IsMissing (Call .HashReplacement
          [.Integer 0, .String "scalar", .String "$__key", .Path "k" [], .Null]))
      = none := by
  refine ⟨rfl, rfl, rfl, rfl⟩

end Sneller

namespace Sneller

/-! ## The listing of printu64 as a whole -/

theorem printu64.rounds_pool (uniq : List String → List String) (l : List Nat) :
    ∀ (c : constpool) (i i2 : Nat) (off off2 : Int),
      (printu64.rounds uniq c i off l).1 = (printu64.rounds uniq c i2 off2 l).1 := by
  induction l with
  | nil => intro c i i2 off off2; rfl
  | cons u rest ih =>
    intro c i i2 off off2
    simp only [printu64.rounds]
    have h : (printu64.round uniq c i off u).1 = (printu64.round uniq c i2 off2 u).1 := rfl
    rw [h]
    exact ih _ _ _ _ _

theorem printu64.rounds_offset (uniq : List String → List String) (l : List Nat) :
    ∀ (c : constpool) (i : Nat) (off : Int),
      (printu64.rounds uniq c i off l).2.2 = off + 8 * (l.length : Int) := by
  induction l with
  | nil => intro c i off; simp [printu64.rounds]
  | cons u rest ih =>
    intro c i off
    simp only [printu64.rounds, ih, List.length_cons]
    push_cast
    ring

/-- The lines of the round for the key at the index `j` are lines of the
loop. -/
theorem printu64.rounds_mem (uniq : List String → List String) (l : List Nat) :
    ∀ (c : constpool) (i : Nat) (off : Int) (j v : Nat), l[j]? = some v →
      ∀ line ∈ (printu64.round uniq (printu64.rounds uniq c i off (l.take j)).1 (i + j)
          (off + 8 * (j : Int)) v).2,
        line ∈ (printu64.rounds uniq c i off l).2.1 := by
  induction l with
  | nil => intro c i off j v h; simp at h
  | cons u rest ih =>
    intro c i off j v h line hline
    cases j with
    | zero =>
      simp only [List.getElem?_cons_zero, Option.some.injEq] at h
      subst h
      simp only [List.take_zero, printu64.rounds, Nat.add_zero, Nat.cast_zero, mul_zero,
        add_zero] at hline
      simp only [printu64.rounds, List.mem_append]
      exact Or.inl hline
    | succ j =>
      simp only [List.getElem?_cons_succ] at h
      simp only [List.take_succ_cons, printu64.rounds] at hline
      simp only [printu64.rounds, List.mem_append]
      refine Or.inr (ih _ (i + 1) (off + 8) j v h line ?_)
      have e1 : i + 1 + j = i + (j + 1) := by omega
      have e2 : off + 8 + 8 * (j : Int) = off + 8 * ((j + 1 : Nat) : Int) := by
        push_cast
        ring
      rw [e1, e2]
      exact hline

/-- Every line of the loop is a line of the round of one key. -/
theorem printu64.rounds_mem_inv (uniq : List String → List String) (l : List Nat) :
    ∀ (c : constpool) (i : Nat) (off : Int),
      ∀ line ∈ (printu64.rounds uniq c i off l).2.1,
        ∃ (j v : Nat), l[j]? = some v
          ∧ line ∈ (printu64.round uniq (printu64.rounds uniq c i off (l.take j)).1 (i + j)
              (off + 8 * (j : Int)) v).2 := by
  induction l with
  | nil => intro c i off line h; simp [printu64.rounds] at h
  | cons u rest ih =>
    intro c i off line h
    simp only [printu64.rounds, List.mem_append] at h
    rcases h with h | h
    · refine ⟨0, u, by simp, ?_⟩
      simpa [printu64.rounds] using h
    · obtain ⟨j, v, hj, hl⟩ := ih _ (i + 1) (off + 8) line h
      refine ⟨j + 1, v, by simpa using hj, ?_⟩
      have e1 : i + 1 + j = i + (j + 1) := by omega
      have e2 : off + 8 + 8 * (j : Int) = off + 8 * ((j + 1 : Nat) : Int) := by
        push_cast
        ring
      rw [e1, e2] at hl
      simpa only [List.take_succ_cons, printu64.rounds] using hl

theorem poolImage_append_define (names : List String) (o : Int) (rest : List Line) (a : Int) :
    poolImage (names.map (fun name => Line.define name o) ++ rest) a = poolImage rest a := by
  induction names with
  | nil => rfl
  | cons n ns ih => simpa [poolImage] using ih

/-- The pool image of the lines of a round followed by further lines: the
data line of the round decides the eight bytes from its offset on. -/
theorem printu64.round_image (uniq : List String → List String) (c : constpool) (i : Nat)
    (o : Int) (v : Nat) (rest : List Line) (a : Int) :
    poolImage ((printu64.round uniq c i o v).2 ++ rest) a
      = if o ≤ a ∧ a < o + 8 then poolByte o v a else poolImage rest a := by
  rw [printu64.round_lines]
  have hd : ∀ (p : Prop) [Decidable p] (names : List String) (o2 : Int) (r : List Line),
      poolImage ((if p then define uniq names o2 else []) ++ r) a = poolImage r a := by
    intro p _ names o2 r
    by_cases hp : p
    · rw [if_pos hp]
      exact poolImage_append_define _ _ _ _
    · rw [if_neg hp]
      rfl
  have ht : ∀ (r : List Line), poolImage ((if i > 0 then [Line.text ""] else []) ++ r) a
      = poolImage r a := by
    intro r
    by_cases hi : i > 0
    · rw [if_pos hi]
      rfl
    · rw [if_neg hi]
      rfl
  simp only [List.append_assoc]
  rw [ht, hd, hd, hd, hd]
  unfold define
  rw [poolImage_append_define]
  rfl

theorem printu64.rounds_image (uniq : List String → List String) (l : List Nat) :
    ∀ (c : constpool) (i : Nat) (off : Int) (j v : Nat), l[j]? = some v →
      ∀ a : Int, off + 8 * (j : Int) ≤ a → a < off + 8 * (j : Int) + 8 →
        poolImage (printu64.rounds uniq c i off l).2.1 a = poolByte (off + 8 * (j : Int)) v a := by
  induction l with
  | nil => intro c i off j v h; simp at h
  | cons u rest ih =>
    intro c i off j v h a h1 h2
    simp only [printu64.rounds]
    rw [printu64.round_image]
    cases j with
    | zero =>
      simp only [List.getElem?_cons_zero, Option.some.injEq] at h
      subst h
      simp only [Nat.cast_zero, mul_zero, add_zero] at h1 h2 ⊢
      rw [if_pos ⟨h1, h2⟩]
    | succ j =>
      simp only [List.getElem?_cons_succ] at h
      have e2 : off + 8 * ((j + 1 : Nat) : Int) = off + 8 + 8 * (j : Int) := by
        push_cast
        ring
      rw [e2] at h1 h2 ⊢
      have hn : ¬ (off ≤ a ∧ a < off + 8) := by
        intro hh
        have : (0 : Int) ≤ (j : Int) := Int.ofNat_nonneg j
        omega
      rw [if_neg hn]
      exact ih _ (i + 1) (off + 8) j v h a h1 h2

theorem poolValue_congr (m1 m2 : Int → Nat) (n : Nat) :
    ∀ a : Int, (∀ x : Int, a ≤ x → x < a + n → m1 x = m2 x) →
      poolValue m1 a n = poolValue m2 a n := by
  induction n with
  | zero => intro a h; rfl
  | succ n ih =>
    intro a h
    simp only [poolValue]
    rw [h a (le_refl _) (by push_cast; omega), ih (a + 1) (fun x hx1 hx2 => h x (by omega)
      (by push_cast; omega))]
theorem printu64.lines_mem (uniq : List String → List String) (c : constpool) (offset : Int)
    (line : Line) (h : line ∈ (printu64.rounds uniq c 0 offset c.u64keys).2.1) :
    line ∈ (constpool.printu64 uniq c offset).2.1 := by
  simp only [constpool.printu64, List.mem_append]
  exact Or.inr h

theorem printu64.lines_image (uniq : List String → List String) (c : constpool) (offset : Int)
    (a : Int) :
    poolImage (constpool.printu64 uniq c offset).2.1 a
      = poolImage (printu64.rounds uniq c 0 offset c.u64keys).2.1 a := by
  simp [constpool.printu64, poolImage]

theorem printu64.poolAt_eq (uniq : List String → List String) (c : constpool) (offset : Int)
    (j : Nat) :
    (printu64.rounds uniq c 0 offset (c.u64keys.take j)).1 = printu64.poolAt uniq c j :=
  printu64.rounds_pool uniq _ c 0 0 offset 0

theorem define_mem_if (uniq : List String → List String) (p : Prop) [Decidable p]
    (names : List String) (o a : Int) (name : String)
    (h : Line.define name a ∈ (if p then define uniq names o else [])) :
    p ∧ a = o ∧ name ∈ uniq names := by
  by_cases hp : p
  · rw [if_pos hp] at h
    simp only [define, List.mem_map] at h
    obtain ⟨n, hn, he⟩ := h
    simp only [Line.define.injEq] at he
    exact ⟨hp, he.2.symm, he.1 ▸ hn⟩
  · rw [if_neg hp] at h
    simp at h

/-- C37: the listing that printu64 writes for a pool with the 64-bit keys
`c.u64keys`, starting at the offset `offset`.  The call returns `offset + 8 *
len(keys)`; for the key `v` at the index `j` the listing holds the data line
that stores `v` at `o = offset + 8 * j`, and the eight bytes of the pool image
of the listing from `o` on are the bytes of `v` in little-endian order.  Let
the round of `v` find an alias in the pool as the rounds before it left it.
A byte alias `k` at `off` has `0 ≤ off < 8`, `k` is byte number `off` of `v`,
and the byte of the pool image at `o + off` is `k`.  A 32-bit alias or a
float32 alias `k` has `off = 0` and `k` is the low half of `v`, or `off = 4`
and `k` is the high half, and the four bytes of the pool image from `o + off`
on hold `k`.  A float64 alias `k` has `off = 0` and `k = v`, and the eight
bytes from `o` on hold `k`.  In each case the listing defines every name of
the constant at `o + off`.  Conversely every define line of the listing is
one of these, or the define of a name of `v` itself at `o`. -/
theorem printu64_alias_offsets (uniq : List String → List String) (c : constpool)
    (offset : Int) :
    (constpool.printu64 uniq c offset).2.2 = offset + 8 * (c.u64keys.length : Int)
    ∧ (∀ (j v : Nat), c.u64keys[j]? = some v →
        Line.dataU64 (offset + 8 * (j : Int)) v ∈ (constpool.printu64 uniq c offset).2.1
        ∧ (∀ a : Int, offset + 8 * (j : Int) ≤ a → a < offset + 8 * (j : Int) + 8 →
            poolImage (constpool.printu64 uniq c offset).2.1 a
              = poolByte (offset + 8 * (j : Int)) v a)
        ∧ (∀ (k : Nat) (off : Int),
            printu64.u8alias (constpool.keys (printu64.poolAt uniq c j).bytes) v = (k, off) →
            off ≠ -1 →
              0 ≤ off ∧ off < 8 ∧ k = (v / 2 ^ (8 * off.toNat)) % 2 ^ 8
              ∧ poolImage (constpool.printu64 uniq c offset).2.1
                  (offset + 8 * (j : Int) + off) = k
              ∧ ∀ name ∈ uniq (constpool.at (printu64.poolAt uniq c j).bytes k),
                  Line.define name (offset + 8 * (j : Int) + off)
                    ∈ (constpool.printu64 uniq c offset).2.1)
        ∧ (∀ (k : Nat) (off : Int),
            printu64.u32alias (constpool.keys (printu64.poolAt uniq c j).dword) v = (k, off) →
            off ≠ -1 →
              ((off = 0 ∧ k = v % 2 ^ 32) ∨ (off = 4 ∧ k = (v / 2 ^ 32) % 2 ^ 32))
              ∧ poolValue (poolImage (constpool.printu64 uniq c offset).2.1)
                  (offset + 8 * (j : Int) + off) 4 = k
              ∧ ∀ name ∈ uniq (constpool.at (printu64.poolAt uniq c j).dword k),
                  Line.define name (offset + 8 * (j : Int) + off)
                    ∈ (constpool.printu64 uniq c offset).2.1)
        ∧ (∀ (k : Nat) (off : Int),
            printu64.f32alias (constpool.keys (printu64.poolAt uniq c j).f32) v = (k, off) →
            off ≠ -1 →
              ((off = 0 ∧ k = v % 2 ^ 32) ∨ (off = 4 ∧ k = (v / 2 ^ 32) % 2 ^ 32))
              ∧ poolValue (poolImage (constpool.printu64 uniq c offset).2.1)
                  (offset + 8 * (j : Int) + off) 4 = k
              ∧ ∀ name ∈ uniq (constpool.at (printu64.poolAt uniq c j).f32 k),
                  Line.define name (offset + 8 * (j : Int) + off)
                    ∈ (constpool.printu64 uniq c offset).2.1)
        ∧ (∀ (k : Nat) (off : Int),
            printu64.f64alias (constpool.keys (printu64.poolAt uniq c j).f64) v = (k, off) →
            off ≠ -1 → v < 2 ^ 64 →
              off = 0 ∧ k = v
              ∧ poolValue (poolImage (constpool.printu64 uniq c offset).2.1)
                  (offset + 8 * (j : Int) + off) 8 = k
              ∧ ∀ name ∈ uniq (constpool.at (printu64.poolAt uniq c j).f64 k),
                  Line.define name (offset + 8 * (j : Int) + off)
                    ∈ (constpool.printu64 uniq c offset).2.1))
    ∧ (∀ (name : String) (a : Int),
        Line.define name a ∈ (constpool.printu64 uniq c offset).2.1 →
        ∃ (j v : Nat), c.u64keys[j]? = some v ∧
          ((a = offset + 8 * (j : Int)
              ∧ name ∈ uniq (constpool.at (printu64.poolAt uniq c j).qword v))
          ∨ (∃ (k : Nat) (off : Int),
              printu64.u8alias (constpool.keys (printu64.poolAt uniq c j).bytes) v = (k, off)
              ∧ off ≠ -1 ∧ a = offset + 8 * (j : Int) + off
              ∧ name ∈ uniq (constpool.at (printu64.poolAt uniq c j).bytes k))
          ∨ (∃ (k : Nat) (off : Int),
              printu64.u32alias (constpool.keys (printu64.poolAt uniq c j).dword) v = (k, off)
              ∧ off ≠ -1 ∧ a = offset + 8 * (j : Int) + off
              ∧ name ∈ uniq (constpool.at (printu64.poolAt uniq c j).dword k))
          ∨ (∃ (k : Nat) (off : Int),
              printu64.f32alias (constpool.keys (printu64.poolAt uniq c j).f32) v = (k, off)
              ∧ off ≠ -1 ∧ a = offset + 8 * (j : Int) + off
              ∧ name ∈ uniq (constpool.at (printu64.poolAt uniq c j).f32 k))
          ∨ (∃ (k : Nat) (off : Int),
              printu64.f64alias (constpool.keys (printu64.poolAt uniq c j).f64) v = (k, off)
              ∧ off ≠ -1 ∧ a = offset + 8 * (j : Int) + off
              ∧ name ∈ uniq (constpool.at (printu64.poolAt uniq c j).f64 k)))) := by
  refine ⟨?_, fun j v hj => ?_, fun name a hmem => ?_⟩
  · simp only [constpool.printu64]
    exact printu64.rounds_offset uniq _ c 0 offset
  · have hround : ∀ line ∈ (printu64.round uniq (printu64.poolAt uniq c j) (0 + j)
          (offset + 8 * (j : Int)) v).2, line ∈ (constpool.printu64 uniq c offset).2.1 := by
      intro line hl
      apply printu64.lines_mem
      have := printu64.rounds_mem uniq c.u64keys c 0 offset j v hj
      rw [printu64.poolAt_eq] at this
      exact this line hl
    have himg : ∀ a : Int, offset + 8 * (j : Int) ≤ a → a < offset + 8 * (j : Int) + 8 →
        poolImage (constpool.printu64 uniq c offset).2.1 a
          = poolByte (offset + 8 * (j : Int)) v a := by
      intro a h1 h2
      rw [printu64.lines_image]
      exact printu64.rounds_image uniq c.u64keys c 0 offset j v hj a h1 h2
    have hval : ∀ (off : Int) (n : Nat), 0 ≤ off → off + n ≤ 8 →
        poolValue (poolImage (constpool.printu64 uniq c offset).2.1)
            (offset + 8 * (j : Int) + off) n
          = poolValue (poolByte (offset + 8 * (j : Int)) v) (offset + 8 * (j : Int) + off) n := by
      intro off n h0 h8
      apply poolValue_congr
      intro x hx1 hx2
      exact himg x (by omega) (by omega)
    obtain ⟨h8, h32, hf32, hf64⟩ := printu64.round_aliases uniq (printu64.poolAt uniq c j)
      (0 + j) (offset + 8 * (j : Int)) v
    refine ⟨?_, himg, fun k off h hoff => ?_, fun k off h hoff => ?_, fun k off h hoff => ?_,
      fun k off h hoff hv => ?_⟩
    · apply hround
      rw [printu64.round_lines]
      simp
    · obtain ⟨a0, a8, _, hk, hb, hn⟩ := h8 k off h hoff
      refine ⟨a0, a8, hk, ?_, fun name hname => hround _ (hn name hname)⟩
      rw [himg _ (by omega) (by omega)]
      exact hb
    · obtain ⟨hcase, _, hb, hn⟩ := h32 k off h hoff
      refine ⟨hcase, ?_, fun name hname => hround _ (hn name hname)⟩
      rw [hval off 4 (by rcases hcase with ⟨h1, _⟩ | ⟨h1, _⟩ <;> omega)
        (by rcases hcase with ⟨h1, _⟩ | ⟨h1, _⟩ <;> (push_cast; omega))]
      exact hb
    · obtain ⟨hcase, _, hb, hn⟩ := hf32 k off h hoff
      refine ⟨hcase, ?_, fun name hname => hround _ (hn name hname)⟩
      rw [hval off 4 (by rcases hcase with ⟨h1, _⟩ | ⟨h1, _⟩ <;> omega)
        (by rcases hcase with ⟨h1, _⟩ | ⟨h1, _⟩ <;> (push_cast; omega))]
      exact hb
    · obtain ⟨ho, hk, _, hb, hn⟩ := hf64 k off h hoff hv
      refine ⟨ho, hk, ?_, fun name hname => hround _ (hn name hname)⟩
      rw [hval off 8 (by omega) (by push_cast; omega)]
      exact hb
  · have hin : Line.define name a ∈ (printu64.rounds uniq c 0 offset c.u64keys).2.1 := by
      simpa [constpool.printu64] using hmem
    obtain ⟨j, v, hj, hl⟩ := printu64.rounds_mem_inv uniq c.u64keys c 0 offset _ hin
    rw [printu64.poolAt_eq, printu64.round_lines] at hl
    refine ⟨j, v, hj, ?_⟩
    simp only [List.mem_append, List.mem_singleton] at hl
    rcases hl with (((((hl | hl) | hl) | hl) | hl) | hl) | hl
    · by_cases hi : 0 + j > 0
      · rw [if_pos hi] at hl
        simp at hl
      · rw [if_neg hi] at hl
        simp at hl
    · obtain ⟨hp, ha, hn⟩ := define_mem_if uniq _ _ _ _ _ hl
      exact Or.inr (Or.inl ⟨_, _, rfl, hp, ha, hn⟩)
    · obtain ⟨hp, ha, hn⟩ := define_mem_if uniq _ _ _ _ _ hl
      exact Or.inr (Or.inr (Or.inl ⟨_, _, rfl, hp, ha, hn⟩))
    · obtain ⟨hp, ha, hn⟩ := define_mem_if uniq _ _ _ _ _ hl
      exact Or.inr (Or.inr (Or.inr (Or.inl ⟨_, _, rfl, hp, ha, hn⟩)))
    · obtain ⟨hp, ha, hn⟩ := define_mem_if uniq _ _ _ _ _ hl
      exact Or.inr (Or.inr (Or.inr (Or.inr ⟨_, _, rfl, hp, ha, hn⟩)))
    · simp only [define, List.mem_map] at hl
      obtain ⟨n, hn, he⟩ := hl
      simp only [Line.define.injEq] at he
      exact Or.inl ⟨he.2.symm, he.1 ▸ hn⟩
    · exact Line.noConfusion hl
/-- C37, on the value `0x0000000100007f00` stored at the offset 16 of a pool
with the byte constant `0x7f` and the 32-bit constant 1: the listing defines
the byte constant at the offset 17 and the 32-bit constant at the offset 20,
and the pool image of the listing holds `0x7f` at 17 and the value 1 in the
four bytes from 20 on. -/
theorem printu64_alias_offsets_witness :
    (constpool.printu64 (fun l => l) constpool.sample 16).2.1
      = [.text "", .text "// uint64 constants", .define "CONSTB_127" 17,
          .define "CONSTD_1" 20, .define "CONSTQ_x" 16, .dataU64 16 4294999808]
    ∧ poolImage (constpool.printu64 (fun l => l) constpool.sample 16).2.1
        (16 + 8 * ((0 : Nat) : Int) + 1) = 127
    ∧ poolValue (poolImage (constpool.printu64 (fun l => l) constpool.sample 16).2.1)
        (16 + 8 * ((0 : Nat) : Int) + 4) 4 = 1 :=
  ⟨by decide,
    (((printu64_alias_offsets (fun l => l) constpool.sample 16).2.1 0 4294999808 rfl).2.2.1
      127 1 (by decide) (by decide)).2.2.2.1,
    (((printu64_alias_offsets (fun l => l) constpool.sample 16).2.1 0 4294999808 rfl).2.2.2.1
      1 4 (by decide) (by decide)).2.1⟩

end Sneller
